import Mathlib

set_option maxRecDepth 10000

/-!
Shallow embedding of the fdeflate streaming DEFLATE/zlib decompressor core
(src/decompress.rs) and verification of the frozen claims about it.

Conventions of the embedding:
* Machine integers are modelled as `Nat`, with explicit `% 2 ^ 64` where the
  64-bit bit buffer can overflow.  Input and output bytes are `Nat`s that are
  reduced `% 256` wherever the Rust code would read them as `u8`.
* The mutable decoder is threaded explicitly; `&mut &[u8]` input cursors are
  modelled by returning the remaining input list.
* Fallible code returns `RRes`, which distinguishes caller-visible errors
  (`DecompressionError`) from Rust panics (failed `assert!`, `unreachable!`,
  out-of-bounds slice indexing).  `debug_assert!` is a release-mode no-op and
  is not modelled.
* Unbounded `while` loops take an explicit fuel argument; running out of fuel
  yields `RRes.panicked` (an artifact that no theorem relies on).
* `crate::compute_codes` and the constant tables live in repository files that
  are not under src/, so they are modelled from the spec (marked below).
-/


namespace Fdeflate

/-- The error enum of src/decompress.rs. -/
inductive DecompressionError where
  | BadZlibHeader
  | InsufficientInput
  | InvalidBlockType
  | InvalidUncompressedBlockLength
  | InvalidHlit
  | InvalidHdist
  | InvalidCodeLengthRepeat
  | BadCodeLengthHuffmanTree
  | BadLiteralLengthHuffmanTree
  | BadDistanceHuffmanTree
  | InvalidLiteralLengthCode
  | InvalidDistanceCode
  | InputStartsWithRun
  | DistanceTooFarBack
  | WrongChecksum
  | ExtraInput
  deriving DecidableEq, Repr

/-- Result of running a piece of Rust code: a value, a caller-visible error,
or a panic (also used for fuel exhaustion of the loop embeddings). -/
inductive RRes (α : Type) where
  | ok : α → RRes α
  | err : DecompressionError → RRes α
  | panicked : RRes α
  deriving DecidableEq, Repr

instance : Monad RRes where
  pure := RRes.ok
  bind x f := match x with
    | .ok a => f a
    | .err e => .err e
    | .panicked => .panicked

/-- Bounds-checked list read, panicking out of bounds like Rust slice indexing. -/
def listGetP (l : List Nat) (i : Nat) : RRes Nat :=
  if h : i < l.length then .ok (l.get ⟨i, h⟩) else .panicked

/-- Bounds-checked list write, panicking out of bounds like Rust slice indexing. -/
def listSetP (l : List Nat) (i v : Nat) : RRes (List Nat) :=
  if i < l.length then .ok (l.set i v) else .panicked

/-- Little-endian assembly of a byte list into a `Nat` (bytes are masked to 8 bits). -/
def leBytes : List Nat → Nat
  | [] => 0
  | b :: bs => b % 256 + 256 * leBytes bs

/-- Trailing zero count of a 16-bit value, 16 if the value is zero
(`u16::trailing_zeros`). -/
def tz16 : Nat → Nat → Nat
  | 0, _ => 0
  | _ + 1, 0 => 16
  | w + 1, n + 1 =>
    if (n + 1) % 2 = 1 then 0 else 1 + tz16 w ((n + 1) / 2)

/-- Byte swap of a 32-bit value (`u32::swap_bytes`). -/
def swap32 (v : Nat) : Nat :=
  (v % 256) * 2 ^ 24 + (v / 2 ^ 8 % 256) * 2 ^ 16 + (v / 2 ^ 16 % 256) * 2 ^ 8 +
    v / 2 ^ 24 % 256

/-- One step of the Adler-32 checksum: fold one byte into the running pair. -/
def adlerStep (st : Nat × Nat) (b : Nat) : Nat × Nat :=
  ((st.1 + b % 256) % 65521, (st.2 + st.1 + b % 256) % 65521)

/-- Fold a byte list into the running Adler-32 state (`Adler32::write`). -/
def adlerWrite (st : Nat × Nat) (bs : List Nat) : Nat × Nat :=
  bs.foldl adlerStep st

/-- The 32-bit Adler-32 value of a running state (`Adler32::finish`). -/
def adlerFinish (st : Nat × Nat) : Nat := st.2 * 2 ^ 16 + st.1

/-- Fixed-capacity array modelled as a binary trie indexed by the low `d`
bits of the index (least significant bit first).  A `leaf` denotes a subtree
whose entries all hold the same value, so `leaf v` is the constant array.
The two 4096-entry decoding tables use this representation (depth 12); a
plain function representation nests one closure per write, which exceeds
every evaluation stack. -/
inductive Tab (α : Type) where
  | leaf : α → Tab α
  | node : Tab α → Tab α → Tab α
  deriving DecidableEq, Repr

namespace Tab

/-- Read entry `q` of a depth-`d` trie. -/
def get {α : Type} : Nat → Tab α → Nat → α
  | _, .leaf v, _ => v
  | 0, .node l _, _ => get 0 l 0
  | d + 1, .node l r, q => if q % 2 = 0 then get d l (q / 2) else get d r (q / 2)

/-- Write value `v` at entry `q` of a depth-`d` trie. -/
def set {α : Type} : Nat → Tab α → Nat → α → Tab α
  | 0, _, _, v => .leaf v
  | d + 1, t, q, v =>
    let l := match t with | .leaf w => .leaf w | .node l _ => l
    let r := match t with | .leaf w => .leaf w | .node _ r => r
    if q % 2 = 0 then .node (set d l (q / 2) v) r else .node l (set d r (q / 2) v)

/-- Build a depth-12 trie from a list (entry `i` gets `l[i]`, rest 0). -/
def ofListLoop : List Nat → Nat → Tab Nat → Tab Nat
  | [], _, t => t
  | v :: rest, i, t => ofListLoop rest (i + 1) (t.set 12 i v)

/-- Build a depth-12 trie holding the entries of a list. -/
def ofList (l : List Nat) : Tab Nat := ofListLoop l 0 (.leaf 0)

end Tab

/-- The seven decoder states. -/
inductive State where
  | ZlibHeader
  | BlockHeader
  | CodeLengths
  | CompressedData
  | UncompressedData
  | Checksum
  | Done
  deriving DecidableEq, Repr

/-- Scratch state for an in-progress dynamic block header
(struct BlockHeader in the source).  Both arrays (the 128-entry 7-bit
lookup table and the 320-entry working array) are depth-12 tries. -/
structure BlockHeader where
  hlit : Nat
  hdist : Nat
  num_lengths_read : Nat
  table : Tab Nat
  code_lengths : Tab Nat

/-- Decoding tables for the current compressed block
(struct CompressedBlock in the source), arrays again as total functions.
The secondary table keeps its length because it is a `Vec` whose reads are
bounds checked. -/
structure CompressedBlock where
  data_table : Tab (Nat × Nat)
  advance_table : Tab Nat
  dist_table : Nat → Nat
  dist_symbol_lengths : Nat → Nat
  dist_symbol_masks : Nat → Nat
  dist_symbol_codes : Nat → Nat
  secondary_table : Nat → Nat
  secondary_len : Nat

/-- The decompressor (struct Decompressor in the source). -/
structure Decompressor where
  compression : CompressedBlock
  header : BlockHeader
  uncompressed_bytes_left : Nat
  buffer : Nat
  nbits : Nat
  bits_read : Nat
  queued_rle : Option (Nat × Nat)
  queued_backref : Option (Nat × Nat)
  last_block : Bool
  state : State
  checksum : Nat × Nat

namespace Decompressor

/-- `Decompressor::new`. -/
def new : Decompressor where
  compression :=
    { data_table := .leaf (0, 0)
      advance_table := .leaf 0xffff
      secondary_table := fun _ => 0
      secondary_len := 0
      dist_table := fun _ => 0
      dist_symbol_lengths := fun _ => 0
      dist_symbol_masks := fun _ => 0
      dist_symbol_codes := fun _ => 0xffff }
  header :=
    { hlit := 0
      hdist := 0
      table := .leaf 0
      num_lengths_read := 0
      code_lengths := .leaf 0 }
  uncompressed_bytes_left := 0
  buffer := 0
  nbits := 0
  bits_read := 0
  queued_rle := none
  queued_backref := none
  checksum := (1, 0)
  state := .ZlibHeader
  last_block := false

/-- `Decompressor::fill_buffer`.  Returns the updated decompressor and the
advanced input cursor. -/
def fill_buffer (s : Decompressor) (input : List Nat) : Decompressor × List Nat :=
  if s.nbits = 64 then
    (s, input)
  else if 8 ≤ input.length then
    ({ s with
        buffer := (s.buffer ||| leBytes (input.take 8) <<< s.nbits) % 2 ^ 64
        nbits := s.nbits ||| 56 },
      input.drop ((63 - s.nbits) / 8))
  else
    let nbytes := min input.length ((64 - s.nbits) / 8)
    ({ s with
        buffer := (s.buffer ||| leBytes (input.take nbytes) <<< s.nbits) % 2 ^ 64
        nbits := s.nbits + nbytes * 8 },
      input.drop nbytes)

/-- `Decompressor::peak_bits` (the low `nbits` bits of the buffer). -/
def peak_bits (s : Decompressor) (nbits : Nat) : Nat :=
  s.buffer % 2 ^ nbits

/-- `Decompressor::consume_bits`.  The subtraction is `Nat` truncated; the
source guards every call site with `nbits ≤ self.nbits` (debug-asserted). -/
def consume_bits (s : Decompressor) (nbits : Nat) : Decompressor :=
  { s with
      buffer := s.buffer >>> nbits
      nbits := s.nbits - nbits
      bits_read := s.bits_read + nbits }

/-- `Decompressor::read_bits`. -/
def read_bits (s : Decompressor) (nbits : Nat) (input : List Nat) :
    Option Nat × Decompressor × List Nat :=
  let fb := if s.nbits < nbits then s.fill_buffer input else (s, input)
  let s := fb.1
  let input := fb.2
  if s.nbits < nbits then
    (none, s, input)
  else
    (some (s.peak_bits nbits), s.consume_bits nbits, input)

end Decompressor

/-! ## Constant tables and the canonical Huffman builder

These live in repository files that are not under src/ (crate root and
tables.rs); they are modelled from the spec, which fixes them to the RFC 1951
constants and to the RFC 1951 §3.2.2 canonical code construction. -/

/-- Modelled from the spec (§4.3): `CLCL_ORDER`, the canonical permutation
order of the code-length-code lengths (tables.rs is not under src/). -/
def CLCL_ORDER : List Nat := [16, 17, 18, 0, 8, 7, 9, 6, 10, 5, 11, 4, 12, 3, 13, 2, 14, 1, 15]

/-- Modelled from the spec (§2, §4.7): `LEN_SYM_TO_LEN_BASE`, base match
length per length symbol 257..285 (tables.rs is not under src/), written in
the closed form that generates the RFC 1951 §3.2.5 table
3,4,5,6,7,8,9,10,11,13,...,227,258. -/
def LEN_SYM_TO_LEN_BASE : List Nat :=
  (List.range 29).map fun j =>
    if j < 8 then j + 3
    else if j = 28 then 258
    else 2 ^ (j / 4 + 1) + j % 4 * 2 ^ (j / 4 - 1) + 3

/-- Modelled from the spec (§2, §4.7): `LEN_SYM_TO_LEN_EXTRA`, extra bits per
length symbol 257..285 (tables.rs is not under src/), in closed form
(0 eight times, then 1,1,1,1,2,... in groups of four, and 0 for 285). -/
def LEN_SYM_TO_LEN_EXTRA : List Nat :=
  (List.range 29).map fun j => if j < 8 ∨ j = 28 then 0 else j / 4 - 1

/-- Modelled from the spec (§2, §4.7): `DIST_SYM_TO_DIST_BASE`, base distance
per distance symbol 0..29 (tables.rs is not under src/), written in the
closed form that generates the RFC 1951 §3.2.5 table 1,2,3,4,5,7,...,24577. -/
def DIST_SYM_TO_DIST_BASE : List Nat :=
  (List.range 30).map fun i =>
    if i < 2 then i + 1 else 2 ^ (i / 2) + i % 2 * 2 ^ (i / 2 - 1) + 1

/-- Modelled from the spec (§2, §4.7): `DIST_SYM_TO_DIST_EXTRA`, extra bits
per distance symbol 0..29 (tables.rs is not under src/), in closed form
(0,0,0,0 then each value twice). -/
def DIST_SYM_TO_DIST_EXTRA : List Nat :=
  (List.range 30).map fun i => if i < 4 then 0 else i / 2 - 1

/-- Modelled from the spec (§4.3): `FIXED_CODE_LENGTHS`, the 320-entry fixed
Huffman code length vector of RFC 1951 §3.2.6: 288 literal/length lengths
(144 eights, 112 nines, 24 sevens, 8 eights) followed by 32 distance
lengths of 5 (tables.rs is not under src/). -/
def FIXED_CODE_LENGTHS : List Nat :=
  List.replicate 144 8 ++ List.replicate 112 9 ++ List.replicate 24 7 ++
    List.replicate 8 8 ++ List.replicate 32 5

/-- Interval size that a code of length `l` occupies among the `2 ^ 15`
possible 15-bit strings (0 for an unused symbol). -/
def kraftSize (l : Nat) : Nat := if l = 0 then 0 else 2 ^ (15 - l)

/-- Key realising the (length, index) lexicographic order of the canonical
code construction as plain `Nat` order (valid for indices below `n` and
lengths at most 15). -/
def lexKey (lengths : Nat → Nat) (n i : Nat) : Nat := lengths i * n + i

/-- Sum of `f 0 + f 1 + ... + f (n - 1)` (structural recursion for fast
kernel evaluation). -/
def sumRange (f : Nat → Nat) : Nat → Nat
  | 0 => 0
  | n + 1 => sumRange f n + f n

/-- Scaled Kraft sum of all used symbols. -/
def kraftTotal (lengths : Nat → Nat) (n : Nat) : Nat :=
  sumRange (fun j => kraftSize (lengths j)) n

/-- Start of the 15-bit interval assigned to symbol `i` by the canonical
construction: the total size of all symbols that precede it in
(length, index) order.  This is the RFC 1951 §3.2.2 next_code assignment in
closed form. -/
def codeStart (lengths : Nat → Nat) (n i : Nat) : Nat :=
  sumRange (fun j =>
    if lengths j ≠ 0 ∧ lexKey lengths n j < lexKey lengths n i then kraftSize (lengths j) else 0) n

/-- Reverse the low `w` bits of `v`. -/
def revBits : Nat → Nat → Nat
  | 0, _ => 0
  | w + 1, v => v % 2 * 2 ^ w + revBits w (v / 2)

/-- The canonical code of symbol `i`, bit-reversed so that it can be matched
against the low bits of an LSB-first bit stream (0 for unused symbols). -/
def canonicalCode (lengths : Nat → Nat) (n i : Nat) : Nat :=
  if lengths i = 0 then 0
  else revBits (lengths i) (codeStart lengths n i / 2 ^ (15 - lengths i))

/-- Validity of a code length assignment: all lengths at most 15 and the
scaled Kraft sum exactly `2 ^ 15` (neither over- nor under-subscribed). -/
def computeCodesValid (lengths : Nat → Nat) (n : Nat) : Bool :=
  decide ((∀ i < n, lengths i ≤ 15) ∧ kraftTotal lengths n = 2 ^ 15)

/-- Modelled from the spec (§4.5): the canonical Huffman builder
`crate::compute_codes` lives in the crate root, which is not under src/.
Given a length vector (lengths 0..=15) it produces the RFC 1951 §3.2.2
canonical codes, stored bit-reversed because the decoder matches codes
against LSB-first input, and returns `none` when the assignment is over- or
under-subscribed. -/
def compute_codes (lengths : Nat → Nat) (n : Nat) : Option (Nat → Nat) :=
  if computeCodesValid lengths n then some (canonicalCode lengths n) else none

/-- Pointwise update of a function-modelled array. -/
def upd (f : Nat → Nat) (i v : Nat) : Nat → Nat := fun j => if j = i then v else f j

namespace Decompressor

/-! ## build_tables

Each Rust `while`/`for` loop becomes one fuel-indexed structurally recursive
function; callers pass fuel that strictly exceeds the iteration count, so the
fuel-zero fallback is unreachable there. -/

/-- The single-literal expansion loop of `build_tables`
(`while j < 4096 && length != 0 && length <= 12`). -/
def singlesLoop (useEL : Bool) (l0 i l : Nat) : Nat → Nat → CompressedBlock → CompressedBlock
  | 0, _, cb => cb
  | fuel + 1, j, cb =>
    if j < 4096 ∧ l ≠ 0 ∧ l ≤ 12 then
      let e := if useEL then tz16 16 ((j ||| 0xf000) >>> l) / l0 else 0
      let cb := { cb with
        data_table := cb.data_table.set 12 j (i, (cb.data_table.get 12 j).2)
        advance_table := cb.advance_table.set 12 j ((e + 1) <<< 4 ||| (l + e * l0)) }
      singlesLoop useEL l0 i l fuel (j + 2 ^ l) cb
    else cb

/-- The literal-pair expansion inner loop of `build_tables` (`while j < 4096`
with step `1 << (length + length2)`). -/
def pairsInnerLoop (useEL : Bool) (l0 i ii l l2 : Nat) :
    Nat → Nat → CompressedBlock → CompressedBlock
  | 0, _, cb => cb
  | fuel + 1, j, cb =>
    if j < 4096 then
      let e := if useEL then tz16 16 ((j ||| 0xf000) >>> (l + l2)) / l0 else 0
      let cb := { cb with
        data_table := cb.data_table.set 12 j (i, ii)
        advance_table := cb.advance_table.set 12 j ((e + 2) <<< 4 ||| (l + l2 + e * l0)) }
      pairsInnerLoop useEL l0 i ii l l2 fuel (j + 2 ^ (l + l2)) cb
    else cb

/-- The literal-pair loop over the second literal (`for ii in 0..256`). -/
def pairsLoop (lengths codes : Nat → Nat) (useEL : Bool) (l0 i l : Nat) :
    Nat → Nat → CompressedBlock → CompressedBlock
  | 0, _, cb => cb
  | fuel + 1, ii, cb =>
    if ii < 256 then
      let code2 := codes ii
      let l2 := lengths ii
      let cb :=
        if l2 ≠ 0 ∧ l + l2 ≤ 12 then
          pairsInnerLoop useEL l0 i ii l l2 4096 (codes i ||| code2 <<< l) cb
        else cb
      pairsLoop lengths codes useEL l0 i l fuel (ii + 1) cb
    else cb

/-- The outer literal loop of `build_tables` (`for i in 0..256`). -/
def litLoop (lengths codes : Nat → Nat) (useEL : Bool) (l0 : Nat) :
    Nat → Nat → CompressedBlock → CompressedBlock
  | 0, _, cb => cb
  | fuel + 1, i, cb =>
    if i < 256 then
      let l := lengths i
      let cb := singlesLoop useEL l0 i l 4096 (codes i) cb
      let cb := if 0 < l ∧ l ≤ 9 then pairsLoop lengths codes useEL l0 i l 256 0 cb else cb
      litLoop lengths codes useEL l0 fuel (i + 1) cb
    else cb

/-- The inner expansion loop for length symbols with short codes
(`while j < 4096 && length != 0`). -/
def lensymInner (i l : Nat) : Nat → Nat → CompressedBlock → CompressedBlock
  | 0, _, cb => cb
  | fuel + 1, j, cb =>
    if j < 4096 ∧ l ≠ 0 then
      let cb := { cb with
        advance_table := cb.advance_table.set 12 j ((i - 256) <<< 8 ||| l <<< 4) }
      lensymInner i l fuel (j + 2 ^ l) cb
    else cb

/-- The length-symbol loop of `build_tables` (`for i in 256..hlit`). -/
def lensymLoop (lengths codes : Nat → Nat) (hlit : Nat) :
    Nat → Nat → CompressedBlock → CompressedBlock
  | 0, _, cb => cb
  | fuel + 1, i, cb =>
    if i < hlit then
      let l := lengths i
      let cb := if l ≠ 0 ∧ l ≤ 12 then lensymInner i l 4096 (codes i) cb else cb
      lensymLoop lengths codes hlit fuel (i + 1) cb
    else cb

/-- The loop marking the 12-bit prefix of every long code with the all-ones
sentinel (`for i in 0..hlit`, first long-code pass). -/
def stampLoop (lengths codes : Nat → Nat) (hlit : Nat) :
    Nat → Nat → CompressedBlock → CompressedBlock
  | 0, _, cb => cb
  | fuel + 1, i, cb =>
    if i < hlit then
      let cb :=
        if 12 < lengths i then
          { cb with advance_table := cb.advance_table.set 12 (codes i % 4096) 0xffff }
        else cb
      stampLoop lengths codes hlit fuel (i + 1) cb
    else cb

/-- The loop allocating one 8-slot secondary window per long-code 12-bit
prefix (`for i in 0..hlit`, second long-code pass).  Returns the table and the
final `secondary_table_len` counter (a `u16` in the source, hence the masks). -/
def allocLoop (lengths codes : Nat → Nat) (hlit : Nat) :
    Nat → Nat → Nat → CompressedBlock → CompressedBlock × Nat
  | 0, _, stl, cb => (cb, stl)
  | fuel + 1, i, stl, cb =>
    if i < hlit then
      if 12 < lengths i then
        let j := codes i % 4096
        if cb.advance_table.get 12 j = 0xffff then
          let cb := { cb with
            advance_table := cb.advance_table.set 12 j ((stl <<< 4 ||| 0x8000) % 65536) }
          allocLoop lengths codes hlit fuel (i + 1) ((stl + 8) % 65536) cb
        else allocLoop lengths codes hlit fuel (i + 1) stl cb
      else allocLoop lengths codes hlit fuel (i + 1) stl cb
    else (cb, stl)

/-- The inner loop filling an 8-slot secondary window for one long code
(`while s < 8` with step `1 << (length - 12)`); writes are bounds checked
because `secondary_table` is a `Vec`. -/
def popInner (i l k : Nat) : Nat → Nat → CompressedBlock → RRes CompressedBlock
  | 0, _, _ => .panicked
  | fuel + 1, s, cb =>
    if s < 8 then
      if k + s < cb.secondary_len then
        let cb := { cb with secondary_table := upd cb.secondary_table (k + s) (i <<< 4 ||| l) }
        popInner i l k fuel (s + 2 ^ (l - 12)) cb
      else .panicked
    else .ok cb

/-- The loop populating the secondary table (`for i in 0..hlit`, third
long-code pass). -/
def populateLoop (lengths codes : Nat → Nat) (hlit : Nat) :
    Nat → Nat → CompressedBlock → RRes CompressedBlock
  | 0, _, _ => .panicked
  | fuel + 1, i, cb =>
    if i < hlit then
      let code := codes i
      let l := lengths i
      if 12 < l then
        let j := codes i % 4096
        let k := (cb.advance_table.get 12 j &&& 0x7ff0) >>> 4
        match popInner i l k 9 (code >>> 12) cb with
        | .ok cb => populateLoop lengths codes hlit fuel (i + 1) cb
        | .err e => .err e
        | .panicked => .panicked
      else populateLoop lengths codes hlit fuel (i + 1) cb
    else .ok cb

/-- The distance-table finishing loop (`for i in 0..30` over masks/codes).
The arrays are 30 entries long, so only indices below 30 are meaningful. -/
def distFinalLoop (distLengths : Nat → Nat) : Nat → Nat → CompressedBlock → CompressedBlock
  | 0, _, cb => cb
  | fuel + 1, i, cb =>
    if i < 30 then
      let cb :=
        if distLengths i = 0 then
          { cb with
            dist_symbol_masks := upd cb.dist_symbol_masks i 0
            dist_symbol_codes := upd cb.dist_symbol_codes i 0xffff }
        else
          { cb with dist_symbol_masks := upd cb.dist_symbol_masks i (2 ^ distLengths i - 1) }
      distFinalLoop distLengths fuel (i + 1) cb
    else cb

/-- `Decompressor::build_tables`. -/
def build_tables (s : Decompressor) : RRes Decompressor :=
  let lengths := fun i => s.header.code_lengths.get 12 i
  match compute_codes lengths 288 with
  | none => .err .BadLiteralLengthHuffmanTree
  | some codes =>
    let useEL := decide (0 < lengths 0 ∧ codes 0 = 0)
    let l0 := lengths 0
    let cb := s.compression
    let cb := litLoop lengths codes useEL l0 256 0 cb
    let cb := lensymLoop lengths codes s.header.hlit 289 256 cb
    let cb := stampLoop lengths codes s.header.hlit 289 0 cb
    match allocLoop lengths codes s.header.hlit 289 0 0 cb with
    | (cb, stl) =>
      if 0x7ff < stl then .panicked
      else
        let cb := { cb with secondary_table := fun _ => 0, secondary_len := stl }
        match populateLoop lengths codes s.header.hlit 289 0 cb with
        | .err e => .err e
        | .panicked => .panicked
        | .ok cb =>
          let distLengths := fun i => lengths (288 + i)
          if (List.range 32).all (fun i => distLengths i == 0) then
            let cb := { cb with
              dist_symbol_masks := fun _ => 0
              dist_symbol_codes := fun _ => 0xffff
              dist_table := fun _ => 0 }
            .ok { s with compression := cb }
          else
            let next : RRes (CompressedBlock × (Nat → Nat)) :=
              match compute_codes distLengths 32 with
              | some codes32 => .ok (cb, codes32)
              | none =>
                if ((List.range 32).filter fun i => decide (distLengths i ≠ 0)).length ≠ 1 then
                  .err .BadDistanceHuffmanTree
                else
                  .ok ({ cb with dist_table := fun _ => 0 }, fun _ => 0)
            match next with
            | .err e => .err e
            | .panicked => .panicked
            | .ok (cb, codes32) =>
              let cb := { cb with
                dist_symbol_codes := codes32
                dist_symbol_lengths := distLengths }
              let cb := distFinalLoop distLengths 31 0 cb
              let cb := { cb with dist_table := fun _ => 0 }
              .ok { s with compression := cb }

end Decompressor

/-- Fill `l[start..stop]` with the byte `v` (callers keep `stop` in bounds). -/
def listFill (l : List Nat) (start stop v : Nat) : List Nat :=
  l.take start ++ List.replicate (stop - start) (v % 256) ++ l.drop stop

/-- Overwrite `dst[start..start + src.length]` with `src`
(callers keep the range in bounds). -/
def listBlit (dst : List Nat) (start : Nat) (src : List Nat) : List Nat :=
  dst.take start ++ src ++ dst.drop (start + src.length)

/-- `slice::copy_within(src_start..src_stop, dest)`: panics when the ranges
are out of bounds, otherwise copies a snapshot of the source range. -/
def copyWithin (l : List Nat) (srcStart srcStop dest : Nat) : RRes (List Nat) :=
  if srcStart ≤ srcStop ∧ srcStop ≤ l.length ∧ dest + (srcStop - srcStart) ≤ l.length then
    .ok (listBlit l dest ((l.drop srcStart).take (srcStop - srcStart)))
  else .panicked

/-- The byte-by-byte overlapping back-reference copy
(`for i in 0..n { output[idx + i] = output[idx + i - dist] }`), starting at
`idx` for `n` bytes.  An underflowing `idx - dist` wraps to a huge `usize` in
the source and the subsequent indexing panics; reads and writes are bounds
checked as well. -/
def backrefCopy (dist : Nat) : Nat → Nat → List Nat → RRes (List Nat)
  | 0, _, output => .ok output
  | n + 1, idx, output =>
    if idx < dist then .panicked
    else
      match listGetP output (idx - dist) with
      | .ok v =>
        match listSetP output idx v with
        | .ok output => backrefCopy dist n (idx + 1) output
        | .err e => .err e
        | .panicked => .panicked
      | .err e => .err e
      | .panicked => .panicked

namespace Decompressor

/-! ## Block headers and code lengths -/

/-- The loop reading the `hclen` code-length-code lengths in `CLCL_ORDER`
order (`for i in 0..hclen`, with `read_bits(3).unwrap()`). -/
def cllLoop (hclen : Nat) :
    Nat → Nat → (Nat → Nat) → Decompressor → List Nat →
      RRes ((Nat → Nat) × Decompressor × List Nat)
  | 0, _, _, _, _ => .panicked
  | fuel + 1, i, cll, s, input =>
    if i < hclen then
      match s.read_bits 3 input with
      | (none, _, _) => .panicked
      | (some v, s, input) =>
        cllLoop hclen fuel (i + 1) (upd cll (CLCL_ORDER.getD i 0) v) s input
    else .ok (cll, s, input)

/-- The inner expansion loop of the 7-bit code-length lookup table
(`while j < 128` with step `1 << length`). -/
def clTableInner (v l : Nat) : Nat → Nat → Tab Nat → Tab Nat
  | 0, _, t => t
  | fuel + 1, j, t =>
    if j < 128 then clTableInner v l fuel (j + 2 ^ l) (t.set 12 j v) else t

/-- The loop building the 7-bit code-length lookup table (`for i in 0..19`). -/
def clTableLoop (cll clc : Nat → Nat) : Nat → Nat → Tab Nat → Tab Nat
  | 0, _, t => t
  | fuel + 1, i, t =>
    if i < 19 then
      let l := cll i
      let t := if 0 < l then clTableInner ((i <<< 3) ||| l) l 128 (clc i) t else t
      clTableLoop cll clc fuel (i + 1) t
    else t

/-- The stored-block arm of `read_block_header` (block type 0): byte
alignment, LEN/NLEN check, switch to `UncompressedData`. -/
def rbhStored (s : Decompressor) (input : List Nat) : RRes (Decompressor × List Nat) :=
  let align_bits := (8 - (s.bits_read + 3) % 8) % 8
  let header_bits := 3 + 32 + align_bits
  if s.nbits < header_bits then .ok (s, input)
  else
    let len := s.peak_bits (align_bits + 19) >>> (align_bits + 3)
    let nlen := s.peak_bits header_bits >>> (align_bits + 19)
    if nlen ≠ 65535 - len then .err .InvalidUncompressedBlockLength
    else
      let s := { s with state := .UncompressedData, uncompressed_bytes_left := len }
      .ok (s.consume_bits header_bits, input)

/-- The fixed-Huffman arm of `read_block_header` (block type 1): load the
fixed code lengths and build the tables. -/
def rbhFixed (s : Decompressor) (input : List Nat) : RRes (Decompressor × List Nat) :=
  let s := s.consume_bits 3
  let s := { s with header := { s.header with
    hlit := 288
    hdist := 32
    code_lengths := Tab.ofList FIXED_CODE_LENGTHS } }
  match s.build_tables with
  | .err e => .err e
  | .panicked => .panicked
  | .ok s => .ok ({ s with state := .CompressedData }, input)

/-- The dynamic-Huffman arm of `read_block_header` (block type 2): HLIT,
HDIST and HCLEN fields, the code-length-code lengths and their 7-bit
decoding table. -/
def rbhDynamic (s : Decompressor) (input : List Nat) : RRes (Decompressor × List Nat) :=
  if s.nbits < 17 then .ok (s, input)
  else
    let hclen := (s.peak_bits 17 >>> 13) + 4
    if s.nbits + input.length * 8 < 17 + 3 * hclen then .ok (s, input)
    else
      let s := { s with header := { s.header with
        hlit := (s.peak_bits 8 >>> 3) + 257
        hdist := (s.peak_bits 13 >>> 8) + 1 } }
      if 286 < s.header.hlit then .err .InvalidHlit
      else if 30 < s.header.hdist then .err .InvalidHdist
      else
        let s := s.consume_bits 17
        match cllLoop hclen 20 0 (fun _ => 0) s input with
        | .err e => .err e
        | .panicked => .panicked
        | .ok (cll, s, input) =>
          match compute_codes cll 19 with
          | none => .err .BadCodeLengthHuffmanTree
          | some clc =>
            let table := clTableLoop cll clc 20 0 (.leaf 255)
            .ok ({ s with
              header := { s.header with table := table }
              state := .CodeLengths }, input)

/-- `Decompressor::read_block_header`: fill the bit buffer, read the
3-bit block header and dispatch on the block type. -/
def read_block_header (s : Decompressor) (input : List Nat) :
    RRes (Decompressor × List Nat) :=
  let fb := s.fill_buffer input
  let s := fb.1
  let input := fb.2
  if s.nbits < 3 then .ok (s, input)
    else
      let start := s.peak_bits 3
      let s := { s with last_block := start &&& 1 ≠ 0 }
      if start >>> 1 = 0 then rbhStored s input
      else if start >>> 1 = 1 then rbhFixed s input
      else if start >>> 1 = 2 then rbhDynamic s input
      else if start >>> 1 = 3 then .err .InvalidBlockType
      else .panicked

/-- The repeat-fill of `read_code_lengths`
(`for i in 0..repeat { code_lengths[num_lengths_read + i] = value }`). -/
def fillRepeat (value : Nat) : Nat → Nat → Tab Nat → Tab Nat
  | 0, _, cl => cl
  | r + 1, idx, cl => fillRepeat value r (idx + 1) (cl.set 12 idx value)

/-- The working-array normalisation copy of `read_code_lengths`
(`code_lengths.copy_within(hlit..total, 288)`), reading from the pre-copy
snapshot `src` like `memmove`; `n` entries from `src[from_]` to `t[to_]`. -/
def copyWithinTab (src : Tab Nat) : Nat → Nat → Nat → Tab Nat → Tab Nat
  | 0, _, _, t => t
  | n + 1, from_, to_, t =>
    copyWithinTab src n (from_ + 1) (to_ + 1) (t.set 12 to_ (src.get 12 from_))

/-- A zeroing loop (`for i in lo..lo+n { code_lengths[i] = 0 }`). -/
def zeroRangeTab : Nat → Nat → Tab Nat → Tab Nat
  | 0, _, t => t
  | n + 1, i, t => zeroRangeTab n (i + 1) (t.set 12 i 0)

/-- One iteration of the `read_code_lengths` decode loop: fill the buffer
and decode one code-length symbol.  `inl` is an early `return Ok` (out of
bits), `inr` continues the loop with the updated state. -/
def rclStep (s : Decompressor) (input : List Nat) :
    RRes ((Decompressor × List Nat) ⊕ (Decompressor × List Nat)) :=
  let total := s.header.hlit + s.header.hdist
  let fb := s.fill_buffer input
  let s := fb.1
  let input := fb.2
  if s.nbits < 7 then .ok (.inl (s, input))
  else
    let code := s.peak_bits 7
    let entry := s.header.table.get 12 code
    let length := entry &&& 0x7
    let symbol := entry >>> 3
    if symbol ≤ 15 then
      let s := { s with header := { s.header with
        code_lengths := s.header.code_lengths.set 12 s.header.num_lengths_read symbol
        num_lengths_read := s.header.num_lengths_read + 1 } }
      .ok (.inr (s.consume_bits length, input))
    else if symbol = 16 ∨ symbol = 17 ∨ symbol = 18 then
      let base_repeat := if symbol = 16 then 3 else if symbol = 17 then 3 else 11
      let extra_bits := if symbol = 16 then 2 else if symbol = 17 then 3 else 7
      if s.nbits < length + extra_bits then .ok (.inl (s, input))
      else
        let value? : RRes Nat :=
          if symbol = 16 then
            if s.header.num_lengths_read = 0 then .err .InvalidCodeLengthRepeat
            else .ok (s.header.code_lengths.get 12 (s.header.num_lengths_read - 1))
          else .ok 0
        match value? with
        | .err e => .err e
        | .panicked => .panicked
        | .ok value =>
          let rep := (s.peak_bits (length + extra_bits) >>> length) + base_repeat
          if total < s.header.num_lengths_read + rep then
            .err .InvalidCodeLengthRepeat
          else
            let s := { s with header := { s.header with
              code_lengths := fillRepeat value rep s.header.num_lengths_read
                s.header.code_lengths
              num_lengths_read := s.header.num_lengths_read + rep } }
            .ok (.inr (s.consume_bits (length + extra_bits), input))
    else .panicked

/-- The tail of `read_code_lengths` once all lengths are read: normalise the
320-entry working array and build the tables. -/
def rclFinish (s : Decompressor) (input : List Nat) : RRes (Decompressor × List Nat) :=
  let total := s.header.hlit + s.header.hdist
  let cl := s.header.code_lengths
  let hlit := s.header.hlit
  let hdist := s.header.hdist
  let cl1 := copyWithinTab cl (total - hlit) hlit 288 cl
  let cl2 := zeroRangeTab (288 - hlit) hlit cl1
  let cl3 := zeroRangeTab (320 - (288 + hdist)) (288 + hdist) cl2
  let s := { s with header := { s.header with code_lengths := cl3 } }
  match s.build_tables with
  | .err e => .err e
  | .panicked => .panicked
  | .ok s => .ok ({ s with state := .CompressedData }, input)

/-- `Decompressor::read_code_lengths`: the decode loop over `rclStep`
followed by `rclFinish`. -/
def read_code_lengths : Nat → Decompressor → List Nat → RRes (Decompressor × List Nat)
  | 0, _, _ => .panicked
  | fuel + 1, s, input =>
    if s.header.num_lengths_read < s.header.hlit + s.header.hdist then
      match rclStep s input with
      | .err e => .err e
      | .panicked => .panicked
      | .ok (.inl (s, input)) => .ok (s, input)
      | .ok (.inr (s, input)) => read_code_lengths fuel s input
    else rclFinish s input

/-! ## The decode engine -/

/-- The linear distance-symbol scan of `read_compressed`
(`for j in dist_table[low byte]..30`, sentinel 999 when nothing matches). -/
def distScanLoop (cb : CompressedBlock) (dist_code : Nat) : Nat → Nat → Nat
  | 0, _ => 999
  | fuel + 1, j =>
    if j < 30 then
      if dist_code &&& cb.dist_symbol_masks j = cb.dist_symbol_codes j then j
      else distScanLoop cb dist_code fuel (j + 1)
    else 999

/-- Outcome of one iteration of the `read_compressed` decode loop: either
`break` out of the loop or `continue` it, carrying the updated decompressor,
remaining input, output buffer and output index. -/
inductive StepRes where
  | brk : Decompressor → List Nat → List Nat → Nat → StepRes
  | cont : Decompressor → List Nat → List Nat → Nat → StepRes

/-- The decompressor carried by a step outcome. -/
def StepRes.sOut : StepRes → Decompressor
  | .brk s _ _ _ => s
  | .cont s _ _ _ => s

/-- The remaining input carried by a step outcome. -/
def StepRes.inOut : StepRes → List Nat
  | .brk _ i _ _ => i
  | .cont _ i _ _ => i

/-- The output buffer carried by a step outcome. -/
def StepRes.outBuf : StepRes → List Nat
  | .brk _ _ o _ => o
  | .cont _ _ o _ => o

/-- The output index carried by a step outcome. -/
def StepRes.oiOut : StepRes → Nat
  | .brk _ _ _ oi => oi
  | .cont _ _ _ oi => oi

/-- The fast path of the decode loop (`advance_input_bits > 0`): the table
entry directly specifies output bytes. -/
def rcFast (s : Decompressor) (input output : List Nat) (oi : Nat)
    (data : Nat × Nat) (advance_input_bits advance_output_bytes : Nat) : RRes StepRes :=
  if oi + 1 < output.length then
    match listSetP output oi data.1 with
    | .err e => .err e
    | .panicked => .panicked
    | .ok output =>
      match listSetP output (oi + 1) data.2 with
      | .err e => .err e
      | .panicked => .panicked
      | .ok output =>
        let oi := oi + advance_output_bytes
        let s := s.consume_bits advance_input_bits
        if output.length < oi then
          let s := { s with queued_rle := some (0, oi - output.length) }
          .ok (.brk s input output output.length)
        else
          .ok (.cont s input output oi)
  else if oi + advance_output_bytes = output.length then
    match listSetP output oi data.1 with
    | .err e => .err e
    | .panicked => .panicked
    | .ok output => .ok (.brk (s.consume_bits advance_input_bits) input output (oi + 1))
  else .ok (.brk s input output oi)

/-- The literal/length symbol resolution of the slow path: direct length
entry, secondary table lookup (bounds checked), or the invalid marker. -/
def rcLitlen (s : Decompressor) (advance advance_output_bytes : Nat) : RRes (Nat × Nat) :=
  if advance &&& 0x8000 = 0 then
    .ok (advance_output_bytes &&& 0x0f, 256 + (advance_output_bytes >>> 4))
  else if advance ≠ 0xfff0 then
    let next3 := s.peak_bits 15 >>> 12
    let secondary_index := (advance &&& 0x7ff0) >>> 4
    if secondary_index + next3 < s.compression.secondary_len then
      let secondary := s.compression.secondary_table (secondary_index + next3)
      .ok (secondary &&& 0xf, secondary >>> 4)
    else .panicked
  else .err .InvalidLiteralLengthCode

/-- The statically disabled distance-code-1 run branch of the source (its
guard ends in `&& false`; the body is transcribed nonetheless). -/
def rcRleDead (s : Decompressor) (input output : List Nat) (oi : Nat)
    (litlen_code_bits length_extra_bits length : Nat) : RRes StepRes :=
  match (if 0 < oi then listGetP output (oi - 1)
         else .err .InputStartsWithRun : RRes Nat) with
  | .err e => .err e
  | .panicked => .panicked
  | .ok last =>
    let s := s.consume_bits (length_extra_bits + litlen_code_bits +
      s.compression.dist_symbol_lengths 0)
    let output :=
      if last ≠ 0 then listFill output oi (min (oi + length) output.length) last
      else output
    if output.length < oi + length then
      let s := { s with queued_rle := some (last, oi + length - output.length) }
      .ok (.brk s input output output.length)
    else
      .ok (.cont s input output (oi + length))

/-- The general back-reference path: distance symbol scan, distance checks,
the (possibly overlapping) copy, and back-reference queueing. -/
def rcBackref (s : Decompressor) (input output : List Nat) (oi : Nat)
    (litlen_code_bits length_extra_bits : Nat) (bits dist_code length : Nat) : RRes StepRes :=
  let dist_symbol := distScanLoop s.compression dist_code 31
    (s.compression.dist_table (dist_code &&& 0xff))
  if dist_symbol = 999 then .err .InvalidDistanceCode
  else
    let dist_code_bits := s.compression.dist_symbol_lengths dist_symbol
    let dist_extra_bits := DIST_SYM_TO_DIST_EXTRA.getD dist_symbol 0
    let dist_extra_mask := 2 ^ dist_extra_bits - 1
    let dist := DIST_SYM_TO_DIST_BASE.getD dist_symbol 0 +
      ((bits >>> (length_extra_bits + dist_code_bits)) &&& dist_extra_mask)
    if oi < dist then .err .DistanceTooFarBack
    else
      let copy_length := min length (output.length - oi)
      match (if dist < copy_length then backrefCopy dist copy_length oi output
             else copyWithin output (oi - dist) (oi + copy_length - dist) oi) with
      | .err e => .err e
      | .panicked => .panicked
      | .ok output =>
        let oi := oi + copy_length
        let s := s.consume_bits (litlen_code_bits + length_extra_bits +
          dist_code_bits + dist_extra_bits)
        if copy_length < length then
          let s := { s with queued_backref := some (dist, length - copy_length) }
          .ok (.brk s input output oi)
        else
          .ok (.cont s input output oi)

/-- The length-symbol part of the slow path: availability check, extraction
of length extra bits and the 15-bit distance code window, and dispatch to
the disabled run branch or the general back-reference path. -/
def rcLength (s : Decompressor) (input output : List Nat) (oi : Nat)
    (litlen_code_bits litlen_symbol : Nat) : RRes StepRes :=
  let length_extra_bits := LEN_SYM_TO_LEN_EXTRA.getD (litlen_symbol - 257) 0
  if s.nbits < length_extra_bits + litlen_code_bits + 28 then
    .ok (.brk s input output oi)
  else
    let bits := s.peak_bits (length_extra_bits + litlen_code_bits + 28) >>> litlen_code_bits
    let length_code := bits &&& (2 ^ length_extra_bits - 1)
    let dist_code := (bits >>> length_extra_bits) &&& 0x7fff
    let length := LEN_SYM_TO_LEN_BASE.getD (litlen_symbol - 257) 0 + length_code
    if dist_code &&& s.compression.dist_symbol_masks 0 =
        s.compression.dist_symbol_codes 0 ∧ False then
      rcRleDead s input output oi litlen_code_bits length_extra_bits length
    else
      rcBackref s input output oi litlen_code_bits length_extra_bits bits dist_code length

/-- The slow path of the decode loop (`advance_input_bits = 0`): resolve the
literal/length symbol and handle literal, end-of-block, invalid, or length. -/
def rcSlow (s : Decompressor) (input output : List Nat) (oi : Nat)
    (advance advance_output_bytes : Nat) : RRes StepRes :=
  match rcLitlen s advance advance_output_bytes with
  | .err e => .err e
  | .panicked => .panicked
  | .ok (litlen_code_bits, litlen_symbol) =>
    if litlen_symbol < 256 then
      if output.length ≤ oi then .ok (.brk s input output oi)
      else
        match listSetP output oi litlen_symbol with
        | .err e => .err e
        | .panicked => .panicked
        | .ok output => .ok (.cont (s.consume_bits litlen_code_bits) input output (oi + 1))
    else if litlen_symbol = 256 then
      let s := s.consume_bits litlen_code_bits
      let s := { s with
        state := if s.last_block then State.Checksum else State.BlockHeader }
      .ok (.brk s input output oi)
    else if 285 < litlen_symbol then .err .InvalidLiteralLengthCode
    else rcLength s input output oi litlen_code_bits litlen_symbol

/-- One iteration of the `read_compressed` decode loop body. -/
def rcStep (s : Decompressor) (input output : List Nat) (oi : Nat) : RRes StepRes :=
  let fb := s.fill_buffer input
  let s := fb.1
  let input := fb.2
  if s.nbits < 15 then .ok (.brk s input output oi)
  else
    let table_index := s.peak_bits 12
    let data := s.compression.data_table.get 12 table_index
    let advance := s.compression.advance_table.get 12 table_index
    let advance_input_bits := advance &&& 0x0f
    let advance_output_bytes := advance >>> 4
    if 0 < advance_input_bits then
      rcFast s input output oi data advance_input_bits advance_output_bytes
    else
      rcSlow s input output oi advance advance_output_bytes

/-- `Decompressor::read_compressed`: the
`while let State::CompressedData = self.state` loop over `rcStep`.  The
commented-out four-lookup fast path of the source is omitted.  Returns the
decompressor, the remaining input, the output buffer and the new output
index. -/
def read_compressed : Nat → Decompressor → List Nat → List Nat → Nat →
    RRes (Decompressor × List Nat × List Nat × Nat)
  | 0, _, _, _, _ => .panicked
  | fuel + 1, s, input, output, oi =>
    if s.state = .CompressedData then
      match rcStep s input output oi with
      | .err e => .err e
      | .panicked => .panicked
      | .ok (.brk s input output oi) => .ok (s, input, output, oi)
      | .ok (.cont s input output oi) => read_compressed fuel s input output oi
    else .ok (s, input, output, oi)

/-- The byte drain of the UncompressedData state (`while nbits > 0 && ...`).
The fuel is instantiated with `nbits + 1`, a bound on the iteration count. -/
def uncompressedDrain : Nat → Decompressor → List Nat → Nat →
    RRes (Decompressor × List Nat × Nat)
  | 0, _, _, _ => .panicked
  | fuel + 1, s, output, oi =>
    if 0 < s.nbits ∧ 0 < s.uncompressed_bytes_left ∧ oi < output.length then
      match listSetP output oi (s.peak_bits 8) with
      | .err e => .err e
      | .panicked => .panicked
      | .ok output =>
        let s := s.consume_bits 8
        let s := { s with uncompressed_bytes_left := s.uncompressed_bytes_left - 1 }
        uncompressedDrain fuel s output (oi + 1)
    else .ok (s, output, oi)

/-- Result of the state machine loop inside `read`: either an early
`return Ok((consumed, produced))` from the ZlibHeader arm, or a normal loop
exit carrying decompressor, remaining input, output and output index. -/
inductive LoopOut where
  | ret : Decompressor → List Nat → Nat → Nat → LoopOut
  | brk : Decompressor → List Nat → List Nat → Nat → LoopOut

/-- The `while last_state != Some(self.state)` state machine loop of
`Decompressor::read`.  `input` is the original argument (the ZlibHeader arm
reads it), `remaining` the advanced cursor. -/
def readStateMachine : Nat → Option State → Decompressor → List Nat → List Nat →
    List Nat → Nat → Nat → Bool → RRes LoopOut
  | 0, _, _, _, _, _, _, _, _ => .panicked
  | fuel + 1, last_state, s, input, remaining, output, output_position, oi, end_of_input =>
    if last_state = some s.state then .ok (.brk s remaining output oi)
    else
      let last_state := some s.state
      match s.state with
      | .ZlibHeader =>
        if input.length < 2 ∧ ¬end_of_input then .ok (.ret s output 0 0)
        else if input.length < 2 then .err .InsufficientInput
        else
          let b0 := input.getD 0 0 % 256
          let b1 := input.getD 1 0 % 256
          if b0 &&& 0x0f ≠ 0x08 ∨ 0x70 < b0 &&& 0xf0 ∨ b1 &&& 0x20 ≠ 0 ∨
              (b0 * 256 + b1) % 31 ≠ 0 then
            .err .BadZlibHeader
          else
            readStateMachine fuel last_state { s with state := .BlockHeader } input
              (remaining.drop 2) output output_position oi end_of_input
      | .BlockHeader =>
        match s.read_block_header remaining with
        | .err e => .err e
        | .panicked => .panicked
        | .ok (s, remaining) =>
          readStateMachine fuel last_state s input remaining output output_position oi
            end_of_input
      | .CodeLengths =>
        match read_code_lengths (fuel + 1) s remaining with
        | .err e => .err e
        | .panicked => .panicked
        | .ok (s, remaining) =>
          readStateMachine fuel last_state s input remaining output output_position oi
            end_of_input
      | .CompressedData =>
        match read_compressed (fuel + 1) s remaining output oi with
        | .err e => .err e
        | .panicked => .panicked
        | .ok (s, remaining, output, oi) =>
          readStateMachine fuel last_state s input remaining output output_position oi
            end_of_input
      | .UncompressedData =>
        match uncompressedDrain (s.nbits + 1) s output oi with
        | .err e => .err e
        | .panicked => .panicked
        | .ok (s, output, oi) =>
          let s := { s with buffer := 0 }
          let copy_bytes := min s.uncompressed_bytes_left
            (min remaining.length (output.length - oi))
          let output := listBlit output oi ((remaining.take copy_bytes).map (· % 256))
          let remaining := remaining.drop copy_bytes
          let oi := oi + copy_bytes
          let s := { s with
            uncompressed_bytes_left := s.uncompressed_bytes_left - copy_bytes }
          let s :=
            if s.uncompressed_bytes_left = 0 then
              { s with state := if s.last_block then State.Checksum else State.BlockHeader }
            else s
          readStateMachine fuel last_state s input remaining output output_position oi
            end_of_input
      | .Checksum =>
        let fb := s.fill_buffer remaining
        let s := fb.1
        let remaining := fb.2
        let align_bits := (8 - s.bits_read % 8) % 8
          if 32 + align_bits ≤ s.nbits then
            let s := { s with checksum := (adlerWrite s.checksum
              ((output.drop output_position).take (oi - output_position))) }
            let s := if align_bits ≠ 0 then s.consume_bits align_bits else s
            if swap32 (s.peak_bits 32) ≠ adlerFinish s.checksum then .err .WrongChecksum
            else
              let s := { s with state := .Done }
              .ok (.brk (s.consume_bits 32) remaining output oi)
          else
            readStateMachine fuel last_state s input remaining output output_position oi
              end_of_input
      | .Done => .panicked

/-- The `queued_rle` drain at the top of `Decompressor::read`: either an
early `return` value (left) or the state, output and output index to
continue with (right). -/
def readQueuedRle (s : Decompressor) (output : List Nat) (oi : Nat) :
    RRes (Decompressor × List Nat × Nat × Nat) ⊕ (Decompressor × List Nat × Nat) :=
  match s.queued_rle with
  | none => .inr (s, output, oi)
  | some (data, len) =>
    let s := { s with queued_rle := none }
    let n := min len (output.length - oi)
    let output := if data ≠ 0 then listFill output oi (oi + n) data else output
    let oi := oi + n
    if n < len then
      .inl (.ok ({ s with queued_rle := some (data, len - n) }, output, 0, n))
    else .inr (s, output, oi)

/-- The `queued_backref` drain of `Decompressor::read` (note the source does
not clear the option when the drain completes). -/
def readQueuedBackref (s : Decompressor) (output : List Nat) (oi : Nat) :
    RRes (Decompressor × List Nat × Nat × Nat) ⊕ (Decompressor × List Nat × Nat) :=
  match s.queued_backref with
  | none => .inr (s, output, oi)
  | some (dist, len) =>
    let n := min len (output.length - oi)
    match backrefCopy dist n oi output with
    | .err e => .inl (.err e)
    | .panicked => .inl .panicked
    | .ok output =>
      let oi := oi + n
      if n < len then
        .inl (.ok ({ s with queued_backref := some (dist, len - n) }, output, 0, n))
      else .inr (s, output, oi)

/-- `Decompressor::read`.  Returns the decompressor, the output buffer and
the `(consumed, produced)` pair. -/
def read (fuel : Nat) (s : Decompressor) (input : List Nat) (output : List Nat)
    (output_position : Nat) (end_of_input : Bool) :
    RRes (Decompressor × List Nat × Nat × Nat) :=
  if s.state = .Done then .ok (s, output, 0, 0)
  else if output.length < output_position + 2 then .panicked
  else
    match readQueuedRle s output output_position with
    | .inl r => r
    | .inr (s, output, oi) =>
      match readQueuedBackref s output oi with
      | .inl r => r
      | .inr (s, output, oi) =>
        match readStateMachine fuel none s input input output output_position oi
            end_of_input with
        | .err e => .err e
        | .panicked => .panicked
        | .ok (.ret s output c p) => .ok (s, output, c, p)
        | .ok (.brk s remaining output oi) =>
          let s :=
            if s.state ≠ .Done then
              { s with checksum := (adlerWrite s.checksum
                ((output.drop output_position).take (oi - output_position))) }
            else s
          if s.state = .Done ∨ ¬end_of_input ∨ output.length - 1 ≤ oi then
            .ok (s, output, input.length - remaining.length, oi - output_position)
          else .err .InsufficientInput

/-- `Decompressor::done`. -/
def done (s : Decompressor) : Bool := s.state = .Done

end Decompressor

/-- `decompress_to_vec`: drive `read` with the whole input, `end_of_input`
true, growing the output by 32 KiB per iteration, until `done()`. -/
def decompress_to_vec_loop : Nat → Decompressor → List Nat → Nat → List Nat → Nat →
    RRes (List Nat)
  | 0, _, _, _, _, _ => .panicked
  | fuel + 1, decoder, input, input_index, output, output_index =>
    if decoder.done then .ok (output.take output_index)
    else
      match Decompressor.read (fuel + 1) decoder (input.drop input_index) output
          output_index true with
      | .err e => .err e
      | .panicked => .panicked
      | .ok (decoder, output, consumed, produced) =>
        let input_index := input_index + consumed
        let output_index := output_index + produced
        let output := output.take (output_index + 32 * 1024) ++
          List.replicate (output_index + 32 * 1024 - output.length) 0
        decompress_to_vec_loop fuel decoder input input_index output output_index

/-- `decompress_to_vec` (the released `Ok(output)` version; the trailing
`ExtraInput` check is commented out in the source). -/
def decompress_to_vec (fuel : Nat) (input : List Nat) : RRes (List Nat) :=
  decompress_to_vec_loop fuel Decompressor.new input 0 (List.replicate 1024 0) 0

/-- Test driver: feed a fresh decompressor the given input chunks one call
at a time (carrying unconsumed bytes over, `end_of_input` false), writing
into one persistent zero-initialised buffer at an advancing position; once
the chunks are exhausted keep calling with `end_of_input` true until done.
Returns the produced output prefix. -/
def runChunkedLoop : Nat → Decompressor → List (List Nat) → List Nat → List Nat → Nat →
    RRes (List Nat)
  | 0, _, _, _, _, _ => .panicked
  | fuel + 1, s, chunks, pending, output, pos =>
    if s.done then .ok (output.take pos)
    else
      match chunks with
      | c :: rest =>
        match Decompressor.read (fuel + 1) s (pending ++ c) output pos false with
        | .err e => .err e
        | .panicked => .panicked
        | .ok (s, output, consumed, produced) =>
          runChunkedLoop fuel s rest ((pending ++ c).drop consumed) output (pos + produced)
      | [] =>
        match Decompressor.read (fuel + 1) s pending output pos true with
        | .err e => .err e
        | .panicked => .panicked
        | .ok (s, output, consumed, produced) =>
          runChunkedLoop fuel s [] (pending.drop consumed) output (pos + produced)

/-- Test driver entry point (1024-byte zeroed output buffer). -/
def runChunked (fuel : Nat) (chunks : List (List Nat)) : RRes (List Nat) :=
  runChunkedLoop fuel Decompressor.new chunks [] (List.replicate 1024 0) 0

/-! ## Concrete test streams

All three are hand-assembled RFC 1950/1951 zlib streams; the first two are
complete and valid (their Adler-32 trailers match their decoded payloads),
the third is the prefix of a dynamic-Huffman stream. -/

/-- A valid zlib stream encoding the byte sequence `[0x61]`: zlib header,
a non-final stored block with LEN = 1 and payload `0x61`, a final stored
block with LEN = 0, and the Adler-32 trailer `0x00620062` of `[0x61]`. -/
def streamStoredPair : List Nat :=
  [0x78, 0x01, 0x00, 0x01, 0x00, 0xfe, 0xff, 0x61, 0x01, 0x00, 0x00, 0xff, 0xff,
   0x00, 0x62, 0x00, 0x62]

/-- A valid zlib stream encoding six `0x61` bytes: zlib header, one final
dynamic-Huffman block (literal/length lengths: symbol 0 ↦ 1, symbol 97 ↦ 2,
symbol 256 ↦ 3, symbol 259 ↦ 3; one distance symbol of length 1) whose data
is literal 97, then a length-5 distance-1 back-reference, then end-of-block,
and the Adler-32 trailer `0x07fb0247` of six `0x61` bytes. -/
def streamDynamicBackref : List Nat :=
  [0x78, 0x01, 0x1d, 0xc0, 0x81, 0x09, 0x00, 0x00, 0x00, 0x83, 0x20, 0x5f, 0xed,
   0xff, 0x27, 0x06, 0xb3, 0x1b, 0x07, 0xfb, 0x02, 0x47]

/-- The prefix of a zlib stream with one non-final dynamic-Huffman block
(literal/length lengths: symbol 0 ↦ 1, symbol 97 ↦ 2, symbol 256 ↦ 3,
symbol 257 ↦ 3; one distance symbol of length 1) whose data is literal 97,
a length-3 distance-1 back-reference, and a long run of literal-0 bytes. -/
def streamDynamicRun : List Nat :=
  [0x78, 0x01, 0x0c, 0xc0, 0x01, 0x01, 0x00, 0x00, 0x00, 0x82, 0x20, 0xae, 0xfa,
   0xff, 0x44, 0xd1, 0x01, 0x00, 0x00, 0x00, 0x00, 0x0c]

/-- Projection used to state results about the decoder state after a call. -/
def readStateOf (r : RRes (Decompressor × List Nat × Nat × Nat)) : Option Decompressor :=
  match r with
  | .ok (s, _, _, _) => some s
  | _ => none

/-- Whether a `build_tables` result is a success. -/
def buildOk : RRes Decompressor → Bool
  | .ok _ => true
  | _ => false

/-- Literal/length code lengths for the C9 counterexample: symbols 0 and 256
of length 1 (a complete literal/length code) and an all-zero distance slice. -/
def c9lens : List Nat :=
  (List.range 320).map fun i => if i = 0 ∨ i = 256 then 1 else 0

/-- A decompressor whose header holds `c9lens`, as `read_code_lengths`
would leave it for a dynamic block with hlit = 257, hdist = 1 whose single
distance code length is zero. -/
def c9state : Decompressor :=
  { Decompressor.new with header := { Decompressor.new.header with
      hlit := 257, hdist := 1, code_lengths := Tab.ofList c9lens } }

/-- The distance slice of `c9state` as a length vector. -/
def c9dist : Nat → Nat := fun i => c9state.header.code_lengths.get 12 (288 + i)

/-- Whether a `build_tables` result is the panic outcome. -/
def buildPanicked : RRes Decompressor → Bool
  | .panicked => true
  | _ => false

/-- Whether a `build_tables` result is a given error. -/
def buildErrIs (e : DecompressionError) : RRes Decompressor → Bool
  | .err x => x == e
  | _ => false

/-- Literal/length-plus-distance code lengths with an over-subscribed
distance slice: symbols 0 and 256 of length 1 (a complete literal/length
code) and three distance symbols of length 1 (scaled Kraft sum over
`2 ^ 15`). -/
def c9badlens : List Nat :=
  (List.range 320).map fun i =>
    if i = 0 ∨ i = 256 ∨ (288 ≤ i ∧ i < 291) then 1 else 0

/-- A decompressor whose header holds `c9badlens`. -/
def c9bad : Decompressor :=
  { Decompressor.new with header := { Decompressor.new.header with
      hlit := 257, hdist := 3, code_lengths := Tab.ofList c9badlens } }

/-- The distance slice of `c9bad` as a length vector. -/
def c9badDist : Nat → Nat := fun i => c9bad.header.code_lengths.get 12 (288 + i)

/-- The `read` call of the C4 analysis: the whole 22-byte stream, a 4-byte
output buffer, `end_of_input` true. -/
def c4run : RRes (Decompressor × List Nat × Nat × Nat) :=
  Decompressor.read 100 Decompressor.new streamDynamicBackref (List.replicate 4 0) 0 true

/-- The decompressor returned by `c4run` (fallback: the fresh state). -/
def c4s : Decompressor :=
  match c4run with
  | .ok (s, _, _, _) => s
  | _ => Decompressor.new

/-- The output buffer returned by `c4run`. -/
def c4out : List Nat :=
  match c4run with
  | .ok (_, o, _, _) => o
  | _ => []

/-- The consumed-bytes count returned by `c4run`. -/
def c4c : Nat :=
  match c4run with
  | .ok (_, _, c, _) => c
  | _ => 0

/-- The produced-bytes count returned by `c4run`. -/
def c4p : Nat :=
  match c4run with
  | .ok (_, _, _, p) => p
  | _ => 0

/-- A decompressor state in the middle of `read_code_lengths`: a full bit
buffer of zeros, a 7-bit table whose every entry decodes to symbol 16 with
code length 2, one length already read (value 5), 10 lengths expected. -/
def c8state : Decompressor :=
  { Decompressor.new with
      nbits := 64
      buffer := 0
      header := { hlit := 5, hdist := 5, num_lengths_read := 1,
                  table := Tab.leaf ((16 <<< 3) ||| 2), code_lengths := Tab.leaf 5 } }

def c9singlelens : List Nat :=
  (List.range 320).map fun i => if i = 0 ∨ i = 256 ∨ i = 288 then 1 else 0

def c9single : Decompressor :=
  { Decompressor.new with header := { Decompressor.new.header with
      hlit := 257, hdist := 1, code_lengths := Tab.ofList c9singlelens } }

/-! ## Entry-shape predicates and witness state for the advance-table
population property -/

/-- The symbols a length vector uses (nonzero length, index below `n`). -/
def usedSyms (lengths : Nat → Nat) (n : Nat) : Finset Nat :=
  (Finset.range n).filter (fun i => lengths i ≠ 0)

/-- The `advance_table` value the single-literal expansion loop writes at
table index `q`. -/
def singleE (useEL : Bool) (l0 l q : Nat) : Nat :=
  if useEL then tz16 16 ((q ||| 0xf000) >>> l) / l0 else 0

/-- The full advance entry of the single-literal expansion at `q`. -/
def singleAdv (useEL : Bool) (l0 l q : Nat) : Nat :=
  (singleE useEL l0 l q + 1) <<< 4 ||| (l + singleE useEL l0 l q * l0)

/-- The `e` of the literal-pair expansion at table index `q`. -/
def pairE (useEL : Bool) (l0 l l2 q : Nat) : Nat :=
  if useEL then tz16 16 ((q ||| 0xf000) >>> (l + l2)) / l0 else 0

/-- The advance entry the literal-pair expansion writes at `q`. -/
def pairAdv (useEL : Bool) (l0 l l2 q : Nat) : Nat :=
  (pairE useEL l0 l l2 q + 2) <<< 4 ||| (l + l2 + pairE useEL l0 l l2 q * l0)

/-- The advance entry written for a short length-symbol code. -/
def lensymVal (i l : Nat) : Nat := (i - 256) <<< 8 ||| l <<< 4

/-- Shape of every fast-path (literal) advance entry: nonzero input-bit
nibble under a small upper half. -/
def fastVal (a : Nat) : Prop :=
  ∃ h low, a = h <<< 4 ||| low ∧ 1 ≤ low ∧ low < 16 ∧ h < 2048

/-- A table index is matched by a short literal code in `[lo, 256)`. -/
def litMatchedIn (lengths codes : Nat → Nat) (lo q : Nat) : Prop :=
  ∃ j, lo ≤ j ∧ j < 256 ∧ lengths j ≠ 0 ∧ lengths j ≤ 12 ∧ q % 2 ^ lengths j = codes j

/-- Shape of every short length-symbol advance entry. -/
def slowVal (a : Nat) : Prop :=
  ∃ hi lw, a = hi <<< 8 ||| lw <<< 4 ∧ hi < 32 ∧ 1 ≤ lw ∧ lw < 16

/-- A table index is matched by a short code of a symbol in `[lo, hl)`. -/
def lenMatchedIn (lengths codes : Nat → Nat) (lo hl q : Nat) : Prop :=
  ∃ j, lo ≤ j ∧ j < hl ∧ lengths j ≠ 0 ∧ lengths j ≤ 12 ∧ q % 2 ^ lengths j = codes j

/-- A table index is the 12-bit prefix of some long code of `[lo, hl)`. -/
def longPfxIn (lengths codes : Nat → Nat) (lo hl q : Nat) : Prop :=
  ∃ j, lo ≤ j ∧ j < hl ∧ 12 < lengths j ∧ codes j % 4096 = q

/-- Shape of an allocated long-code prefix entry: a secondary-table window
index below `bound`, top bit set. -/
def allocVal (bound a : Nat) : Prop :=
  ∃ k, a = (k <<< 4 ||| 0x8000) % 65536 ∧ k % 8 = 0 ∧ k + 8 ≤ bound

/-- The C5 population property of one `advance_table` entry after a
successful `build_tables`: the entry is not the all-ones sentinel, and it is
a fast literal/length entry (nonzero bit advance in the low nibble), a
length-symbol slow-path entry, or a pointer (top bit set) to an 8-slot
`secondary_table` window whose slots are all in bounds and populated with a
code length greater than 12. -/
def advanceOK (cb : CompressedBlock) (q : Nat) : Prop :=
  cb.advance_table.get 12 q ≠ 0xffff ∧
    (cb.advance_table.get 12 q &&& 15 ≠ 0 ∨
     (cb.advance_table.get 12 q &&& 15 = 0 ∧ cb.advance_table.get 12 q &&& 0x8000 = 0 ∧
       (cb.advance_table.get 12 q >>> 4) &&& 15 ≠ 0) ∨
     (cb.advance_table.get 12 q &&& 15 = 0 ∧ cb.advance_table.get 12 q &&& 0x8000 ≠ 0 ∧
       ∀ t, t < 8 →
         ((cb.advance_table.get 12 q &&& 0x7ff0) >>> 4) + t < cb.secondary_len ∧
         12 < cb.secondary_table
           (((cb.advance_table.get 12 q &&& 0x7ff0) >>> 4) + t) &&& 15))

def c5lens : List Nat :=
  (List.range 320).map fun i => if i = 0 ∨ i = 256 then 1 else 0

def c5state : Decompressor where
  compression :=
    { data_table := .leaf (0, 0)
      advance_table := .leaf 0xffff
      secondary_table := fun _ => 0
      secondary_len := 0
      dist_table := fun _ => 0
      dist_symbol_lengths := fun _ => 0
      dist_symbol_masks := fun _ => 0
      dist_symbol_codes := fun _ => 0xffff }
  header :=
    { hlit := 257
      hdist := 1
      table := .leaf 0
      num_lengths_read := 0
      code_lengths := Tab.ofList c5lens }
  uncompressed_bytes_left := 0
  buffer := 0
  nbits := 0
  bits_read := 0
  queued_rle := none
  queued_backref := none
  checksum := (1, 0)
  state := .Done
  last_block := false

def c5out : Decompressor :=
  match Decompressor.build_tables c5state with
  | .ok d => d
  | _ => c5state

/-! ## Lemmas -/

@[simp] theorem RRes.bind_ok {α β : Type} (a : α) (f : α → RRes β) :
    (RRes.ok a >>= f) = f a := rfl
@[simp] theorem RRes.bind_err {α β : Type} (e : DecompressionError) (f : α → RRes β) :
    (RRes.err e >>= f : RRes β) = RRes.err e := rfl
@[simp] theorem RRes.bind_panicked {α β : Type} (f : α → RRes β) :
    (RRes.panicked >>= f : RRes β) = RRes.panicked := rfl
@[simp] theorem RRes.pure_eq_ok {α : Type} (a : α) : (pure a : RRes α) = RRes.ok a := rfl

theorem listGetP_ne_err (l : List Nat) (i : Nat) (e : DecompressionError) :
    listGetP l i ≠ .err e := by
  unfold listGetP; split <;> simp

theorem listSetP_ne_err (l : List Nat) (i v : Nat) (e : DecompressionError) :
    listSetP l i v ≠ .err e := by
  unfold listSetP; split <;> simp

theorem copyWithin_ne_err (l : List Nat) (a b c : Nat) (e : DecompressionError) :
    copyWithin l a b c ≠ .err e := by
  unfold copyWithin; split <;> simp

theorem backrefCopy_ne_err (dist : Nat) :
    ∀ (n idx : Nat) (output : List Nat) (e : DecompressionError),
      backrefCopy dist n idx output ≠ .err e := by
  intro n
  induction n with
  | zero => intro idx output e; simp [backrefCopy]
  | succ m ih =>
    intro idx output e h
    rw [backrefCopy] at h
    split at h
    · simp at h
    · split at h
      · split at h
        · exact ih _ _ _ h
        · exact listSetP_ne_err _ _ _ _ (by rw [← h] at *; assumption)
        · simp at h
      · exact listGetP_ne_err _ _ _ (by rw [← h] at *; assumption)
      · simp at h


theorem rcLitlen_ne_iswr (s : Decompressor) (a b : Nat) :
    Decompressor.rcLitlen s a b ≠ .err .InputStartsWithRun := by
  unfold Decompressor.rcLitlen
  intro h
  try simp only [] at h
  repeat' split at h
  all_goals try cases h

theorem rcFast_ne_iswr (s : Decompressor) (input output : List Nat) (oi : Nat)
    (data : Nat × Nat) (aib aob : Nat) :
    Decompressor.rcFast s input output oi data aib aob ≠ .err .InputStartsWithRun := by
  unfold Decompressor.rcFast
  intro h
  try simp only [] at h
  repeat' split at h
  all_goals try cases h
  all_goals exact listSetP_ne_err _ _ _ _ (by assumption)

theorem rcBackref_ne_iswr (s : Decompressor) (input output : List Nat)
    (oi lcb leb bits dc len : Nat) :
    Decompressor.rcBackref s input output oi lcb leb bits dc len ≠
      .err .InputStartsWithRun := by
  unfold Decompressor.rcBackref
  intro h
  try simp only [] at h
  repeat' split at h
  all_goals try cases h
  all_goals first
    | exact backrefCopy_ne_err _ _ _ _ _ (by assumption)
    | exact copyWithin_ne_err _ _ _ _ _ (by assumption)
    | (rename_i heq
       split at heq <;>
         first
           | exact backrefCopy_ne_err _ _ _ _ _ heq
           | exact copyWithin_ne_err _ _ _ _ _ heq)

theorem rcLength_ne_iswr (s : Decompressor) (input output : List Nat)
    (oi lcb lsym : Nat) :
    Decompressor.rcLength s input output oi lcb lsym ≠ .err .InputStartsWithRun := by
  unfold Decompressor.rcLength
  intro h
  try simp only [] at h
  repeat' split at h
  all_goals try cases h
  all_goals first
    | exact And.right (by assumption)
    | exact rcBackref_ne_iswr _ _ _ _ _ _ _ _ _ h

theorem rcSlow_ne_iswr (s : Decompressor) (input output : List Nat)
    (oi adv aob : Nat) :
    Decompressor.rcSlow s input output oi adv aob ≠ .err .InputStartsWithRun := by
  unfold Decompressor.rcSlow
  intro h
  try simp only [] at h
  repeat' split at h
  all_goals try cases h
  all_goals first
    | exact rcLitlen_ne_iswr _ _ _ (by assumption)
    | exact rcLength_ne_iswr _ _ _ _ _ _ h
    | exact listSetP_ne_err _ _ _ _ (by assumption)

theorem rcStep_ne_iswr (s : Decompressor) (input output : List Nat) (oi : Nat) :
    Decompressor.rcStep s input output oi ≠ .err .InputStartsWithRun := by
  unfold Decompressor.rcStep
  intro h
  try simp only [] at h
  repeat' split at h
  all_goals try cases h
  all_goals first
    | exact rcFast_ne_iswr _ _ _ _ _ _ _ h
    | exact rcSlow_ne_iswr _ _ _ _ _ _ h

theorem read_compressed_ne_iswr :
    ∀ (fuel : Nat) (s : Decompressor) (input output : List Nat) (oi : Nat),
      Decompressor.read_compressed fuel s input output oi ≠ .err .InputStartsWithRun := by
  intro fuel
  induction fuel with
  | zero => intro s input output oi; simp [Decompressor.read_compressed]
  | succ n ih =>
    intro s input output oi h
    rw [Decompressor.read_compressed] at h
    try simp only [] at h
    repeat' split at h
    all_goals try cases h
    all_goals first
      | exact rcStep_ne_iswr _ _ _ _ (by assumption)
      | exact ih _ _ _ _ h


theorem cllLoop_ne_err (hclen : Nat) :
    ∀ (fuel i : Nat) (cll : Nat → Nat) (s : Decompressor) (input : List Nat)
      (e : DecompressionError),
      Decompressor.cllLoop hclen fuel i cll s input ≠ .err e := by
  intro fuel
  induction fuel with
  | zero => intro i cll s input e; simp [Decompressor.cllLoop]
  | succ n ih =>
    intro i cll s input e h
    rw [Decompressor.cllLoop] at h
    try simp only [] at h
    repeat' split at h
    all_goals try cases h
    all_goals exact ih _ _ _ _ _ h

theorem popInner_ne_err (i l k : Nat) :
    ∀ (fuel s : Nat) (cb : CompressedBlock) (e : DecompressionError),
      Decompressor.popInner i l k fuel s cb ≠ .err e := by
  intro fuel
  induction fuel with
  | zero => intro s cb e; simp [Decompressor.popInner]
  | succ n ih =>
    intro s cb e h
    rw [Decompressor.popInner] at h
    try simp only [] at h
    repeat' split at h
    all_goals try cases h
    all_goals exact ih _ _ _ h

theorem populateLoop_ne_err (lengths codes : Nat → Nat) (hlit : Nat) :
    ∀ (fuel i : Nat) (cb : CompressedBlock) (e : DecompressionError),
      Decompressor.populateLoop lengths codes hlit fuel i cb ≠ .err e := by
  intro fuel
  induction fuel with
  | zero => intro i cb e; simp [Decompressor.populateLoop]
  | succ n ih =>
    intro i cb e h
    rw [Decompressor.populateLoop] at h
    try simp only [] at h
    repeat' split at h
    all_goals try cases h
    all_goals first
      | exact ih _ _ _ h
      | exact popInner_ne_err _ _ _ _ _ _ _ (by assumption)

theorem build_tables_ne_iswr (s : Decompressor) :
    s.build_tables ≠ .err .InputStartsWithRun := by
  unfold Decompressor.build_tables
  intro h
  try simp only [] at h
  repeat' split at h
  all_goals try cases h
  all_goals first
    | exact populateLoop_ne_err _ _ _ _ _ _ _ (by assumption)
    | (rename_i heq
       repeat' split at heq
       all_goals simp at heq)

theorem rbhStored_ne_iswr (s : Decompressor) (input : List Nat) :
    Decompressor.rbhStored s input ≠ .err .InputStartsWithRun := by
  unfold Decompressor.rbhStored
  intro h
  try simp only [] at h
  repeat' split at h
  all_goals cases h

theorem rbhFixed_ne_iswr (s : Decompressor) (input : List Nat) :
    Decompressor.rbhFixed s input ≠ .err .InputStartsWithRun := by
  unfold Decompressor.rbhFixed
  intro h
  try simp only [] at h
  repeat' split at h
  all_goals try cases h
  all_goals exact build_tables_ne_iswr _ (by assumption)

theorem rbhDynamic_ne_iswr (s : Decompressor) (input : List Nat) :
    Decompressor.rbhDynamic s input ≠ .err .InputStartsWithRun := by
  unfold Decompressor.rbhDynamic
  intro h
  try simp only [] at h
  repeat' split at h
  all_goals try cases h
  all_goals exact cllLoop_ne_err _ _ _ _ _ _ _ (by assumption)

theorem read_block_header_ne_iswr (s : Decompressor) (input : List Nat) :
    s.read_block_header input ≠ .err .InputStartsWithRun := by
  unfold Decompressor.read_block_header
  intro h
  try simp only [] at h
  repeat' split at h
  · cases h
  · exact rbhStored_ne_iswr _ _ h
  · exact rbhFixed_ne_iswr _ _ h
  · exact rbhDynamic_ne_iswr _ _ h
  · cases h
  · cases h

theorem rclStep_ne_iswr (s : Decompressor) (input : List Nat) :
    Decompressor.rclStep s input ≠ .err .InputStartsWithRun := by
  unfold Decompressor.rclStep
  intro h
  try simp only [] at h
  repeat' split at h
  all_goals try cases h
  all_goals (rename_i heq; repeat' split at heq)
  all_goals simp at heq

theorem rclFinish_ne_iswr (s : Decompressor) (input : List Nat) :
    Decompressor.rclFinish s input ≠ .err .InputStartsWithRun := by
  unfold Decompressor.rclFinish
  intro h
  try simp only [] at h
  repeat' split at h
  all_goals try cases h
  all_goals exact build_tables_ne_iswr _ (by assumption)

theorem read_code_lengths_ne_iswr :
    ∀ (fuel : Nat) (s : Decompressor) (input : List Nat),
      Decompressor.read_code_lengths fuel s input ≠ .err .InputStartsWithRun := by
  intro fuel
  induction fuel with
  | zero => intro s input; simp [Decompressor.read_code_lengths]
  | succ n ih =>
    intro s input h
    rw [Decompressor.read_code_lengths] at h
    repeat' split at h
    all_goals try cases h
    all_goals first
      | exact ih _ _ h
      | exact rclStep_ne_iswr _ _ (by assumption)
      | exact rclFinish_ne_iswr _ _ h

theorem uncompressedDrain_ne_err :
    ∀ (fuel : Nat) (s : Decompressor) (output : List Nat) (oi : Nat)
      (e : DecompressionError),
      Decompressor.uncompressedDrain fuel s output oi ≠ .err e := by
  intro fuel
  induction fuel with
  | zero => intro s output oi e; simp [Decompressor.uncompressedDrain]
  | succ n ih =>
    intro s output oi e h
    rw [Decompressor.uncompressedDrain] at h
    try simp only [] at h
    repeat' split at h
    all_goals try cases h
    all_goals first
      | exact ih _ _ _ _ h
      | exact listSetP_ne_err _ _ _ _ (by assumption)

theorem readStateMachine_ne_iswr :
    ∀ (fuel : Nat) (ls : Option State) (s : Decompressor)
      (input remaining output : List Nat) (op oi : Nat) (eoi : Bool),
      Decompressor.readStateMachine fuel ls s input remaining output op oi eoi ≠
        .err .InputStartsWithRun := by
  intro fuel
  induction fuel with
  | zero => intro ls s input remaining output op oi eoi
            simp [Decompressor.readStateMachine]
  | succ n ih =>
    intro ls s input remaining output op oi eoi h
    rw [Decompressor.readStateMachine] at h
    try simp only [] at h
    repeat' split at h
    all_goals try cases h
    all_goals first
      | exact ih _ _ _ _ _ _ _ _ h
      | exact read_block_header_ne_iswr _ _ (by assumption)
      | exact read_code_lengths_ne_iswr _ _ _ (by assumption)
      | exact read_compressed_ne_iswr _ _ _ _ _ (by assumption)
      | exact uncompressedDrain_ne_err _ _ _ _ _ (by assumption)

theorem readQueuedRle_ne_inl_err (s : Decompressor) (output : List Nat) (oi : Nat)
    (e : DecompressionError) :
    Decompressor.readQueuedRle s output oi ≠ .inl (.err e) := by
  unfold Decompressor.readQueuedRle
  intro h
  try simp only [] at h
  repeat' split at h
  all_goals cases h

theorem readQueuedBackref_ne_inl_err (s : Decompressor) (output : List Nat) (oi : Nat)
    (e : DecompressionError) :
    Decompressor.readQueuedBackref s output oi ≠ .inl (.err e) := by
  unfold Decompressor.readQueuedBackref
  intro h
  try simp only [] at h
  repeat' split at h
  all_goals try cases h
  all_goals first
    | exact backrefCopy_ne_err _ _ _ _ _ (by assumption)

/-- C10: confirmed.  For every input, state and call parameters, `read`
never returns the `InputStartsWithRun` error: the only code path that
raises it sits behind a guard that ends in `&& false`, so it is statically
disabled, and this propagates through every state-machine arm. -/
theorem C10_read_never_returns_input_starts_with_run (fuel : Nat) (s : Decompressor) (input output : List Nat)
    (op : Nat) (eoi : Bool) :
    Decompressor.read fuel s input output op eoi ≠ .err .InputStartsWithRun := by
  unfold Decompressor.read
  intro h
  try simp only [] at h
  repeat' split at h
  all_goals try cases h
  all_goals first
    | exact readStateMachine_ne_iswr _ _ _ _ _ _ _ _ _ (by assumption)
    | exact readQueuedRle_ne_inl_err _ _ _ _ (by assumption)
    | exact readQueuedBackref_ne_inl_err _ _ _ _ (by assumption)


theorem lorLtTwoPow {a b w : Nat} (ha : a < 2 ^ w) (hb : b < 2 ^ w) :
    a ||| b < 2 ^ w :=
  Nat.bitwise_lt_two_pow ha hb

theorem listSetP_ok_length (l : List Nat) (i v : Nat) (l' : List Nat)
    (h : listSetP l i v = .ok l') : l'.length = l.length := by
  unfold listSetP at h
  split at h
  · cases h; simp
  · cases h

theorem listFill_length (l : List Nat) (a b v : Nat) (hab : a ≤ b)
    (hb : b ≤ l.length) : (listFill l a b v).length = l.length := by
  unfold listFill
  simp [List.length_take, List.length_drop]
  omega

theorem listBlit_length (dst : List Nat) (start : Nat) (src : List Nat)
    (h : start + src.length ≤ dst.length) :
    (listBlit dst start src).length = dst.length := by
  unfold listBlit
  simp [List.length_take, List.length_drop]
  omega

theorem copyWithin_ok_length (l : List Nat) (a b c : Nat) (l' : List Nat)
    (h : copyWithin l a b c = .ok l') : l'.length = l.length := by
  unfold copyWithin at h
  split at h
  · cases h
    rename_i hc
    rw [listBlit_length]
    simp [List.length_take, List.length_drop]
    omega
  · cases h

theorem backrefCopy_ok_length (dist : Nat) :
    ∀ (n idx : Nat) (output output' : List Nat),
      backrefCopy dist n idx output = .ok output' → output'.length = output.length := by
  intro n
  induction n with
  | zero => intro idx output output' h; cases h; rfl
  | succ m ih =>
    intro idx output output' h
    rw [backrefCopy] at h
    split at h
    · cases h
    · split at h
      · split at h
        · rename_i hset
          rw [ih _ _ _ h, listSetP_ok_length _ _ _ _ hset]
        · cases h
        · cases h
      · cases h
      · cases h

theorem consume_bits_nbits_le (s : Decompressor) (n : Nat) (h : s.nbits ≤ 64) :
    (s.consume_bits n).nbits ≤ 64 := by
  simp [Decompressor.consume_bits]
  omega

theorem fill_buffer_nbits_le (s : Decompressor) (input : List Nat)
    (h : s.nbits ≤ 64) : (s.fill_buffer input).1.nbits ≤ 64 := by
  unfold Decompressor.fill_buffer
  split
  · exact h
  · split
    · simp only []
      have h64 : s.nbits < 64 := by
        rename_i hne _; omega
      have : s.nbits ||| 56 < 64 := lorLtTwoPow (by omega : s.nbits < 2 ^ 6) (by omega)
      omega
    · simp only []
      have h1 : min input.length ((64 - s.nbits) / 8) ≤ (64 - s.nbits) / 8 :=
        Nat.min_le_right _ _
      have h2 : (64 - s.nbits) / 8 * 8 ≤ 64 - s.nbits := Nat.div_mul_le_self _ _
      omega



theorem readStateMachine_true_no_ret :
    ∀ (fuel : Nat) (ls : Option State) (s : Decompressor)
      (input remaining output : List Nat) (op oi : Nat)
      (a : Decompressor) (b : List Nat) (c d : Nat),
      Decompressor.readStateMachine fuel ls s input remaining output op oi true ≠
        .ok (.ret a b c d) := by
  intro fuel
  induction fuel with
  | zero =>
    intro ls s input remaining output op oi a b c d
    simp [Decompressor.readStateMachine]
  | succ n ih =>
    intro ls s input remaining output op oi a b c d h
    rw [Decompressor.readStateMachine] at h
    try simp only [] at h
    repeat' split at h
    all_goals try cases h
    all_goals first
      | exact ih _ _ _ _ _ _ _ _ _ _ _ h
      | simp_all

theorem readQueuedRle_none (s : Decompressor) (output : List Nat) (oi : Nat)
    (h : s.queued_rle = none) :
    Decompressor.readQueuedRle s output oi = .inr (s, output, oi) := by
  unfold Decompressor.readQueuedRle
  rw [h]

theorem readQueuedBackref_none (s : Decompressor) (output : List Nat) (oi : Nat)
    (h : s.queued_backref = none) :
    Decompressor.readQueuedBackref s output oi = .inr (s, output, oi) := by
  unfold Decompressor.readQueuedBackref
  rw [h]

/-- C4 (amended): when `read` is called with `end_of_input = true` on a
state with no queued carry-over and returns `Ok` without having reached
`Done`, the output buffer was filled to within one byte of its capacity
(`output.len() - 1 <= output_index`); only then does the code skip the
`InsufficientInput` error. -/
theorem C4_ok_without_done_only_when_output_full
    (fuel : Nat) (s : Decompressor) (input output : List Nat) (op : Nat)
    (s2 : Decompressor) (out2 : List Nat) (c p : Nat)
    (hrle : s.queued_rle = none) (hbr : s.queued_backref = none)
    (h : Decompressor.read fuel s input output op true = .ok (s2, out2, c, p))
    (hnd : s2.state ≠ .Done) :
    out2.length ≤ op + p + 1 := by
  unfold Decompressor.read at h
  rw [readQueuedRle_none _ _ _ hrle] at h
  try simp only [] at h
  rw [readQueuedBackref_none _ _ _ hbr] at h
  try simp only [] at h
  repeat' split at h
  all_goals try cases h
  · exact absurd (by assumption) hnd
  · exact absurd (by assumption) (readStateMachine_true_no_ret _ _ _ _ _ _ _ _ _ _ _ _)
  · rename_i hcond
    rcases hcond with hc | hc | hc
    · exact absurd hc hnd
    · simp at hc
    · omega
  · rename_i hcond
    rcases hcond with hc | hc | hc
    · exact absurd hc hnd
    · simp at hc
    · omega


theorem build_tables_bdht_conditions (s : Decompressor)
    (h : s.build_tables = .err .BadDistanceHuffmanTree) :
    ((List.range 32).all fun i => Tab.get 12 s.header.code_lengths (288 + i) == 0) = false ∧
    (compute_codes (fun i => Tab.get 12 s.header.code_lengths (288 + i)) 32).isNone = true ∧
    ((List.range 32).filter fun i =>
      decide (Tab.get 12 s.header.code_lengths (288 + i) ≠ 0)).length ≠ 1 := by
  unfold Decompressor.build_tables at h
  try simp only [] at h
  repeat' split at h
  all_goals try cases h
  all_goals try exact absurd (by assumption) (populateLoop_ne_err _ _ _ _ _ _ _)
  all_goals (rename_i heq; repeat' split at heq)
  all_goals try (exfalso; exact absurd (by assumption) (populateLoop_ne_err _ _ _ _ _ _ _))
  all_goals simp_all

theorem buildOk_eq (r : RRes Decompressor) (h : buildOk r = true) :
    ∃ x, r = .ok x := by
  cases r with
  | ok x => exact ⟨x, rfl⟩
  | err e => simp [buildOk] at h
  | panicked => simp [buildOk] at h

theorem build_tables_cases (s : Decompressor) :
    buildPanicked s.build_tables = true ∨
    buildErrIs .BadLiteralLengthHuffmanTree s.build_tables = true ∨
    s.build_tables = .err .BadDistanceHuffmanTree ∨
    buildOk s.build_tables = true := by
  unfold Decompressor.build_tables
  try simp only []
  repeat' split
  all_goals try simp [buildPanicked, buildErrIs, buildOk]
  all_goals try exact absurd (by assumption) (populateLoop_ne_err _ _ _ _ _ _ _)
  all_goals (rename_i heq; repeat' split at heq)
  all_goals simp_all [buildPanicked, buildErrIs, buildOk]

theorem build_tables_ok_dist (s s' : Decompressor) (h : s.build_tables = .ok s') :
    ((List.range 32).all fun i => Tab.get 12 s.header.code_lengths (288 + i) == 0) = true ∨
    (compute_codes (fun i => Tab.get 12 s.header.code_lengths (288 + i)) 32).isNone = false ∨
    ((List.range 32).filter fun i =>
      decide (Tab.get 12 s.header.code_lengths (288 + i) ≠ 0)).length = 1 := by
  unfold Decompressor.build_tables at h
  try simp only [] at h
  repeat' split at h
  all_goals try cases h
  all_goals try exact absurd (by assumption) (populateLoop_ne_err _ _ _ _ _ _ _)
  all_goals (rename_i heq; repeat' split at heq)
  all_goals simp_all


/-- Sum of an everywhere-zero prefix. -/
theorem sumRange_zero (f : Nat → Nat) : ∀ n, (∀ j, j < n → f j = 0) → sumRange f n = 0 := by
  intro n
  induction n with
  | zero => intro _; rfl
  | succ m ih =>
    intro h
    rw [sumRange, ih (fun j hj => h j (by omega)), h m (by omega)]

/-- Sum of a prefix supported at one index. -/
theorem sumRange_single (f : Nat → Nat) (i0 : Nat) :
    ∀ n, i0 < n → (∀ j, j < n → j ≠ i0 → f j = 0) → sumRange f n = f i0 := by
  intro n
  induction n with
  | zero => intro h; omega
  | succ m ih =>
    intro hi h
    rw [sumRange]
    by_cases he : i0 = m
    · subst he
      rw [sumRange_zero f i0 (fun j hj => h j (by omega) (by omega))]
      omega
    · rw [ih (by omega) (fun j hj hne => h j (by omega) hne), h m (by omega) (by omega)]
      omega

/-- A length vector with a single used symbol is rejected by the canonical
builder: its scaled Kraft sum is `2 ^ (15 - l) < 2 ^ 15`. -/
theorem single_compute_none (dl : Nat → Nat) (i0 : Nat) (hi : i0 < 32) (hne : dl i0 ≠ 0)
    (hz : ∀ j, j < 32 → j ≠ i0 → dl j = 0) :
    compute_codes dl 32 = none := by
  have hv : computeCodesValid dl 32 = false := by
    rw [computeCodesValid]
    apply decide_eq_false
    rintro ⟨hb, htot⟩
    have hks : kraftTotal dl 32 = kraftSize (dl i0) := by
      apply sumRange_single (fun j => kraftSize (dl j)) i0 32 hi
      intro j hj hjne
      rw [hz j hj hjne]
      rfl
    have hle : dl i0 ≤ 15 := hb i0 hi
    rw [hks] at htot
    unfold kraftSize at htot
    rw [if_neg hne] at htot
    have : 15 - dl i0 < 15 := by omega
    have hlt : (2 : Nat) ^ (15 - dl i0) < 2 ^ 15 := Nat.pow_lt_pow_right (by omega) this
    omega
  rw [compute_codes, hv]
  rfl

/-- A 32-slot length vector with a used symbol is not all zeros. -/
theorem range32_all_false (f : Nat → Nat) (i0 : Nat) (hi : i0 < 32) (hne : f i0 ≠ 0) :
    ((List.range 32).all fun i => f i == 0) = false := by
  cases hall : ((List.range 32).all fun i => f i == 0) with
  | false => rfl
  | true =>
    have h := List.all_eq_true.mp hall i0 (List.mem_range.mpr hi)
    exact absurd (by simpa using h) hne

/-- Effect of the distance-table finishing loop on the mask and code rows:
rows with zero length get the never-matching pair `(0, 0xffff)`, rows with a
nonzero length get the mask `2 ^ len - 1` and keep their code word. -/
theorem distFinalLoop_masks (dl : Nat → Nat) :
    ∀ (fuel i0 : Nat) (cb : CompressedBlock), 30 ≤ i0 + fuel →
      (∀ i, i < 30 → i0 ≤ i →
        (Decompressor.distFinalLoop dl fuel i0 cb).dist_symbol_masks i =
          (if dl i = 0 then 0 else 2 ^ dl i - 1) ∧
        (Decompressor.distFinalLoop dl fuel i0 cb).dist_symbol_codes i =
          (if dl i = 0 then 0xffff else cb.dist_symbol_codes i)) ∧
      (∀ i, ¬(i0 ≤ i ∧ i < 30) →
        (Decompressor.distFinalLoop dl fuel i0 cb).dist_symbol_masks i =
          cb.dist_symbol_masks i ∧
        (Decompressor.distFinalLoop dl fuel i0 cb).dist_symbol_codes i =
          cb.dist_symbol_codes i) ∧
      (Decompressor.distFinalLoop dl fuel i0 cb).dist_symbol_lengths =
        cb.dist_symbol_lengths := by
  intro fuel
  induction fuel with
  | zero =>
    intro i0 cb hf
    rw [Decompressor.distFinalLoop]
    exact ⟨fun i hi hle => absurd hi (by omega), fun i _ => ⟨rfl, rfl⟩, rfl⟩
  | succ m ih =>
    intro i0 cb hf
    rw [Decompressor.distFinalLoop]
    simp only []
    by_cases hi0 : i0 < 30
    · rw [if_pos hi0]
      by_cases hz : dl i0 = 0
      · rw [if_pos hz]
        obtain ⟨ihA, ihF, ihL⟩ := ih (i0 + 1)
          { cb with dist_symbol_masks := upd cb.dist_symbol_masks i0 0
                    dist_symbol_codes := upd cb.dist_symbol_codes i0 0xffff } (by omega)
        refine ⟨?_, ?_, by rw [ihL]⟩
        · intro i hi hle
          rcases Nat.eq_or_lt_of_le hle with he | hlt
          · subst he
            obtain ⟨hfm, hfc⟩ := ihF i0 (by omega)
            rw [hfm, hfc]
            simp [upd, hz]
          · obtain ⟨ham, hac⟩ := ihA i hi (by omega)
            have hne : ¬ i = i0 := by omega
            rw [ham, hac]
            simp [upd, hne]
        · intro i hni
          obtain ⟨hfm, hfc⟩ := ihF i (by omega)
          have hne : ¬ i = i0 := by omega
          rw [hfm, hfc]
          simp [upd, hne]
      · rw [if_neg hz]
        obtain ⟨ihA, ihF, ihL⟩ := ih (i0 + 1)
          { cb with dist_symbol_masks := upd cb.dist_symbol_masks i0 (2 ^ dl i0 - 1) }
          (by omega)
        refine ⟨?_, ?_, by rw [ihL]⟩
        · intro i hi hle
          rcases Nat.eq_or_lt_of_le hle with he | hlt
          · subst he
            obtain ⟨hfm, hfc⟩ := ihF i0 (by omega)
            rw [hfm, hfc]
            simp [upd, hz]
          · obtain ⟨ham, hac⟩ := ihA i hi (by omega)
            rw [ham, hac]
            exact ⟨rfl, rfl⟩
        · intro i hni
          obtain ⟨hfm, hfc⟩ := ihF i (by omega)
          have hne : ¬ i = i0 := by omega
          rw [hfm, hfc]
          simp [upd, hne]
    · rw [if_neg hi0]
      exact ⟨fun i hi hle => absurd hi (by omega), fun i _ => ⟨rfl, rfl⟩, rfl⟩

/-- On the single-symbol degenerate path (distance vector not all zero but
rejected by the canonical builder), a successful `build_tables` leaves the
distance rows in the never-matching state except for used symbols, whose
code word is zero. -/
theorem build_tables_ok_single (s s2 : Decompressor)
    (hok : s.build_tables = .ok s2)
    (hnall : ((List.range 32).all fun i =>
      Tab.get 12 s.header.code_lengths (288 + i) == 0) = false)
    (hcc : compute_codes (fun i => Tab.get 12 s.header.code_lengths (288 + i)) 32 = none) :
    s2.compression.dist_table = (fun _ => 0) ∧
    s2.compression.dist_symbol_lengths =
      (fun i => Tab.get 12 s.header.code_lengths (288 + i)) ∧
    (∀ i, i < 30 →
      s2.compression.dist_symbol_masks i =
        (if Tab.get 12 s.header.code_lengths (288 + i) = 0 then 0
         else 2 ^ Tab.get 12 s.header.code_lengths (288 + i) - 1) ∧
      s2.compression.dist_symbol_codes i =
        (if Tab.get 12 s.header.code_lengths (288 + i) = 0 then 0xffff else 0)) := by
  unfold Decompressor.build_tables at hok
  simp only [] at hok
  split at hok
  · exact (RRes.noConfusion hok)
  · rename_i codes hcclit
    split at hok
    · exact (RRes.noConfusion hok)
    · rename_i hstl
      split at hok
      · exact (RRes.noConfusion hok)
      · exact (RRes.noConfusion hok)
      · rename_i cb5 hpop
        split at hok
        · rename_i hall
          rw [hall] at hnall
          exact (Bool.noConfusion hnall)
        · rename_i hall
          try simp only [] at hok
          split at hok
          · exact (RRes.noConfusion hok)
          · exact (RRes.noConfusion hok)
          · rename_i cbB codes32 hnext
            injection hok with h
            split at hnext
            · rename_i c32 hsome
              rw [hcc] at hsome
              exact (Option.noConfusion hsome)
            · split at hnext
              · exact (RRes.noConfusion hnext)
              · obtain ⟨rfl, rfl⟩ :
                    ({ cb5 with dist_table := fun _ => 0 } : CompressedBlock) = cbB ∧
                      (fun _ => 0 : Nat → Nat) = codes32 := by
                  injection hnext with hp
                  exact ⟨congrArg Prod.fst hp, congrArg Prod.snd hp⟩
                rw [← h]
                obtain ⟨hmk, _, hlen⟩ :=
                  distFinalLoop_masks (fun i => Tab.get 12 s.header.code_lengths (288 + i))
                    31 0 { { cb5 with dist_table := fun _ => 0 } with
                      dist_symbol_codes := (fun _ => 0 : Nat → Nat)
                      dist_symbol_lengths :=
                        fun i => Tab.get 12 s.header.code_lengths (288 + i) } (by omega)
                refine ⟨rfl, hlen, ?_⟩
                intro i hi
                exact hmk i hi (Nat.zero_le _)

/-- The linear distance-symbol scan resolves to the first matching row. -/
theorem distScanLoop_first (cb : CompressedBlock) (dc i0 : Nat) (hi0 : i0 < 30)
    (hmatch : dc &&& cb.dist_symbol_masks i0 = cb.dist_symbol_codes i0)
    (hmiss : ∀ j, j < i0 → dc &&& cb.dist_symbol_masks j ≠ cb.dist_symbol_codes j) :
    ∀ fuel j0, j0 ≤ i0 → 31 ≤ fuel + j0 → Decompressor.distScanLoop cb dc fuel j0 = i0 := by
  intro fuel
  induction fuel with
  | zero =>
    intro j0 h1 h2
    omega
  | succ m ih =>
    intro j0 h1 h2
    rw [Decompressor.distScanLoop]
    rw [if_pos (by omega : j0 < 30)]
    rcases Nat.eq_or_lt_of_le h1 with he | hlt
    · subst he
      rw [if_pos hmatch]
    · rw [if_neg (hmiss j0 hlt)]
      exact ih (j0 + 1) hlt (by omega)

set_option maxHeartbeats 1000000 in
/-- C9 (amended): `build_tables` returns `BadDistanceHuffmanTree` exactly
when it neither panics nor fails on the literal/length code, the 32-entry
distance length vector is not all zeros (the all-zero case is accepted,
contrary to the claim), the canonical builder rejects it, and it does not
have exactly one non-zero length; and in the permitted single-symbol
degenerate case (exactly one non-zero length) the build succeeds, and when
the lone length lies at one of the 30 real distance-symbol rows (rows 30
and 31 of the vector are not distance symbols and the scan never considers
them) the lone symbol is decodable: its mask is `2 ^ len - 1`, its code
word is `0`, and the linear scan of the decoder resolves every distance
code word whose `len` low bits are zero to it. -/
theorem C9_bad_distance_tree_exactly_when (s : Decompressor) :
    (s.build_tables = .err .BadDistanceHuffmanTree ↔
      (buildPanicked s.build_tables = false ∧
       buildErrIs .BadLiteralLengthHuffmanTree s.build_tables = false ∧
       ((List.range 32).all fun i => Tab.get 12 s.header.code_lengths (288 + i) == 0) = false ∧
       (compute_codes (fun i => Tab.get 12 s.header.code_lengths (288 + i)) 32).isNone = true ∧
       ((List.range 32).filter fun i =>
         decide (Tab.get 12 s.header.code_lengths (288 + i) ≠ 0)).length ≠ 1)) ∧
    (∀ i0, i0 < 32 →
      Tab.get 12 s.header.code_lengths (288 + i0) ≠ 0 →
      (∀ j, j < 32 → j ≠ i0 → Tab.get 12 s.header.code_lengths (288 + j) = 0) →
      ((List.range 32).filter fun i =>
        decide (Tab.get 12 s.header.code_lengths (288 + i) ≠ 0)).length = 1 →
      buildPanicked s.build_tables = false →
      buildErrIs .BadLiteralLengthHuffmanTree s.build_tables = false →
      ∃ s2, s.build_tables = .ok s2 ∧
        (i0 < 30 →
          s2.compression.dist_symbol_masks i0 =
            2 ^ Tab.get 12 s.header.code_lengths (288 + i0) - 1 ∧
          s2.compression.dist_symbol_codes i0 = 0 ∧
          s2.compression.dist_symbol_lengths i0 =
            Tab.get 12 s.header.code_lengths (288 + i0) ∧
          ∀ dc, dc % 2 ^ Tab.get 12 s.header.code_lengths (288 + i0) = 0 →
            Decompressor.distScanLoop s2.compression dc 31
              (s2.compression.dist_table (dc &&& 0xff)) = i0)) := by
  have hiff : s.build_tables = .err .BadDistanceHuffmanTree ↔
      (buildPanicked s.build_tables = false ∧
       buildErrIs .BadLiteralLengthHuffmanTree s.build_tables = false ∧
       ((List.range 32).all fun i => Tab.get 12 s.header.code_lengths (288 + i) == 0) = false ∧
       (compute_codes (fun i => Tab.get 12 s.header.code_lengths (288 + i)) 32).isNone = true ∧
       ((List.range 32).filter fun i =>
         decide (Tab.get 12 s.header.code_lengths (288 + i) ≠ 0)).length ≠ 1) := by
    constructor
    · intro h
      refine ⟨by rw [h]; rfl, by rw [h]; rfl, ?_, ?_, ?_⟩
      · exact (build_tables_bdht_conditions s h).1
      · exact (build_tables_bdht_conditions s h).2.1
      · exact (build_tables_bdht_conditions s h).2.2
    · rintro ⟨h1, h2, h3, h4, h5⟩
      rcases build_tables_cases s with hc | hc | hc | hc
      · rw [h1] at hc; cases hc
      · rw [h2] at hc; cases hc
      · exact hc
      · obtain ⟨s2, hok⟩ := buildOk_eq _ hc
        rcases build_tables_ok_dist s s2 hok with d | d | d
        · rw [h3] at d; cases d
        · rw [h4] at d; cases d
        · exact absurd d h5
  refine ⟨hiff, ?_⟩
  intro i0 hi32 hne hzero hcount hp hl
  have hnall := range32_all_false (fun i => Tab.get 12 s.header.code_lengths (288 + i))
    i0 hi32 hne
  have hcc := single_compute_none (fun i => Tab.get 12 s.header.code_lengths (288 + i))
    i0 hi32 hne hzero
  rcases build_tables_cases s with hc | hc | hc | hc
  · rw [hp] at hc; cases hc
  · rw [hl] at hc; cases hc
  · exact absurd ((hiff.mp hc).2.2.2.2) (fun hh => hh hcount)
  · obtain ⟨s2, hok⟩ := buildOk_eq _ hc
    obtain ⟨htab, hlens, hrows⟩ := build_tables_ok_single s s2 hok hnall hcc
    refine ⟨s2, hok, ?_⟩
    intro hi30
    obtain ⟨hm, hcd⟩ := hrows i0 hi30
    rw [if_neg hne] at hm hcd
    refine ⟨hm, hcd, by rw [hlens], ?_⟩
    intro dc hdc
    rw [htab]
    apply distScanLoop_first s2.compression dc i0 hi30 ?_ ?_ 31 0 (Nat.zero_le _)
      (by omega)
    · rw [hm, hcd, Nat.and_pow_two_sub_one_eq_mod, hdc]
    · intro j hj
      obtain ⟨hmj, hcj⟩ := hrows j (by omega)
      have hzj : Tab.get 12 s.header.code_lengths (288 + j) = 0 :=
        hzero j (by omega) (by omega)
      rw [if_pos hzj] at hmj hcj
      rw [hmj, hcj, Nat.and_zero]
      omega


/-- C8: confirmed.  One decode iteration of `read_code_lengths` on a
repeat symbol (16, 17 or 18), with the buffer already filled and enough
bits available, returns `InvalidCodeLengthRepeat` exactly when the symbol
is 16 with no previously read length, or the run would exceed
`hlit + hdist`; otherwise it continues with the previous length (symbol 16)
or zeros (17/18) appended `repeat` times, where `repeat` is the extra-bits
value plus 3 (16/17) or 11 (18). -/
theorem C8_invalid_repeat_exactly_when
    (s : Decompressor) (input : List Nat) (entry extra rep : Nat)
    (hfb : s.fill_buffer input = (s, input))
    (h7 : ¬ s.nbits < 7)
    (hentry : Tab.get 12 s.header.table (s.peak_bits 7) = entry)
    (hsym : entry >>> 3 = 16 ∨ entry >>> 3 = 17 ∨ entry >>> 3 = 18)
    (hextra : extra = (if entry >>> 3 = 16 then 2 else if entry >>> 3 = 17 then 3 else 7))
    (henough : ¬ s.nbits < (entry &&& 7) + extra)
    (hrep : rep = (s.peak_bits ((entry &&& 7) + extra) >>> (entry &&& 7)) +
      (if entry >>> 3 = 18 then 11 else 3)) :
    (Decompressor.rclStep s input = .err .InvalidCodeLengthRepeat ↔
      ((entry >>> 3 = 16 ∧ s.header.num_lengths_read = 0) ∨
        s.header.hlit + s.header.hdist < s.header.num_lengths_read + rep)) ∧
    (¬((entry >>> 3 = 16 ∧ s.header.num_lengths_read = 0) ∨
        s.header.hlit + s.header.hdist < s.header.num_lengths_read + rep) →
      Decompressor.rclStep s input = .ok (.inr (
        Decompressor.consume_bits { s with header := { s.header with
            code_lengths := Decompressor.fillRepeat
              (if entry >>> 3 = 16 then
                Tab.get 12 s.header.code_lengths (s.header.num_lengths_read - 1) else 0)
              rep s.header.num_lengths_read s.header.code_lengths
            num_lengths_read := s.header.num_lengths_read + rep } }
          ((entry &&& 7) + extra), input))) := by
  have hstep : Decompressor.rclStep s input =
      (if (entry >>> 3 = 16 ∧ s.header.num_lengths_read = 0) ∨
          s.header.hlit + s.header.hdist < s.header.num_lengths_read + rep then
        .err .InvalidCodeLengthRepeat
      else
        .ok (.inr (
          Decompressor.consume_bits { s with header := { s.header with
              code_lengths := Decompressor.fillRepeat
                (if entry >>> 3 = 16 then
                  Tab.get 12 s.header.code_lengths (s.header.num_lengths_read - 1) else 0)
                rep s.header.num_lengths_read s.header.code_lengths
              num_lengths_read := s.header.num_lengths_read + rep } }
            ((entry &&& 7) + extra), input))) := by
    unfold Decompressor.rclStep
    rw [hfb]
    simp only []
    rw [hentry]
    rcases hsym with hs | hs | hs <;>
      (rw [hs] at hextra hrep ⊢
       subst hextra
       subst hrep
       norm_num
       repeat' split) <;>
      first
        | rfl
        | omega
        | (exfalso; omega)
        | (simp_all; done)
        | (rename_i heq hcond; split at heq <;> simp_all; done)
        | (rename_i heq hcond; split at heq <;> simp_all <;> omega; done)
        | (rename_i heq hcond; rcases hcond with hc | hc <;> simp_all; done)
        | (rename_i hv heq hcond; rcases hcond with hc | hc <;> split at heq <;> simp_all; done)
  rw [hstep]
  constructor
  · constructor
    · intro h
      by_contra hc
      rw [if_neg hc] at h
      cases h
    · intro h
      rw [if_pos h]
  · intro h
    rw [if_neg h]


set_option maxHeartbeats 4000000 in
/-- C4 counterexample: on the valid 22-byte stream with a 4-byte output
buffer and `end_of_input = true`, `read` consumes all 22 input bytes,
does not reach `Done` (a back-reference remains queued), and still returns
`Ok((22, 4))` — not `InsufficientInput` as the claim requires. -/
theorem C4_ok_despite_input_exhausted_not_done :
    (match c4run with
     | .ok (s, _, c, _) => c == streamDynamicBackref.length && !(s.state == State.Done)
     | _ => false) = true := by
  decide

set_option maxHeartbeats 4000000 in
/-- C4 witness: the amended theorem applied to the concrete 22-byte
stream call with a 4-byte buffer. -/
theorem C4_ok_without_done_only_when_output_full_witness : c4out.length ≤ 0 + c4p + 1 :=
  C4_ok_without_done_only_when_output_full 100 Decompressor.new streamDynamicBackref
    (List.replicate 4 0) 0 c4s c4out c4c c4p rfl rfl rfl (by decide)

/-- C6 (amended): the `nbits <= 64` half of the claimed invariant holds:
it is true of the fresh decompressor and preserved by `fill_buffer` and
`consume_bits` (the cited operations); the high-bits-zero half is refuted
separately. -/
theorem C6_nbits_at_most_64 :
    Decompressor.new.nbits ≤ 64 ∧
    (∀ (s : Decompressor) (input : List Nat), s.nbits ≤ 64 →
      (s.fill_buffer input).1.nbits ≤ 64) ∧
    (∀ (s : Decompressor) (n : Nat), s.nbits ≤ 64 → (s.consume_bits n).nbits ≤ 64) :=
  ⟨by decide, fill_buffer_nbits_le, consume_bits_nbits_le⟩

/-- C6 witness: the `fill_buffer` preservation applied to the fresh
decompressor and eight `0xff` bytes. -/
theorem C6_nbits_at_most_64_witness :
    (Decompressor.new.fill_buffer (List.replicate 8 255)).1.nbits ≤ 64 :=
  C6_nbits_at_most_64.2.1 Decompressor.new (List.replicate 8 255) (by decide)

set_option maxHeartbeats 1000000 in
/-- C8 witness: the characterisation applied to a concrete mid-decode
state whose table decodes symbol 16 with code length 2. -/
theorem C8_invalid_repeat_exactly_when_witness :
    (Decompressor.rclStep c8state [] = .err .InvalidCodeLengthRepeat ↔
      ((130 >>> 3 = 16 ∧ c8state.header.num_lengths_read = 0) ∨
        c8state.header.hlit + c8state.header.hdist <
          c8state.header.num_lengths_read + 3)) ∧
    (¬((130 >>> 3 = 16 ∧ c8state.header.num_lengths_read = 0) ∨
        c8state.header.hlit + c8state.header.hdist <
          c8state.header.num_lengths_read + 3) →
      Decompressor.rclStep c8state [] = .ok (.inr (
        Decompressor.consume_bits { c8state with header := { c8state.header with
            code_lengths := Decompressor.fillRepeat
              (if 130 >>> 3 = 16 then
                Tab.get 12 c8state.header.code_lengths
                  (c8state.header.num_lengths_read - 1) else 0)
              3 c8state.header.num_lengths_read c8state.header.code_lengths
            num_lengths_read := c8state.header.num_lengths_read + 3 } }
          ((130 &&& 7) + 2), []))) :=
  C8_invalid_repeat_exactly_when c8state [] 130 2 3 rfl (by decide) (by decide)
    (by decide) (by decide) (by decide) (by decide)

set_option maxHeartbeats 4000000 in
/-- Witness for C9: the over-subscribed `c9bad` state yields the error, and
the single-symbol state `c9single` (lone distance length 1 at row 0) builds
successfully with row 0 holding mask 1 and code 0, every even code word
scanning to row 0. -/
theorem C9_bad_distance_tree_exactly_when_witness :
    c9bad.build_tables = .err .BadDistanceHuffmanTree ∧
    (∃ s2, c9single.build_tables = .ok s2 ∧
      (0 < 30 →
        s2.compression.dist_symbol_masks 0 = 2 ^ 1 - 1 ∧
        s2.compression.dist_symbol_codes 0 = 0 ∧
        s2.compression.dist_symbol_lengths 0 = 1 ∧
        ∀ dc, dc % 2 ^ 1 = 0 →
          Decompressor.distScanLoop s2.compression dc 31
            (s2.compression.dist_table (dc &&& 0xff)) = 0)) := by
  constructor
  · exact (C9_bad_distance_tree_exactly_when c9bad).1.mpr ⟨by decide, by decide, by decide, by decide, by decide⟩
  · exact (C9_bad_distance_tree_exactly_when c9single).2 0 (by decide) (by decide) (by decide) (by decide)
      (by decide) (by decide)



set_option maxHeartbeats 1000000 in
/-- C1: refuted on the code (code bug).  `streamStoredPair` is a compliant
zlib encoding of the byte sequence `[0x61]` — feeding it to this very
decoder one byte per call recovers exactly `[0x61]` — yet `decompress_to_vec`
(which passes the whole input at once) fails with `InsufficientInput`: the
`UncompressedData` arm zeroes `bit_buffer` while `nbits > 0`, destroying the
already-consumed first byte of the next block header. -/
theorem C1_decompress_to_vec_fails_on_valid_stored_stream :
    decompress_to_vec 100 streamStoredPair = .err .InsufficientInput ∧
    runChunked 100 (streamStoredPair.map fun b => [b]) = .ok [0x61] := by
  constructor
  · decide
  · decide

set_option maxHeartbeats 1000000 in
/-- C2: refuted on the code (code bug).  Two chunkings of the same valid
zlib stream give different results: presented as one chunk the decoder
loses a buffered byte (`self.buffer = 0` with `nbits > 0` in the
UncompressedData arm) and ends with `InsufficientInput`; presented one byte
per call it succeeds with the correct output `[0x61]`. -/
theorem C2_chunking_changes_result :
    runChunked 100 [streamStoredPair] = .err .InsufficientInput ∧
    runChunked 100 (streamStoredPair.map fun b => [b]) = .ok [0x61] := by
  constructor
  · decide
  · decide

set_option maxHeartbeats 4000000 in
/-- C3: refuted on the code (code bug).  `streamDynamicBackref` is valid
(the decoder itself returns its six-byte payload when given ample buffers),
but in a three-call sequence with small output buffers the second call
drains two bytes from `queued_backref` and returns early without folding
them into the Adler-32 state (the checksum after call 2 equals the checksum
after call 1), so the third call fails with `WrongChecksum` on a valid
stream: those two produced bytes are counted zero times, not once. -/
theorem C3_queued_drain_bytes_never_checksummed :
    decompress_to_vec 100 streamDynamicBackref = .ok [97, 97, 97, 97, 97, 97] ∧
    (match Decompressor.read 100 Decompressor.new streamDynamicBackref [0, 0, 0] 0 false with
     | .ok (s1, _, _, _) =>
       match Decompressor.read 100 s1 [] [97, 97, 97, 0, 0] 3 false with
       | .ok (s2, _, _, p2) =>
         match Decompressor.read 100 s2 [] [97, 97, 97, 97, 97, 0, 0] 5 false with
         | .err e => if p2 = 2 ∧ s2.checksum = s1.checksum then some e else none
         | _ => none
       | _ => none
     | _ => none) = some .WrongChecksum := by
  constructor
  · decide
  · decide

set_option maxHeartbeats 4000000 in
/-- C7: refuted on the code (code bug).  After two `read` calls on
`streamDynamicRun` (small output buffers), the decoder state has both
`queued_rle` and `queued_backref` set: the backref drain at the start of
`read` does not clear `queued_backref` when the drain completes (no
`.take()`), and the same call then queues a zero run. -/
theorem C7_both_queues_set_reachable :
    (match Decompressor.read 100 Decompressor.new streamDynamicRun [0, 0, 0] 0 false with
     | .ok (s1, _, c1, _) =>
       match Decompressor.read 100 s1 (streamDynamicRun.drop c1) [97, 97, 97, 0, 0, 0] 3 false with
       | .ok (s2, _, _, _) => s2.queued_rle.isSome && s2.queued_backref.isSome
       | _ => false
     | _ => false) = true := by
  decide

/-- C6 counterexample: one `fill_buffer` from the freshly created decoder,
with eight `0xff` input bytes, leaves `nbits = 56` while the bits of
`bit_buffer` at positions 56 and above are `0xff` — the claimed invariant
that all bits above `nbits` are zero fails (the fast refill path advances
the input by only 7 bytes but loads 8, leaving a stale copy of the next
input byte above `nbits`). -/
theorem C6_high_bits_not_zero_after_fill :
    (Decompressor.new.fill_buffer (List.replicate 8 0xff)).1.nbits = 56 ∧
    (Decompressor.new.fill_buffer (List.replicate 8 0xff)).1.buffer >>> 56 = 0xff := by
  constructor
  · decide
  · decide

set_option maxHeartbeats 1000000 in
/-- C9 counterexample: for the reachable header state `c9state` the
distance code-length vector is all zeros — so it is neither a valid
complete assignment (`computeCodesValid` is false) nor the permitted
single-non-zero-length degenerate case — yet `build_tables` succeeds
instead of returning `BadDistanceHuffmanTree` as the claim, read as an
exact characterisation, would require. -/
theorem C9_all_zero_distance_vector_accepted :
    (∀ i < 32, c9dist i = 0) ∧
    computeCodesValid c9dist 32 = false ∧
    ((List.range 32).filter fun i => decide (c9dist i ≠ 0)).length ≠ 1 ∧
    buildOk c9state.build_tables = true := by
  refine ⟨by decide, by decide, by decide, by decide⟩


/-! ## The advance-table population property of build_tables -/

section

set_option maxHeartbeats 1000000

theorem sumRange_eq_sum (f : Nat → Nat) (n : Nat) :
    sumRange f n = ∑ i ∈ Finset.range n, f i := by
  induction n with
  | zero => rfl
  | succ m ih => rw [sumRange, ih, Finset.sum_range_succ]

theorem revBits_lt (w : Nat) : ∀ v, revBits w v < 2 ^ w := by
  induction w with
  | zero => intro v; simp [revBits]
  | succ m ih =>
    intro v
    rw [revBits]
    have h2 := ih (v / 2)
    have : v % 2 * 2 ^ m ≤ 2 ^ m := by
      have hm : v % 2 ≤ 1 := by omega
      calc v % 2 * 2 ^ m ≤ 1 * 2 ^ m := Nat.mul_le_mul_right _ hm
      _ = 2 ^ m := one_mul _
    calc v % 2 * 2 ^ m + revBits m (v / 2) < v % 2 * 2 ^ m + 2 ^ m := by omega
    _ ≤ 2 ^ m + 2 ^ m := by omega
    _ = 2 ^ (m + 1) := by ring

theorem revBits_succ_left (w : Nat) : ∀ v,
    revBits (w + 1) v = 2 * revBits w (v % 2 ^ w) + v / 2 ^ w % 2 := by
  induction w with
  | zero => intro v; simp [revBits] <;> omega
  | succ m ih =>
    intro v
    have h1 : v % 2 ^ (m + 1) % 2 = v % 2 :=
      Nat.mod_mod_of_dvd v (dvd_pow_self 2 (Nat.succ_ne_zero m))
    have h2 : v % 2 ^ (m + 1) / 2 = v / 2 % 2 ^ m := by
      rw [pow_succ, mul_comm (2 ^ m) 2]
      exact Nat.mod_mul_right_div_self v 2 (2 ^ m)
    have h3 : v / 2 / 2 ^ m = v / 2 ^ (m + 1) := by
      rw [Nat.div_div_eq_div_mul, ← pow_succ']
    rw [revBits, ih (v / 2), revBits, h1, h2, h3]
    ring

theorem revBits_add (a b : Nat) : ∀ v,
    revBits (a + b) v = revBits a (v % 2 ^ a) * 2 ^ b + revBits b (v / 2 ^ a) := by
  induction a with
  | zero => intro v; simp [revBits]
  | succ m ih =>
    intro v
    have h1 : v % 2 ^ (m + 1) % 2 = v % 2 :=
      Nat.mod_mod_of_dvd v (dvd_pow_self 2 (Nat.succ_ne_zero m))
    have h2 : v % 2 ^ (m + 1) / 2 = v / 2 % 2 ^ m := by
      rw [pow_succ, mul_comm (2 ^ m) 2]
      exact Nat.mod_mul_right_div_self v 2 (2 ^ m)
    have h3 : v / 2 / 2 ^ m = v / 2 ^ (m + 1) := by
      rw [Nat.div_div_eq_div_mul, ← pow_succ']
    rw [Nat.add_right_comm m 1 b, revBits, ih (v / 2), revBits, h1, h2, h3]
    ring

theorem revBits_revBits (w : Nat) : ∀ v, v < 2 ^ w → revBits w (revBits w v) = v := by
  induction w with
  | zero => intro v hv; simp [revBits]; omega
  | succ m ih =>
    intro v hv
    have hp : 2 ^ (m + 1) = 2 * 2 ^ m := by ring
    have hr : revBits m (v / 2) < 2 ^ m := revBits_lt m _
    rw [revBits_succ_left, revBits]
    have e1 : (v % 2 * 2 ^ m + revBits m (v / 2)) % 2 ^ m = revBits m (v / 2) := by
      rw [add_comm, Nat.add_mul_mod_self_right]
      exact Nat.mod_eq_of_lt hr
    have e2 : (v % 2 * 2 ^ m + revBits m (v / 2)) / 2 ^ m = v % 2 := by
      rw [add_comm, Nat.add_mul_div_right _ _ (pow_pos (by omega : (0:Nat) < 2) m),
        Nat.div_eq_of_lt hr]
      omega
    rw [e1, e2, ih (v / 2) (by omega)]
    omega

theorem lexKey_inj (lengths : Nat → Nat) (n i j : Nat) (hi : i < n) (hj : j < n)
    (h : lexKey lengths n i = lexKey lengths n j) : i = j := by
  unfold lexKey at h
  have h2 : (lengths i * n + i) % n = (lengths j * n + j) % n := by rw [h]
  rcases Nat.eq_zero_or_pos n with hn | hn
  · omega
  · have e : ∀ a b : Nat, (a * n + b) % n = b % n := fun a b => by
      rw [add_comm, Nat.add_mul_mod_self_right]
    rw [e, e] at h2
    rw [Nat.mod_eq_of_lt hi, Nat.mod_eq_of_lt hj] at h2
    exact h2

theorem lexKey_le_lengths (lengths : Nat → Nat) (n i j : Nat) (hi : i < n) (hj : j < n)
    (h : lexKey lengths n j < lexKey lengths n i) : lengths j ≤ lengths i := by
  unfold lexKey at h
  by_contra hc
  have : (lengths i + 1) * n ≤ lengths j * n := by
    have : lengths i + 1 ≤ lengths j := by omega
    exact Nat.mul_le_mul_right n this
  nlinarith

theorem codeStart_eq_sum (lengths : Nat → Nat) (n i : Nat) :
    codeStart lengths n i =
      ∑ j ∈ (usedSyms lengths n).filter
        (fun j => lexKey lengths n j < lexKey lengths n i), kraftSize (lengths j) := by
  unfold codeStart
  rw [sumRange_eq_sum]
  rw [Finset.sum_filter]
  unfold usedSyms
  rw [Finset.sum_filter]
  apply Finset.sum_congr rfl
  intro j _
  by_cases h1 : lengths j ≠ 0 <;> by_cases h2 : lexKey lengths n j < lexKey lengths n i <;>
    simp [h1, h2]

theorem kraftTotal_eq_sum (lengths : Nat → Nat) (n : Nat) :
    kraftTotal lengths n = ∑ j ∈ usedSyms lengths n, kraftSize (lengths j) := by
  unfold kraftTotal
  rw [sumRange_eq_sum]
  unfold usedSyms
  rw [Finset.sum_filter]
  apply Finset.sum_congr rfl
  intro j _
  by_cases h1 : lengths j ≠ 0
  · simp [h1]
  · simp at h1
    simp [h1, kraftSize]

theorem codeStart_align (lengths : Nat → Nat) (n i : Nat) (hi : i < n)
    (hb : ∀ j, j < n → lengths j ≤ 15) :
    2 ^ (15 - lengths i) ∣ codeStart lengths n i := by
  rw [codeStart_eq_sum]
  apply Finset.dvd_sum
  intro j hj
  simp only [usedSyms, Finset.mem_filter, Finset.mem_range] at hj
  obtain ⟨⟨hjn, _⟩, hkey⟩ := hj
  have hle : lengths j ≤ lengths i := lexKey_le_lengths lengths n i j hi hjn hkey
  unfold kraftSize
  split
  · exact dvd_zero _
  · exact pow_dvd_pow 2 (by have := hb j hjn; omega)

theorem codeStart_add_size_le (lengths : Nat → Nat) (n i j : Nat)
    (hi : i ∈ usedSyms lengths n) (hj : j ∈ usedSyms lengths n)
    (hk : lexKey lengths n i < lexKey lengths n j) :
    codeStart lengths n i + kraftSize (lengths i) ≤ codeStart lengths n j := by
  have hsub : insert i ((usedSyms lengths n).filter
      (fun k => lexKey lengths n k < lexKey lengths n i)) ⊆
      (usedSyms lengths n).filter (fun k => lexKey lengths n k < lexKey lengths n j) := by
    intro k hkmem
    rcases Finset.mem_insert.mp hkmem with rfl | hkmem
    · exact Finset.mem_filter.mpr ⟨hi, hk⟩
    · rcases Finset.mem_filter.mp hkmem with ⟨hkS, hklt⟩
      exact Finset.mem_filter.mpr ⟨hkS, by omega⟩
  have hnotin : i ∉ (usedSyms lengths n).filter
      (fun k => lexKey lengths n k < lexKey lengths n i) := by
    intro hmem
    exact absurd (Finset.mem_filter.mp hmem).2 (by omega)
  calc codeStart lengths n i + kraftSize (lengths i)
      = ∑ k ∈ insert i ((usedSyms lengths n).filter
          (fun k => lexKey lengths n k < lexKey lengths n i)), kraftSize (lengths k) := by
        rw [Finset.sum_insert hnotin, codeStart_eq_sum]; omega
    _ ≤ ∑ k ∈ (usedSyms lengths n).filter
          (fun k => lexKey lengths n k < lexKey lengths n j), kraftSize (lengths k) :=
        Finset.sum_le_sum_of_subset hsub
    _ = codeStart lengths n j := (codeStart_eq_sum lengths n j).symm

theorem codeStart_min (lengths : Nat → Nat) (n i0 : Nat)
    (hi0 : i0 ∈ usedSyms lengths n)
    (hmin : ∀ j ∈ usedSyms lengths n, lexKey lengths n i0 ≤ lexKey lengths n j) :
    codeStart lengths n i0 = 0 := by
  rw [codeStart_eq_sum]
  rw [Finset.sum_eq_zero_iff]
  intro j hj
  rcases Finset.mem_filter.mp hj with ⟨hjS, hlt⟩
  exact absurd (hmin j hjS) (by omega)

theorem interval_exists (lengths : Nat → Nat) (n x : Nat)
    (hx : x < kraftTotal lengths n) :
    ∃ i ∈ usedSyms lengths n,
      codeStart lengths n i ≤ x ∧ x < codeStart lengths n i + kraftSize (lengths i) := by
  have hS : (usedSyms lengths n).Nonempty := by
    by_contra hc
    rw [Finset.not_nonempty_iff_eq_empty] at hc
    rw [kraftTotal_eq_sum, hc, Finset.sum_empty] at hx
    omega
  obtain ⟨i0, hi0S, hi0min⟩ := Finset.exists_min_image (usedSyms lengths n)
    (lexKey lengths n) hS
  have hTne : ((usedSyms lengths n).filter
      (fun i => codeStart lengths n i ≤ x)).Nonempty := by
    refine ⟨i0, Finset.mem_filter.mpr ⟨hi0S, ?_⟩⟩
    rw [codeStart_min lengths n i0 hi0S hi0min]
    omega
  obtain ⟨im, himT, himmax⟩ := Finset.exists_max_image _ (lexKey lengths n) hTne
  rcases Finset.mem_filter.mp himT with ⟨himS, himle⟩
  refine ⟨im, himS, himle, ?_⟩
  by_contra hc
  push_neg at hc
  have hU : ∀ j ∈ usedSyms lengths n, ¬ lexKey lengths n im < lexKey lengths n j := by
    intro j hjS hkey
    rcases ((usedSyms lengths n).filter
        (fun j => lexKey lengths n im < lexKey lengths n j)).eq_empty_or_nonempty with
      hUe | hUne
    · rw [Finset.eq_empty_iff_forall_not_mem] at hUe
      exact hUe j (Finset.mem_filter.mpr ⟨hjS, hkey⟩)
    · obtain ⟨js, hjsU, hjsmin⟩ := Finset.exists_min_image _ (lexKey lengths n) hUne
      rcases Finset.mem_filter.mp hjsU with ⟨hjsS, hjskey⟩
      have hset : (usedSyms lengths n).filter
          (fun k => lexKey lengths n k < lexKey lengths n js) =
          insert im ((usedSyms lengths n).filter
            (fun k => lexKey lengths n k < lexKey lengths n im)) := by
        apply Finset.ext
        intro k
        constructor
        · intro hk
          rcases Finset.mem_filter.mp hk with ⟨hkS, hklt⟩
          rcases Nat.lt_trichotomy (lexKey lengths n k) (lexKey lengths n im) with
            h | h | h
          · exact Finset.mem_insert.mpr (Or.inr (Finset.mem_filter.mpr ⟨hkS, h⟩))
          · have : k = im := by
              rcases Finset.mem_filter.mp hkS with ⟨hkr, _⟩
              rcases Finset.mem_filter.mp himS with ⟨himr, _⟩
              exact lexKey_inj lengths n k im (Finset.mem_range.mp hkr)
                (Finset.mem_range.mp himr) h
            exact Finset.mem_insert.mpr (Or.inl this)
          · have := hjsmin k (Finset.mem_filter.mpr ⟨hkS, h⟩)
            omega
        · intro hk
          rcases Finset.mem_insert.mp hk with rfl | hk
          · exact Finset.mem_filter.mpr ⟨himS, hjskey⟩
          · rcases Finset.mem_filter.mp hk with ⟨hkS, hklt⟩
            exact Finset.mem_filter.mpr ⟨hkS, by omega⟩
      have hnotin : im ∉ (usedSyms lengths n).filter
          (fun k => lexKey lengths n k < lexKey lengths n im) := by
        intro hmem
        exact absurd (Finset.mem_filter.mp hmem).2 (by omega)
      have hcsj : codeStart lengths n js =
          codeStart lengths n im + kraftSize (lengths im) := by
        rw [codeStart_eq_sum, hset, Finset.sum_insert hnotin, codeStart_eq_sum]
        omega
      have : js ∈ (usedSyms lengths n).filter (fun i => codeStart lengths n i ≤ x) :=
        Finset.mem_filter.mpr ⟨hjsS, by omega⟩
      have := himmax js this
      omega
  have htot : kraftTotal lengths n = codeStart lengths n im + kraftSize (lengths im) := by
    rw [kraftTotal_eq_sum, codeStart_eq_sum]
    rw [← Finset.sum_filter_add_sum_filter_not (usedSyms lengths n)
      (fun k => lexKey lengths n k < lexKey lengths n im) (fun k => kraftSize (lengths k))]
    have hV : (usedSyms lengths n).filter
        (fun k => ¬ lexKey lengths n k < lexKey lengths n im) = {im} := by
      apply Finset.ext
      intro k
      constructor
      · intro hk
        rcases Finset.mem_filter.mp hk with ⟨hkS, hknlt⟩
        rcases Nat.lt_trichotomy (lexKey lengths n k) (lexKey lengths n im) with
          h | h | h
        · omega
        · rcases Finset.mem_filter.mp hkS with ⟨hkr, _⟩
          rcases Finset.mem_filter.mp himS with ⟨himr, _⟩
          have := lexKey_inj lengths n k im (Finset.mem_range.mp hkr)
            (Finset.mem_range.mp himr) h
          simp [this]
        · exact absurd h (hU k hkS)
      · intro hk
        rw [Finset.mem_singleton] at hk
        subst hk
        exact Finset.mem_filter.mpr ⟨himS, by omega⟩
    rw [hV, Finset.sum_singleton]
  omega

theorem interval_unique (lengths : Nat → Nat) (n x i j : Nat)
    (hi : i ∈ usedSyms lengths n) (hj : j ∈ usedSyms lengths n)
    (hxi : codeStart lengths n i ≤ x ∧ x < codeStart lengths n i + kraftSize (lengths i))
    (hxj : codeStart lengths n j ≤ x ∧ x < codeStart lengths n j + kraftSize (lengths j)) :
    i = j := by
  rcases Finset.mem_filter.mp hi with ⟨hir, _⟩
  rcases Finset.mem_filter.mp hj with ⟨hjr, _⟩
  rcases Nat.lt_trichotomy (lexKey lengths n i) (lexKey lengths n j) with h | h | h
  · have := codeStart_add_size_le lengths n i j hi hj h
    omega
  · exact lexKey_inj lengths n i j (Finset.mem_range.mp hir) (Finset.mem_range.mp hjr) h
  · have := codeStart_add_size_le lengths n j i hj hi h
    omega

theorem codeStart_add_size_le_total (lengths : Nat → Nat) (n i : Nat)
    (hi : i ∈ usedSyms lengths n) :
    codeStart lengths n i + kraftSize (lengths i) ≤ kraftTotal lengths n := by
  rw [kraftTotal_eq_sum, codeStart_eq_sum]
  have hnotin : i ∉ (usedSyms lengths n).filter
      (fun k => lexKey lengths n k < lexKey lengths n i) := by
    intro hmem
    exact absurd (Finset.mem_filter.mp hmem).2 (by omega)
  calc (∑ j ∈ (usedSyms lengths n).filter
        (fun j => lexKey lengths n j < lexKey lengths n i), kraftSize (lengths j)) +
        kraftSize (lengths i)
      = ∑ j ∈ insert i ((usedSyms lengths n).filter
          (fun j => lexKey lengths n j < lexKey lengths n i)), kraftSize (lengths j) := by
        rw [Finset.sum_insert hnotin]; omega
    _ ≤ ∑ j ∈ usedSyms lengths n, kraftSize (lengths j) := by
        apply Finset.sum_le_sum_of_subset
        intro k hk
        rcases Finset.mem_insert.mp hk with rfl | hk
        · exact hi
        · exact (Finset.mem_filter.mp hk).1

theorem matchesCode_iff_interval (lengths : Nat → Nat) (n i v : Nat)
    (hi : i ∈ usedSyms lengths n)
    (hb : ∀ j, j < n → lengths j ≤ 15)
    (htot : kraftTotal lengths n = 2 ^ 15) :
    (v % 2 ^ (lengths i) = canonicalCode lengths n i) ↔
      (codeStart lengths n i ≤ revBits 15 v ∧
        revBits 15 v < codeStart lengths n i + kraftSize (lengths i)) := by
  rcases Finset.mem_filter.mp hi with ⟨hir, hine⟩
  have hin : i < n := Finset.mem_range.mp hir
  have hl15 : lengths i ≤ 15 := hb i hin
  have hdvd : 2 ^ (15 - lengths i) ∣ codeStart lengths n i :=
    codeStart_align lengths n i hin hb
  have hsize : kraftSize (lengths i) = 2 ^ (15 - lengths i) := by
    unfold kraftSize; simp [hine]
  have hcs2 : codeStart lengths n i + 2 ^ (15 - lengths i) ≤ 2 ^ 15 := by
    have := codeStart_add_size_le_total lengths n i hi
    omega
  set l := lengths i with hldef
  set c := codeStart lengths n i / 2 ^ (15 - l) with hcdef
  have hcmul : codeStart lengths n i = c * 2 ^ (15 - l) := (Nat.div_mul_cancel hdvd).symm
  have hclt : c < 2 ^ l := by
    have hpow : 2 ^ (15 - l) * 2 ^ l = 2 ^ 15 := by
      rw [← pow_add]
      congr 1
      omega
    by_contra hc
    push_neg at hc
    have : 2 ^ l * 2 ^ (15 - l) ≤ c * 2 ^ (15 - l) :=
      Nat.mul_le_mul_right _ hc
    nlinarith [pow_pos (by omega : (0:Nat) < 2) (15 - l)]
  have hcode : canonicalCode lengths n i = revBits l c := by
    unfold canonicalCode
    simp [hine, hldef]
  have hsplit : revBits 15 v =
      revBits l (v % 2 ^ l) * 2 ^ (15 - l) + revBits (15 - l) (v / 2 ^ l) := by
    have h15 : l + (15 - l) = 15 := by omega
    have := revBits_add l (15 - l) v
    rw [h15] at this
    exact this
  have hBlt : revBits (15 - l) (v / 2 ^ l) < 2 ^ (15 - l) := revBits_lt _ _
  have hAlt : revBits l (v % 2 ^ l) < 2 ^ l := revBits_lt _ _
  constructor
  · intro h
    rw [hcode] at h
    have : revBits l (v % 2 ^ l) = revBits l (revBits l c) := by rw [h]
    rw [revBits_revBits l c hclt] at this
    rw [hsplit, this, hcmul, hsize]
    omega
  · intro h
    rw [hcmul, hsize] at h
    have hdivA : revBits 15 v / 2 ^ (15 - l) = revBits l (v % 2 ^ l) := by
      rw [hsplit, add_comm]
      rw [Nat.add_mul_div_right _ _ (pow_pos (by omega : (0:Nat) < 2) (15 - l))]
      rw [Nat.div_eq_of_lt hBlt]
      omega
    have hdivC : revBits 15 v / 2 ^ (15 - l) = c := by
      apply Nat.div_eq_of_lt_le
      · omega
      · calc revBits 15 v < c * 2 ^ (15 - l) + 2 ^ (15 - l) := by omega
        _ = (c + 1) * 2 ^ (15 - l) := by ring
    have hA : revBits l (v % 2 ^ l) = c := by rw [← hdivA, hdivC]
    rw [hcode, ← hA, revBits_revBits l (v % 2 ^ l) (Nat.mod_lt _ (pow_pos (by omega) l))]

theorem unique_decode (lengths : Nat → Nat) (n v : Nat)
    (hb : ∀ j, j < n → lengths j ≤ 15)
    (htot : kraftTotal lengths n = 2 ^ 15)
    (hv : v < 2 ^ 15) :
    ∃ i ∈ usedSyms lengths n,
      v % 2 ^ (lengths i) = canonicalCode lengths n i ∧
      ∀ j ∈ usedSyms lengths n,
        v % 2 ^ (lengths j) = canonicalCode lengths n j → j = i := by
  have hx : revBits 15 v < kraftTotal lengths n := by
    rw [htot]; exact revBits_lt _ _
  obtain ⟨i, hiS, hle, hlt⟩ := interval_exists lengths n (revBits 15 v) hx
  refine ⟨i, hiS, ?_, ?_⟩
  · exact (matchesCode_iff_interval lengths n i v hiS hb htot).mpr ⟨hle, hlt⟩
  · intro j hjS hmj
    have hj := (matchesCode_iff_interval lengths n j v hjS hb htot).mp hmj
    exact interval_unique lengths n (revBits 15 v) j i hjS hiS hj ⟨hle, hlt⟩

theorem shiftLeft_or_eq_add (h b k : Nat) (hb : b < 2 ^ k) :
    h <<< k ||| b = 2 ^ k * h + b := by
  apply Nat.eq_of_testBit_eq
  intro i
  rw [Nat.testBit_lor, Nat.testBit_shiftLeft, Nat.testBit_mul_pow_two_add h hb i]
  by_cases hik : i < k
  · have hik2 : ¬ i ≥ k := by omega
    simp [hik, hik2]
  · have hge : i ≥ k := by omega
    have hbf : Nat.testBit b i = false :=
      Nat.testBit_lt_two_pow (lt_of_lt_of_le hb (Nat.pow_le_pow_right (by omega) hge))
    simp [hik, hge, hbf]

theorem and_mask_shift (a k m : Nat) :
    (a &&& (2 ^ m - 1) <<< k) >>> k = a / 2 ^ k % 2 ^ m := by
  apply Nat.eq_of_testBit_eq
  intro j
  rw [Nat.testBit_shiftRight, Nat.testBit_and, Nat.testBit_shiftLeft,
    Nat.testBit_two_pow_sub_one, Nat.testBit_mod_two_pow,
    ← Nat.shiftRight_eq_div_pow, Nat.testBit_shiftRight]
  have h1 : k + j ≥ k := by omega
  have h2 : k + j - k = j := by omega
  simp [h1, h2]
  rw [Bool.and_comm]

theorem and_low_mask (a m : Nat) : a &&& 2 ^ m - 1 = a % 2 ^ m :=
  Nat.and_pow_two_sub_one_eq_mod a m

theorem and_two_pow_eq_zero_of_lt (a k : Nat) (h : a < 2 ^ k) : a &&& 2 ^ k = 0 := by
  rw [Nat.and_two_pow, Nat.testBit_lt_two_pow h]
  simp

theorem and_two_pow_ne_zero_iff (a k : Nat) :
    a &&& 2 ^ k ≠ 0 ↔ a / 2 ^ k % 2 = 1 := by
  rw [Nat.and_two_pow]
  rw [Nat.testBit_to_div_mod]
  by_cases h : a / 2 ^ k % 2 = 1 <;>
    simp [h, Nat.pos_iff_ne_zero.mp (pow_pos (by omega : (0:Nat) < 2) k)]

theorem Tab.get_leaf {α : Type} (d : Nat) (v : α) (q : Nat) :
    Tab.get d (Tab.leaf v) q = v := by
  cases d <;> rfl

theorem Tab.get_set {α : Type} :
    ∀ (d : Nat) (t : Tab α) (j : Nat) (v : α) (q : Nat), q < 2 ^ d → j < 2 ^ d →
      Tab.get d (Tab.set d t j v) q = if q = j then v else Tab.get d t q := by
  intro d
  induction d with
  | zero =>
    intro t j v q hq hj
    have : q = 0 := by omega
    have : j = 0 := by omega
    subst this
    subst this
    simp [Tab.set, Tab.get_leaf]
  | succ m ih =>
    intro t j v q hq hj
    have hp : 2 ^ (m + 1) = 2 * 2 ^ m := by ring
    have hq2 : q / 2 < 2 ^ m := by omega
    have hj2 : j / 2 < 2 ^ m := by omega
    cases t <;>
      by_cases hjp : j % 2 = 0 <;> by_cases hqp : q % 2 = 0 <;>
        simp only [Tab.set, Tab.get, hjp, hqp, reduceIte, if_true, if_false] <;>
        (try rw [ih _ _ _ _ hq2 hj2]) <;>
        (try simp only [Tab.get_leaf]) <;>
        split <;> (try split) <;>
        first
          | rfl
          | omega
          | (exfalso; omega)

/-- If `a` and `b` agree modulo `m` and `b < a` then they differ by at
least `m`. -/
theorem mod_eq_add_of_lt (a b m : Nat) (hm : 0 < m) (h : a % m = b % m)
    (hlt : b < a) : b + m ≤ a := by
  have ha := Nat.div_add_mod a m
  have hb := Nat.div_add_mod b m
  have hdiv : b / m < a / m := by
    by_contra hc
    push_neg at hc
    have : a ≤ b := by
      calc a = m * (a / m) + a % m := ha.symm
      _ ≤ m * (b / m) + a % m := by
          have := Nat.mul_le_mul_left m hc
          omega
      _ = b := by omega
    omega
  calc b + m = m * (b / m) + b % m + m := by omega
  _ = m * (b / m + 1) + b % m := by ring
  _ ≤ m * (a / m) + b % m := by
      have hmul : m * (b / m + 1) ≤ m * (a / m) := Nat.mul_le_mul_left m (by omega)
      omega
  _ = m * (a / m) + a % m := by omega
  _ = a := ha

theorem singlesLoop_advance (useEL : Bool) (l0 i l : Nat) :
    ∀ (fuel j : Nat) (cb : CompressedBlock) (q : Nat), q < 4096 → 4096 ≤ j + fuel →
      (Decompressor.singlesLoop useEL l0 i l fuel j cb).advance_table.get 12 q =
        (if l ≠ 0 ∧ l ≤ 12 ∧ j ≤ q ∧ q % 2 ^ l = j % 2 ^ l then singleAdv useEL l0 l q
         else cb.advance_table.get 12 q) := by
  intro fuel
  induction fuel with
  | zero =>
    intro j cb q hq hfuel
    have hng : ¬(l ≠ 0 ∧ l ≤ 12 ∧ j ≤ q ∧ q % 2 ^ l = j % 2 ^ l) := by
      rintro ⟨_, _, hj, _⟩
      omega
    rw [Decompressor.singlesLoop, if_neg hng]
  | succ m ih =>
    intro j cb q hq hfuel
    rw [Decompressor.singlesLoop]
    simp only []
    split
    · rename_i hg
      obtain ⟨hj4, hl0, hl12⟩ := hg
      have hpow : 0 < 2 ^ l := pow_pos (by omega) l
      rw [ih (j + 2 ^ l) _ q hq (by omega)]
      simp only []
      rw [Tab.get_set 12 _ j _ q (by omega) (by omega)]
      have hstep : (j + 2 ^ l) % 2 ^ l = j % 2 ^ l := Nat.add_mod_right j (2 ^ l)
      by_cases hcong : q % 2 ^ l = j % 2 ^ l
      · by_cases hqj : q = j
        · rw [if_neg (show ¬(l ≠ 0 ∧ l ≤ 12 ∧ j + 2 ^ l ≤ q ∧
              q % 2 ^ l = (j + 2 ^ l) % 2 ^ l) by rintro ⟨_, _, hj2, _⟩; omega)]
          rw [if_pos hqj, if_pos (show l ≠ 0 ∧ l ≤ 12 ∧ j ≤ q ∧
            q % 2 ^ l = j % 2 ^ l from ⟨hl0, hl12, by omega, hcong⟩)]
          simp [singleAdv, singleE, hqj]
        · by_cases hle : j ≤ q
          · have hstep2 : j + 2 ^ l ≤ q :=
              mod_eq_add_of_lt q j (2 ^ l) hpow hcong (by omega)
            rw [if_pos (show l ≠ 0 ∧ l ≤ 12 ∧ j + 2 ^ l ≤ q ∧
              q % 2 ^ l = (j + 2 ^ l) % 2 ^ l from
              ⟨hl0, hl12, hstep2, by rw [hstep]; exact hcong⟩)]
            rw [if_pos (show l ≠ 0 ∧ l ≤ 12 ∧ j ≤ q ∧
              q % 2 ^ l = j % 2 ^ l from ⟨hl0, hl12, hle, hcong⟩)]
          · rw [if_neg (show ¬(l ≠ 0 ∧ l ≤ 12 ∧ j + 2 ^ l ≤ q ∧
              q % 2 ^ l = (j + 2 ^ l) % 2 ^ l) by rintro ⟨_, _, hj2, _⟩; omega)]
            rw [if_neg hqj]
            rw [if_neg (show ¬(l ≠ 0 ∧ l ≤ 12 ∧ j ≤ q ∧
              q % 2 ^ l = j % 2 ^ l) by rintro ⟨_, _, hj2, _⟩; omega)]
      · have hcong2 : ¬ q % 2 ^ l = (j + 2 ^ l) % 2 ^ l := by rw [hstep]; exact hcong
        rw [if_neg (show ¬(l ≠ 0 ∧ l ≤ 12 ∧ j + 2 ^ l ≤ q ∧
          q % 2 ^ l = (j + 2 ^ l) % 2 ^ l) by rintro ⟨_, _, _, hc⟩; exact hcong2 hc)]
        rw [if_neg (show ¬ q = j by rintro rfl; exact hcong rfl)]
        rw [if_neg (show ¬(l ≠ 0 ∧ l ≤ 12 ∧ j ≤ q ∧
          q % 2 ^ l = j % 2 ^ l) by rintro ⟨_, _, _, hc⟩; exact hcong hc)]
    · rename_i hg
      have hng : ¬(l ≠ 0 ∧ l ≤ 12 ∧ j ≤ q ∧ q % 2 ^ l = j % 2 ^ l) := by
        rintro ⟨h1, h2, h3, _⟩
        exact hg ⟨by omega, h1, h2⟩
      rw [if_neg hng]

theorem pairsInnerLoop_advance (useEL : Bool) (l0 i ii l l2 : Nat) :
    ∀ (fuel j : Nat) (cb : CompressedBlock) (q : Nat), q < 4096 → 4096 ≤ j + fuel →
      (Decompressor.pairsInnerLoop useEL l0 i ii l l2 fuel j cb).advance_table.get 12 q =
        (if j ≤ q ∧ q % 2 ^ (l + l2) = j % 2 ^ (l + l2) then pairAdv useEL l0 l l2 q
         else cb.advance_table.get 12 q) := by
  intro fuel
  induction fuel with
  | zero =>
    intro j cb q hq hfuel
    have hng : ¬(j ≤ q ∧ q % 2 ^ (l + l2) = j % 2 ^ (l + l2)) := by
      rintro ⟨hj, _⟩
      omega
    rw [Decompressor.pairsInnerLoop, if_neg hng]
  | succ m ih =>
    intro j cb q hq hfuel
    rw [Decompressor.pairsInnerLoop]
    simp only []
    split
    · rename_i hj4
      have hpow : 0 < 2 ^ (l + l2) := pow_pos (by omega) (l + l2)
      rw [ih (j + 2 ^ (l + l2)) _ q hq (by omega)]
      simp only []
      rw [Tab.get_set 12 _ j _ q (by omega) (by omega)]
      have hstep : (j + 2 ^ (l + l2)) % 2 ^ (l + l2) = j % 2 ^ (l + l2) :=
        Nat.add_mod_right j (2 ^ (l + l2))
      by_cases hcong : q % 2 ^ (l + l2) = j % 2 ^ (l + l2)
      · by_cases hqj : q = j
        · rw [if_neg (show ¬(j + 2 ^ (l + l2) ≤ q ∧
              q % 2 ^ (l + l2) = (j + 2 ^ (l + l2)) % 2 ^ (l + l2)) by
              rintro ⟨hj2, _⟩; omega)]
          rw [if_pos hqj, if_pos (show j ≤ q ∧ q % 2 ^ (l + l2) = j % 2 ^ (l + l2) from
            ⟨by omega, hcong⟩)]
          simp [pairAdv, pairE, hqj]
        · by_cases hle : j ≤ q
          · have hstep2 : j + 2 ^ (l + l2) ≤ q :=
              mod_eq_add_of_lt q j (2 ^ (l + l2)) hpow hcong (by omega)
            rw [if_pos (show j + 2 ^ (l + l2) ≤ q ∧
              q % 2 ^ (l + l2) = (j + 2 ^ (l + l2)) % 2 ^ (l + l2) from
              ⟨hstep2, by rw [hstep]; exact hcong⟩)]
            rw [if_pos (show j ≤ q ∧ q % 2 ^ (l + l2) = j % 2 ^ (l + l2) from
              ⟨hle, hcong⟩)]
          · rw [if_neg (show ¬(j + 2 ^ (l + l2) ≤ q ∧
              q % 2 ^ (l + l2) = (j + 2 ^ (l + l2)) % 2 ^ (l + l2)) by
              rintro ⟨hj2, _⟩; omega)]
            rw [if_neg hqj]
            rw [if_neg (show ¬(j ≤ q ∧ q % 2 ^ (l + l2) = j % 2 ^ (l + l2)) by
              rintro ⟨hj2, _⟩; omega)]
      · have hcong2 : ¬ q % 2 ^ (l + l2) = (j + 2 ^ (l + l2)) % 2 ^ (l + l2) := by
          rw [hstep]; exact hcong
        rw [if_neg (show ¬(j + 2 ^ (l + l2) ≤ q ∧
          q % 2 ^ (l + l2) = (j + 2 ^ (l + l2)) % 2 ^ (l + l2)) by
          rintro ⟨_, hc⟩; exact hcong2 hc)]
        rw [if_neg (show ¬ q = j by rintro rfl; exact hcong rfl)]
        rw [if_neg (show ¬(j ≤ q ∧ q % 2 ^ (l + l2) = j % 2 ^ (l + l2)) by
          rintro ⟨_, hc⟩; exact hcong hc)]
    · rename_i hj4
      have hng : ¬(j ≤ q ∧ q % 2 ^ (l + l2) = j % 2 ^ (l + l2)) := by
        rintro ⟨hj, _⟩
        omega
      rw [if_neg hng]

theorem lensymInner_advance (i l : Nat) :
    ∀ (fuel j : Nat) (cb : CompressedBlock) (q : Nat), q < 4096 → 4096 ≤ j + fuel →
      (Decompressor.lensymInner i l fuel j cb).advance_table.get 12 q =
        (if l ≠ 0 ∧ j ≤ q ∧ q % 2 ^ l = j % 2 ^ l then lensymVal i l
         else cb.advance_table.get 12 q) := by
  intro fuel
  induction fuel with
  | zero =>
    intro j cb q hq hfuel
    have hng : ¬(l ≠ 0 ∧ j ≤ q ∧ q % 2 ^ l = j % 2 ^ l) := by
      rintro ⟨_, hj, _⟩
      omega
    rw [Decompressor.lensymInner, if_neg hng]
  | succ m ih =>
    intro j cb q hq hfuel
    rw [Decompressor.lensymInner]
    simp only []
    split
    · rename_i hg
      obtain ⟨hj4, hl0⟩ := hg
      have hpow : 0 < 2 ^ l := pow_pos (by omega) l
      rw [ih (j + 2 ^ l) _ q hq (by omega)]
      simp only []
      rw [Tab.get_set 12 _ j _ q (by omega) (by omega)]
      have hstep : (j + 2 ^ l) % 2 ^ l = j % 2 ^ l := Nat.add_mod_right j (2 ^ l)
      by_cases hcong : q % 2 ^ l = j % 2 ^ l
      · by_cases hqj : q = j
        · rw [if_neg (show ¬(l ≠ 0 ∧ j + 2 ^ l ≤ q ∧
              q % 2 ^ l = (j + 2 ^ l) % 2 ^ l) by rintro ⟨_, hj2, _⟩; omega)]
          rw [if_pos hqj, if_pos (show l ≠ 0 ∧ j ≤ q ∧ q % 2 ^ l = j % 2 ^ l from
            ⟨hl0, by omega, hcong⟩)]
          simp [lensymVal]
        · by_cases hle : j ≤ q
          · have hstep2 : j + 2 ^ l ≤ q :=
              mod_eq_add_of_lt q j (2 ^ l) hpow hcong (by omega)
            rw [if_pos (show l ≠ 0 ∧ j + 2 ^ l ≤ q ∧
              q % 2 ^ l = (j + 2 ^ l) % 2 ^ l from
              ⟨hl0, hstep2, by rw [hstep]; exact hcong⟩)]
            rw [if_pos (show l ≠ 0 ∧ j ≤ q ∧ q % 2 ^ l = j % 2 ^ l from
              ⟨hl0, hle, hcong⟩)]
          · rw [if_neg (show ¬(l ≠ 0 ∧ j + 2 ^ l ≤ q ∧
              q % 2 ^ l = (j + 2 ^ l) % 2 ^ l) by rintro ⟨_, hj2, _⟩; omega)]
            rw [if_neg hqj]
            rw [if_neg (show ¬(l ≠ 0 ∧ j ≤ q ∧
              q % 2 ^ l = j % 2 ^ l) by rintro ⟨_, hj2, _⟩; omega)]
      · have hcong2 : ¬ q % 2 ^ l = (j + 2 ^ l) % 2 ^ l := by rw [hstep]; exact hcong
        rw [if_neg (show ¬(l ≠ 0 ∧ j + 2 ^ l ≤ q ∧
          q % 2 ^ l = (j + 2 ^ l) % 2 ^ l) by rintro ⟨_, _, hc⟩; exact hcong2 hc)]
        rw [if_neg (show ¬ q = j by rintro rfl; exact hcong rfl)]
        rw [if_neg (show ¬(l ≠ 0 ∧ j ≤ q ∧
          q % 2 ^ l = j % 2 ^ l) by rintro ⟨_, _, hc⟩; exact hcong hc)]
    · rename_i hg
      have hng : ¬(l ≠ 0 ∧ j ≤ q ∧ q % 2 ^ l = j % 2 ^ l) := by
        rintro ⟨h1, hj, _⟩
        exact hg ⟨by omega, h1⟩
      rw [if_neg hng]

theorem tz16_le_add (w : Nat) : ∀ x, tz16 w x ≤ w + 16 := by
  induction w with
  | zero => intro x; simp [tz16]
  | succ m ih =>
    intro x
    match x with
    | 0 => simp [tz16]
    | n + 1 =>
      rw [tz16]
      split
      · omega
      · have := ih ((n + 1) / 2)
        omega

theorem tz16_le_of_bit (k : Nat) : ∀ (w x : Nat), x / 2 ^ k % 2 = 1 → tz16 w x ≤ k := by
  induction k with
  | zero =>
    intro w x hbit
    simp at hbit
    match w, x with
    | 0, _ => simp [tz16]
    | _ + 1, 0 => simp at hbit
    | m + 1, n + 1 =>
      rw [tz16]
      rw [if_pos hbit]
  | succ j ih =>
    intro w x hbit
    match w, x with
    | 0, _ => simp [tz16]
    | _ + 1, 0 => simp at hbit
    | m + 1, n + 1 =>
      rw [tz16]
      split
      · omega
      · rename_i hodd
        have heven : (n + 1) % 2 = 0 := by omega
        have hdd : (n + 1) / 2 / 2 ^ j = (n + 1) / 2 ^ (j + 1) := by
          rw [Nat.div_div_eq_div_mul, ← pow_succ']
        have := ih m ((n + 1) / 2) (by rw [hdd]; exact hbit)
        omega

theorem bit12_of_padded (q s : Nat) (hs : s ≤ 12) :
    ((q ||| 0xf000) >>> s) / 2 ^ (12 - s) % 2 = 1 := by
  have ht : Nat.testBit ((q ||| 0xf000) >>> s) (12 - s) = true := by
    rw [Nat.testBit_shiftRight]
    have h12 : s + (12 - s) = 12 := by omega
    rw [h12, Nat.testBit_lor]
    have : Nat.testBit 0xf000 12 = true := by decide
    simp [this]
  rw [Nat.testBit_to_div_mod] at ht
  simpa using ht

theorem fastVal_singleAdv (useEL : Bool) (l0 l q : Nat) (hl0 : l ≠ 0) (hl12 : l ≤ 12) :
    fastVal (singleAdv useEL l0 l q) := by
  refine ⟨singleE useEL l0 l q + 1, l + singleE useEL l0 l q * l0, rfl, by omega, ?_, ?_⟩
  · unfold singleE
    split
    · have htz : tz16 16 ((q ||| 0xf000) >>> l) ≤ 12 - l :=
        tz16_le_of_bit (12 - l) 16 _ (bit12_of_padded q l hl12)
      have hmul : tz16 16 ((q ||| 0xf000) >>> l) / l0 * l0 ≤
          tz16 16 ((q ||| 0xf000) >>> l) := Nat.div_mul_le_self _ _
      omega
    · omega
  · unfold singleE
    split
    · have := Nat.div_le_self (tz16 16 ((q ||| 0xf000) >>> l)) l0
      have := tz16_le_add 16 ((q ||| 0xf000) >>> l)
      omega
    · omega

theorem fastVal_pairAdv (useEL : Bool) (l0 l l2 q : Nat) (hl2 : l2 ≠ 0)
    (hl12 : l + l2 ≤ 12) :
    fastVal (pairAdv useEL l0 l l2 q) := by
  refine ⟨pairE useEL l0 l l2 q + 2, l + l2 + pairE useEL l0 l l2 q * l0, rfl,
    by omega, ?_, ?_⟩
  · unfold pairE
    split
    · have htz : tz16 16 ((q ||| 0xf000) >>> (l + l2)) ≤ 12 - (l + l2) :=
        tz16_le_of_bit (12 - (l + l2)) 16 _ (bit12_of_padded q (l + l2) hl12)
      have hmul : tz16 16 ((q ||| 0xf000) >>> (l + l2)) / l0 * l0 ≤
          tz16 16 ((q ||| 0xf000) >>> (l + l2)) := Nat.div_mul_le_self _ _
      omega
    · omega
  · unfold pairE
    split
    · have := Nat.div_le_self (tz16 16 ((q ||| 0xf000) >>> (l + l2))) l0
      have := tz16_le_add 16 ((q ||| 0xf000) >>> (l + l2))
      omega
    · omega

theorem fastVal_spec (a : Nat) (h : fastVal a) : a &&& 15 ≠ 0 ∧ a ≠ 0xffff := by
  obtain ⟨hi, low, rfl, h1, h2, h3⟩ := h
  rw [shiftLeft_or_eq_add hi low 4 (by omega)]
  constructor
  · have e15 : (15 : Nat) = 2 ^ 4 - 1 := by norm_num
    rw [e15, and_low_mask, Nat.mul_add_mod]
    omega
  · omega

theorem mod_dvd_congr (a b m d : Nat) (h : a % m = b % m) (hd : d ∣ m) :
    a % d = b % d := by
  calc a % d = a % m % d := (Nat.mod_mod_of_dvd a hd).symm
  _ = b % m % d := by rw [h]
  _ = b % d := Nat.mod_mod_of_dvd b hd

theorem pairsLoop_advance (lengths codes : Nat → Nat) (useEL : Bool) (l0 i l : Nat)
    (hci : codes i < 2 ^ l) :
    ∀ (fuel ii : Nat) (cb : CompressedBlock) (q : Nat), q < 4096 →
      (Decompressor.pairsLoop lengths codes useEL l0 i l fuel ii cb).advance_table.get 12 q =
        cb.advance_table.get 12 q ∨
      (q % 2 ^ l = codes i ∧
        fastVal ((Decompressor.pairsLoop lengths codes useEL l0 i l fuel ii
          cb).advance_table.get 12 q)) := by
  intro fuel
  induction fuel with
  | zero =>
    intro ii cb q hq
    rw [Decompressor.pairsLoop]
    left
    rfl
  | succ m ih =>
    intro ii cb q hq
    rw [Decompressor.pairsLoop]
    simp only []
    split
    · rename_i hii
      rcases ih (ii + 1) _ q hq with hrec | hrec
      · rw [hrec]
        split
        · rename_i hg
          obtain ⟨hl2, hll2⟩ := hg
          rw [pairsInnerLoop_advance useEL l0 i ii l (lengths ii) 4096 _ cb q hq
            (by omega)]
          split
          · rename_i hcond
            right
            refine ⟨?_, fastVal_pairAdv useEL l0 l (lengths ii) q hl2 hll2⟩
            have hj0 : (codes i ||| codes ii <<< l) % 2 ^ l = codes i := by
              rw [Nat.lor_comm, shiftLeft_or_eq_add _ _ _ hci, Nat.mul_add_mod,
                Nat.mod_eq_of_lt hci]
            have hdvd : (2 : Nat) ^ l ∣ 2 ^ (l + lengths ii) :=
              pow_dvd_pow 2 (by omega)
            have hm := mod_dvd_congr q (codes i ||| codes ii <<< l)
              (2 ^ (l + lengths ii)) (2 ^ l) hcond.2 hdvd
            rw [hm, hj0]
          · left; rfl
        · left; rfl
      · right
        exact hrec
    · left
      rfl

theorem litLoop_advance (lengths codes : Nat → Nat) (useEL : Bool) (l0 : Nat)
    (hcodes : ∀ j, j < 288 → lengths j ≠ 0 → codes j < 2 ^ lengths j) :
    ∀ (fuel i0 : Nat) (cb : CompressedBlock) (q : Nat), q < 4096 → 256 ≤ i0 + fuel →
      (litMatchedIn lengths codes i0 q →
        fastVal ((Decompressor.litLoop lengths codes useEL l0 fuel i0
          cb).advance_table.get 12 q)) ∧
      (¬ litMatchedIn lengths codes i0 q →
        (Decompressor.litLoop lengths codes useEL l0 fuel i0 cb).advance_table.get 12 q =
          cb.advance_table.get 12 q) := by
  intro fuel
  induction fuel with
  | zero =>
    intro i0 cb q hq hfuel
    constructor
    · rintro ⟨j, hj1, hj2, _⟩
      rw [Decompressor.litLoop] at *
      omega
    · intro _
      rw [Decompressor.litLoop]
  | succ m ih =>
    intro i0 cb q hq hfuel
    rw [Decompressor.litLoop]
    simp only []
    split
    · rename_i hi0
      have hci : lengths i0 ≠ 0 → codes i0 < 2 ^ lengths i0 :=
        fun h => hcodes i0 (by omega) h
      obtain ⟨ihA, ihB⟩ := ih (i0 + 1) (if 0 < lengths i0 ∧ lengths i0 ≤ 9 then
          Decompressor.pairsLoop lengths codes useEL l0 i0 (lengths i0) 256 0
            (Decompressor.singlesLoop useEL l0 i0 (lengths i0) 4096 (codes i0) cb)
          else Decompressor.singlesLoop useEL l0 i0 (lengths i0) 4096 (codes i0) cb)
        q hq (by omega)
      constructor
      · intro hmatch
        by_cases hlater : litMatchedIn lengths codes (i0 + 1) q
        · exact ihA hlater
        · obtain ⟨j, hj1, hj2, hjl0, hjl12, hjc⟩ := hmatch
          have hji : j = i0 := by
            by_contra hne
            exact hlater ⟨j, by omega, hj2, hjl0, hjl12, hjc⟩
          subst hji
          rw [ihB hlater]
          have hcij : codes j < 2 ^ lengths j := hci hjl0
          have hsing : (Decompressor.singlesLoop useEL l0 j (lengths j) 4096
              (codes j) cb).advance_table.get 12 q = singleAdv useEL l0 (lengths j) q := by
            rw [singlesLoop_advance useEL l0 j (lengths j) 4096 (codes j) cb q hq
              (by omega)]
            have hle : codes j ≤ q := by
              calc codes j = q % 2 ^ lengths j := hjc.symm
              _ ≤ q := Nat.mod_le q _
            have hcg : q % 2 ^ lengths j = codes j % 2 ^ lengths j := by
              rw [hjc, Nat.mod_eq_of_lt hcij]
            rw [if_pos ⟨hjl0, hjl12, hle, hcg⟩]
          split
          · rcases pairsLoop_advance lengths codes useEL l0 j (lengths j) hcij 256 0
              (Decompressor.singlesLoop useEL l0 j (lengths j) 4096 (codes j) cb) q hq
              with hp | hp
            · rw [hp, hsing]
              exact fastVal_singleAdv useEL l0 (lengths j) q hjl0 hjl12
            · exact hp.2
          · rw [hsing]
            exact fastVal_singleAdv useEL l0 (lengths j) q hjl0 hjl12
      · intro hnone
        have hnone1 : ¬ litMatchedIn lengths codes (i0 + 1) q := by
          intro ⟨j, hj1, hj2, h3, h4, h5⟩
          exact hnone ⟨j, by omega, hj2, h3, h4, h5⟩
        have hnotm : ¬ (lengths i0 ≠ 0 ∧ lengths i0 ≤ 12 ∧
            q % 2 ^ lengths i0 = codes i0) := by
          rintro ⟨h1, h2, h3⟩
          exact hnone ⟨i0, le_refl _, by omega, h1, h2, h3⟩
        rw [ihB hnone1]
        have hsing : (Decompressor.singlesLoop useEL l0 i0 (lengths i0) 4096
            (codes i0) cb).advance_table.get 12 q = cb.advance_table.get 12 q := by
          rw [singlesLoop_advance useEL l0 i0 (lengths i0) 4096 (codes i0) cb q hq
            (by omega)]
          rw [if_neg]
          rintro ⟨h1, h2, h3, h4⟩
          apply hnotm
          refine ⟨h1, h2, ?_⟩
          rw [h4, Nat.mod_eq_of_lt (hci h1)]
        split
        · rename_i hg
          rcases pairsLoop_advance lengths codes useEL l0 i0 (lengths i0) (hci (by omega))
            256 0 (Decompressor.singlesLoop useEL l0 i0 (lengths i0) 4096 (codes i0) cb)
            q hq with hp | hp
          · rw [hp, hsing]
          · exact absurd ⟨by omega, by omega, hp.1⟩ hnotm
        · exact hsing
    · constructor
      · rintro ⟨j, hj1, hj2, _⟩
        omega
      · intro _
        rfl

theorem slowVal_spec (a : Nat) (h : slowVal a) :
    a &&& 0x8000 = 0 ∧ a &&& 15 = 0 ∧ (a >>> 4) &&& 15 ≠ 0 := by
  obtain ⟨hi, lw, rfl, h1, h2, h3⟩ := h
  have hb : lw <<< 4 = 16 * lw := by rw [Nat.shiftLeft_eq]; ring
  have ha : hi <<< 8 ||| lw <<< 4 = 256 * hi + 16 * lw := by
    rw [shiftLeft_or_eq_add hi (lw <<< 4) 8 (by omega)]
    omega
  rw [ha]
  have e15 : (15 : Nat) = 2 ^ 4 - 1 := by norm_num
  have e32768 : (0x8000 : Nat) = 2 ^ 15 := by norm_num
  refine ⟨?_, ?_, ?_⟩
  · rw [e32768]
    exact and_two_pow_eq_zero_of_lt _ 15 (by omega)
  · rw [e15, and_low_mask]
    omega
  · rw [Nat.shiftRight_eq_div_pow, e15, and_low_mask]
    have : (256 * hi + 16 * lw) / 2 ^ 4 = 16 * hi + lw := by omega
    rw [this]
    omega

theorem slowVal_lensymVal (i l : Nat) (hi : i < 288) (hl0 : l ≠ 0) (hl12 : l ≤ 12) :
    slowVal (lensymVal i l) :=
  ⟨i - 256, l, rfl, by omega, by omega, by omega⟩

theorem lensymLoop_advance (lengths codes : Nat → Nat) (hlit : Nat)
    (hcodes : ∀ j, j < 288 → lengths j ≠ 0 → codes j < 2 ^ lengths j)
    (hhl : hlit ≤ 288) :
    ∀ (fuel i0 : Nat) (cb : CompressedBlock) (q : Nat), q < 4096 → hlit ≤ i0 + fuel →
      (lenMatchedIn lengths codes i0 hlit q →
        slowVal ((Decompressor.lensymLoop lengths codes hlit fuel i0
          cb).advance_table.get 12 q)) ∧
      (¬ lenMatchedIn lengths codes i0 hlit q →
        (Decompressor.lensymLoop lengths codes hlit fuel i0 cb).advance_table.get 12 q =
          cb.advance_table.get 12 q) := by
  intro fuel
  induction fuel with
  | zero =>
    intro i0 cb q hq hfuel
    constructor
    · rintro ⟨j, hj1, hj2, _⟩
      omega
    · intro _
      rw [Decompressor.lensymLoop]
  | succ m ih =>
    intro i0 cb q hq hfuel
    rw [Decompressor.lensymLoop]
    simp only []
    split
    · rename_i hi0
      obtain ⟨ihA, ihB⟩ := ih (i0 + 1) (if lengths i0 ≠ 0 ∧ lengths i0 ≤ 12 then
          Decompressor.lensymInner i0 (lengths i0) 4096 (codes i0) cb else cb)
        q hq (by omega)
      constructor
      · intro hmatch
        by_cases hlater : lenMatchedIn lengths codes (i0 + 1) hlit q
        · exact ihA hlater
        · obtain ⟨j, hj1, hj2, hjl0, hjl12, hjc⟩ := hmatch
          have hji : j = i0 := by
            by_contra hne
            exact hlater ⟨j, by omega, hj2, hjl0, hjl12, hjc⟩
          subst hji
          rw [ihB hlater]
          have hcij : codes j < 2 ^ lengths j := hcodes j (by omega) hjl0
          rw [if_pos ⟨hjl0, hjl12⟩]
          rw [lensymInner_advance j (lengths j) 4096 (codes j) cb q hq (by omega)]
          have hle : codes j ≤ q := by
            calc codes j = q % 2 ^ lengths j := hjc.symm
            _ ≤ q := Nat.mod_le q _
          have hcg : q % 2 ^ lengths j = codes j % 2 ^ lengths j := by
            rw [hjc, Nat.mod_eq_of_lt hcij]
          rw [if_pos ⟨hjl0, hle, hcg⟩]
          exact slowVal_lensymVal j (lengths j) (by omega) hjl0 hjl12
      · intro hnone
        have hnone1 : ¬ lenMatchedIn lengths codes (i0 + 1) hlit q := by
          intro ⟨j, hj1, hj2, h3, h4, h5⟩
          exact hnone ⟨j, by omega, hj2, h3, h4, h5⟩
        rw [ihB hnone1]
        split
        · rename_i hg
          rw [lensymInner_advance i0 (lengths i0) 4096 (codes i0) cb q hq (by omega)]
          rw [if_neg]
          rintro ⟨h1, h2, h3⟩
          apply hnone
          refine ⟨i0, le_refl _, by omega, hg.1, hg.2, ?_⟩
          rw [h3, Nat.mod_eq_of_lt (hcodes i0 (by omega) hg.1)]
        · rfl
    · constructor
      · rintro ⟨j, hj1, hj2, _⟩
        omega
      · intro _
        rfl

theorem stampLoop_advance (lengths codes : Nat → Nat) (hlit : Nat) :
    ∀ (fuel i0 : Nat) (cb : CompressedBlock) (q : Nat), q < 4096 → hlit ≤ i0 + fuel →
      (longPfxIn lengths codes i0 hlit q →
        (Decompressor.stampLoop lengths codes hlit fuel i0 cb).advance_table.get 12 q =
          0xffff) ∧
      (¬ longPfxIn lengths codes i0 hlit q →
        (Decompressor.stampLoop lengths codes hlit fuel i0 cb).advance_table.get 12 q =
          cb.advance_table.get 12 q) := by
  intro fuel
  induction fuel with
  | zero =>
    intro i0 cb q hq hfuel
    constructor
    · rintro ⟨j, hj1, hj2, _⟩
      omega
    · intro _
      rw [Decompressor.stampLoop]
  | succ m ih =>
    intro i0 cb q hq hfuel
    rw [Decompressor.stampLoop]
    simp only []
    split
    · rename_i hi0
      obtain ⟨ihA, ihB⟩ := ih (i0 + 1) (if 12 < lengths i0 then
          { cb with advance_table := cb.advance_table.set 12 (codes i0 % 4096) 0xffff }
          else cb) q hq (by omega)
      constructor
      · intro hmatch
        by_cases hlater : longPfxIn lengths codes (i0 + 1) hlit q
        · exact ihA hlater
        · obtain ⟨j, hj1, hj2, hjl, hjc⟩ := hmatch
          have hji : j = i0 := by
            by_contra hne
            exact hlater ⟨j, by omega, hj2, hjl, hjc⟩
          subst hji
          rw [ihB hlater]
          rw [if_pos hjl]
          simp only []
          rw [Tab.get_set 12 _ _ _ q (by omega) (by omega)]
          rw [if_pos hjc.symm]
      · intro hnone
        have hnone1 : ¬ longPfxIn lengths codes (i0 + 1) hlit q := by
          intro ⟨j, hj1, hj2, h3, h4⟩
          exact hnone ⟨j, by omega, hj2, h3, h4⟩
        rw [ihB hnone1]
        split
        · rename_i hg
          simp only []
          rw [Tab.get_set 12 _ _ _ q (by omega) (by omega)]
          rw [if_neg]
          intro hqj
          exact hnone ⟨i0, le_refl _, by omega, hg, hqj.symm⟩
        · rfl
    · constructor
      · rintro ⟨j, hj1, hj2, _⟩
        omega
      · intro _
        rfl

theorem allocVal_mono (b b' a : Nat) (h : allocVal b a) (hb : b ≤ b') : allocVal b' a := by
  obtain ⟨k, h1, h2, h3⟩ := h
  exact ⟨k, h1, h2, by omega⟩

theorem allocLoop_advance (lengths codes : Nat → Nat) (hlit : Nat) :
    ∀ (fuel i0 stl : Nat) (cb : CompressedBlock), hlit ≤ i0 + fuel → stl % 8 = 0 →
      stl + 8 * (hlit - i0) ≤ 65535 →
      (stl ≤ (Decompressor.allocLoop lengths codes hlit fuel i0 stl cb).2 ∧
       (Decompressor.allocLoop lengths codes hlit fuel i0 stl cb).2 % 8 = 0 ∧
       (Decompressor.allocLoop lengths codes hlit fuel i0 stl cb).2 ≤
         stl + 8 * (hlit - i0)) ∧
      (∀ q, q < 4096 → ¬ longPfxIn lengths codes i0 hlit q →
        (Decompressor.allocLoop lengths codes hlit fuel i0 stl
          cb).1.advance_table.get 12 q = cb.advance_table.get 12 q) ∧
      (∀ q, q < 4096 → longPfxIn lengths codes i0 hlit q →
        (cb.advance_table.get 12 q = 0xffff ∨ allocVal stl (cb.advance_table.get 12 q)) →
        allocVal (Decompressor.allocLoop lengths codes hlit fuel i0 stl cb).2
          ((Decompressor.allocLoop lengths codes hlit fuel i0 stl
            cb).1.advance_table.get 12 q)) := by
  intro fuel
  induction fuel with
  | zero =>
    intro i0 stl cb hfuel hstl8 hbound
    rw [Decompressor.allocLoop]
    refine ⟨⟨le_refl _, hstl8, by omega⟩, fun q hq _ => rfl, ?_⟩
    rintro q hq ⟨j, hj1, hj2, _⟩ _
    omega
  | succ m ih =>
    intro i0 stl cb hfuel hstl8 hbound
    rw [Decompressor.allocLoop]
    simp only []
    split
    · rename_i hi0
      split
      · rename_i hlong
        split
        · rename_i hff
          have hmod : (stl + 8) % 65536 = stl + 8 := Nat.mod_eq_of_lt (by omega)
          rw [hmod]
          obtain ⟨ihM, ihF, ihC⟩ := ih (i0 + 1) (stl + 8)
            { cb with advance_table := (cb.advance_table.set 12 (codes i0 % 4096)
                ((stl <<< 4 ||| 0x8000) % 65536)) }
            (by omega) (by omega) (by omega)
          refine ⟨⟨by omega, ihM.2.1, by omega⟩, ?_, ?_⟩
          · intro q hq hnone
            have hnone1 : ¬ longPfxIn lengths codes (i0 + 1) hlit q := by
              intro ⟨j, hj1, hj2, h3, h4⟩
              exact hnone ⟨j, by omega, hj2, h3, h4⟩
            rw [ihF q hq hnone1]
            simp only []
            rw [Tab.get_set 12 _ _ _ q (by omega) (by omega)]
            rw [if_neg]
            intro hqj
            exact hnone ⟨i0, le_refl _, by omega, hlong, hqj.symm⟩
          · intro q hq hmatch hpre
            by_cases hlater : longPfxIn lengths codes (i0 + 1) hlit q
            · apply ihC q hq hlater
              simp only []
              rw [Tab.get_set 12 _ _ _ q (by omega) (by omega)]
              split
              · right
                exact ⟨stl, rfl, hstl8, by omega⟩
              · rcases hpre with hpre | hpre
                · left; exact hpre
                · right; exact allocVal_mono _ _ _ hpre (by omega)
            · rw [ihF q hq hlater]
              obtain ⟨j, hj1, hj2, hjl, hjc⟩ := hmatch
              have hji : j = i0 := by
                by_contra hne
                exact hlater ⟨j, by omega, hj2, hjl, hjc⟩
              subst hji
              simp only []
              rw [Tab.get_set 12 _ _ _ q (by omega) (by omega)]
              rw [if_pos hjc.symm]
              exact ⟨stl, rfl, hstl8, by omega⟩
        · rename_i hff
          obtain ⟨ihM, ihF, ihC⟩ := ih (i0 + 1) stl cb (by omega) hstl8 (by omega)
          refine ⟨⟨ihM.1, ihM.2.1, by omega⟩, ?_, ?_⟩
          · intro q hq hnone
            apply ihF q hq
            intro ⟨j, hj1, hj2, h3, h4⟩
            exact hnone ⟨j, by omega, hj2, h3, h4⟩
          · intro q hq hmatch hpre
            by_cases hlater : longPfxIn lengths codes (i0 + 1) hlit q
            · exact ihC q hq hlater hpre
            · obtain ⟨j, hj1, hj2, hjl, hjc⟩ := hmatch
              have hji : j = i0 := by
                by_contra hne
                exact hlater ⟨j, by omega, hj2, hjl, hjc⟩
              subst hji
              rw [ihF q hq hlater]
              rcases hpre with hpre | hpre
              · rw [hjc] at hff
                exact absurd hpre hff
              · exact allocVal_mono _ _ _ hpre ihM.1
      · rename_i hlong
        obtain ⟨ihM, ihF, ihC⟩ := ih (i0 + 1) stl cb (by omega) hstl8 (by omega)
        refine ⟨⟨ihM.1, ihM.2.1, by omega⟩, ?_, ?_⟩
        · intro q hq hnone
          apply ihF q hq
          intro ⟨j, hj1, hj2, h3, h4⟩
          exact hnone ⟨j, by omega, hj2, h3, h4⟩
        · intro q hq hmatch hpre
          obtain ⟨j, hj1, hj2, hjl, hjc⟩ := hmatch
          have hji : j ≠ i0 := by
            intro rfl2
            subst rfl2
            exact hlong hjl
          exact ihC q hq ⟨j, by omega, hj2, hjl, hjc⟩ hpre
    · rename_i hi0
      refine ⟨⟨le_refl _, hstl8, by omega⟩, fun q hq _ => rfl, ?_⟩
      rintro q hq ⟨j, hj1, hj2, _⟩ _
      omega

theorem popInner_spec (i l k : Nat) :
    ∀ (fuel s0 : Nat) (cb : CompressedBlock), 9 ≤ s0 + fuel → 1 ≤ fuel →
      k + 8 ≤ cb.secondary_len →
      ∃ cb', Decompressor.popInner i l k fuel s0 cb = .ok cb' ∧
        cb'.advance_table = cb.advance_table ∧
        cb'.secondary_len = cb.secondary_len ∧
        (∀ x, k + s0 ≤ x → x < k + 8 →
          (x - k) % 2 ^ (l - 12) = s0 % 2 ^ (l - 12) →
          cb'.secondary_table x = i <<< 4 ||| l) ∧
        (∀ x, ¬(k + s0 ≤ x ∧ x < k + 8 ∧
          (x - k) % 2 ^ (l - 12) = s0 % 2 ^ (l - 12)) →
          cb'.secondary_table x = cb.secondary_table x) := by
  intro fuel
  induction fuel with
  | zero =>
    intro s0 cb hfuel hone hb
    omega
  | succ m ih =>
    intro s0 cb hfuel hone hb
    rw [Decompressor.popInner]
    simp only []
    split
    · rename_i hs8
      rw [if_pos (by omega)]
      have hstep : 0 < 2 ^ (l - 12) := pow_pos (by omega) _
      have hscong : (s0 + 2 ^ (l - 12)) % 2 ^ (l - 12) = s0 % 2 ^ (l - 12) :=
        Nat.add_mod_right _ _
      obtain ⟨cb', hok, hadv, hlen, hwr, hfr⟩ := ih (s0 + 2 ^ (l - 12))
        { cb with secondary_table := upd cb.secondary_table (k + s0) (i <<< 4 ||| l) }
        (by omega) (by omega) hb
      refine ⟨cb', hok, hadv, hlen, ?_, ?_⟩
      · intro x hx1 hx2 hx3
        by_cases hxe : x = k + s0
        · rw [hfr x ?_]
          · simp [hxe, upd]
          · rintro ⟨ha, _, _⟩
            omega
        · have hgt : s0 < x - k := by omega
          have hge : s0 + 2 ^ (l - 12) ≤ x - k :=
            mod_eq_add_of_lt (x - k) s0 (2 ^ (l - 12)) hstep hx3 hgt
          rw [hwr x (by omega) hx2 (by rw [hx3, hscong])]
      · intro x hx
        rw [hfr x ?_]
        · simp only [upd]
          rw [if_neg]
          intro hxe
          exact hx ⟨by omega, by omega, by rw [hxe, Nat.add_sub_cancel_left]⟩
        · rintro ⟨h1, h2, h3⟩
          exact hx ⟨by omega, h2, by rw [h3]; exact hscong⟩
    · rename_i hs8
      exact ⟨cb, rfl, rfl, rfl, fun x h1 h2 _ => by omega, fun x _ => rfl⟩

theorem sec_val_good (i l : Nat) (hl : 12 < l) (hl15 : l ≤ 15) :
    12 < (i <<< 4 ||| l) &&& 15 := by
  have h : i <<< 4 ||| l = 2 ^ 4 * i + l := shiftLeft_or_eq_add i l 4 (by omega)
  have h15 : (15 : Nat) = 2 ^ 4 - 1 := by norm_num
  rw [h, h15, and_low_mask, Nat.mul_add_mod, Nat.mod_eq_of_lt (by omega)]
  exact hl

theorem shiftRight12_lt (a l : Nat) (h : a < 2 ^ l) (hl : 12 ≤ l) :
    a >>> 12 < 2 ^ (l - 12) := by
  rw [Nat.shiftRight_eq_div_pow]
  apply Nat.div_lt_of_lt_mul
  calc a < 2 ^ l := h
  _ = 2 ^ 12 * 2 ^ (l - 12) := by rw [← pow_add]; congr 1; omega

theorem populateLoop_spec (lengths codes : Nat → Nat) (hlit : Nat)
    (hl15 : ∀ j, j < hlit → lengths j ≤ 15)
    (hcodes : ∀ j, j < hlit → lengths j ≠ 0 → codes j < 2 ^ lengths j) :
    ∀ (fuel i0 : Nat) (cb : CompressedBlock), hlit < i0 + fuel → 1 ≤ fuel →
      (∀ j, i0 ≤ j → j < hlit → 12 < lengths j →
        ((cb.advance_table.get 12 (codes j % 4096) &&& 0x7ff0) >>> 4) + 8 ≤
          cb.secondary_len) →
      ∃ cb', Decompressor.populateLoop lengths codes hlit fuel i0 cb = .ok cb' ∧
        cb'.advance_table = cb.advance_table ∧
        cb'.secondary_len = cb.secondary_len ∧
        (∀ x, 12 < cb.secondary_table x &&& 15 → 12 < cb'.secondary_table x &&& 15) ∧
        (∀ j t, i0 ≤ j → j < hlit → 12 < lengths j → t < 8 →
          t % 2 ^ (lengths j - 12) = (codes j >>> 12) % 2 ^ (lengths j - 12) →
          12 < cb'.secondary_table
            (((cb.advance_table.get 12 (codes j % 4096) &&& 0x7ff0) >>> 4) + t) &&& 15) := by
  intro fuel
  induction fuel with
  | zero =>
    intro i0 cb hfuel hone hpre
    omega
  | succ m ih =>
    intro i0 cb hfuel hone hpre
    rw [Decompressor.populateLoop]
    simp only []
    by_cases hi : i0 < hlit
    · rw [if_pos hi]
      by_cases hlong : 12 < lengths i0
      · rw [if_pos hlong]
        have hc : codes i0 < 2 ^ lengths i0 := hcodes i0 hi (by omega)
        obtain ⟨cb1, hok, hadv1, hlen1, hwr1, hfr1⟩ :=
          popInner_spec i0 (lengths i0)
            ((cb.advance_table.get 12 (codes i0 % 4096) &&& 0x7ff0) >>> 4)
            9 (codes i0 >>> 12) cb (by omega) (by omega)
            (hpre i0 le_rfl hi hlong)
        have hpre1 : ∀ j, i0 + 1 ≤ j → j < hlit → 12 < lengths j →
            ((cb1.advance_table.get 12 (codes j % 4096) &&& 0x7ff0) >>> 4) + 8 ≤
              cb1.secondary_len := by
          intro j hj1 hj2 hjl
          rw [hadv1, hlen1]
          exact hpre j (by omega) hj2 hjl
        obtain ⟨cb2, hok2, hadv2, hlen2, hgood2, hcov2⟩ :=
          ih (i0 + 1) cb1 (by omega) (by omega) hpre1
        rw [hok]
        refine ⟨cb2, hok2, by rw [hadv2, hadv1], by rw [hlen2, hlen1], ?_, ?_⟩
        · intro x hx
          apply hgood2
          by_cases hw : ((cb.advance_table.get 12 (codes i0 % 4096) &&& 0x7ff0) >>> 4)
              + (codes i0 >>> 12) ≤ x ∧
              x < ((cb.advance_table.get 12 (codes i0 % 4096) &&& 0x7ff0) >>> 4) + 8 ∧
              (x - ((cb.advance_table.get 12 (codes i0 % 4096) &&& 0x7ff0) >>> 4)) %
                2 ^ (lengths i0 - 12) = (codes i0 >>> 12) % 2 ^ (lengths i0 - 12)
          · rw [hwr1 x hw.1 hw.2.1 hw.2.2]
            exact sec_val_good i0 (lengths i0) hlong (hl15 i0 hi)
          · rw [hfr1 x hw]
            exact hx
        · intro j t hj1 hj2 hjl ht8 htmod
          rcases Nat.eq_or_lt_of_le hj1 with hje | hjlt
          · subst hje
            apply hgood2
            have hs0lt : codes i0 >>> 12 < 2 ^ (lengths i0 - 12) :=
              shiftRight12_lt (codes i0) (lengths i0) hc (by omega)
            have hst : codes i0 >>> 12 ≤ t := by
              have h1 : t % 2 ^ (lengths i0 - 12) = codes i0 >>> 12 := by
                rw [htmod, Nat.mod_eq_of_lt hs0lt]
              calc codes i0 >>> 12 = t % 2 ^ (lengths i0 - 12) := h1.symm
              _ ≤ t := Nat.mod_le t _
            rw [hwr1 _ (by omega) (by omega)
              (by rw [Nat.add_sub_cancel_left]; exact htmod)]
            exact sec_val_good i0 (lengths i0) hjl (hl15 i0 hj2)
          · have := hcov2 j t (by omega) hj2 hjl ht8 htmod
            rwa [hadv1] at this
      · rw [if_neg hlong]
        obtain ⟨cb2, hok2, hadv2, hlen2, hgood2, hcov2⟩ :=
          ih (i0 + 1) cb (by omega) (by omega)
            (fun j hj1 hj2 hjl => hpre j (by omega) hj2 hjl)
        refine ⟨cb2, hok2, hadv2, hlen2, hgood2, ?_⟩
        intro j t hj1 hj2 hjl ht8 htmod
        rcases Nat.eq_or_lt_of_le hj1 with hje | hjlt
        · exact absurd (hje ▸ hjl) hlong
        · exact hcov2 j t (by omega) hj2 hjl ht8 htmod
    · rw [if_neg hi]
      exact ⟨cb, rfl, rfl, rfl, fun x hx => hx,
        fun j t hj1 hj2 _ _ _ => absurd hj2 (by omega)⟩

theorem canonicalCode_lt (lengths : Nat → Nat) (n i : Nat) :
    canonicalCode lengths n i < 2 ^ lengths i := by
  unfold canonicalCode
  split
  · exact pow_pos (by norm_num) _
  · exact revBits_lt _ _

theorem allocVal_extract (bound a : Nat) (hb : bound ≤ 0x7ff) (h : allocVal bound a) :
    a = 32768 + 16 * ((a &&& 0x7ff0) >>> 4) ∧
    (a &&& 0x7ff0) >>> 4 + 8 ≤ bound ∧
    a &&& 15 = 0 ∧ a &&& 0x8000 ≠ 0 ∧ a ≠ 0xffff := by
  obtain ⟨k, rfl, hk8, hkb⟩ := h
  have hk : k < 2048 := by omega
  have hsl : k <<< 4 = 16 * k := by rw [Nat.shiftLeft_eq]; ring
  have h1 : k <<< 4 ||| 0x8000 = 32768 + 16 * k := by
    rw [Nat.lor_comm]
    have h2 : (0x8000 : Nat) = 1 <<< 15 := by rw [Nat.shiftLeft_eq]
    rw [h2, shiftLeft_or_eq_add 1 (k <<< 4) 15 (by omega), hsl]
    omega
  have hmod : (k <<< 4 ||| 0x8000) % 65536 = 32768 + 16 * k := by
    rw [h1]; exact Nat.mod_eq_of_lt (by omega)
  rw [hmod]
  have hx : ((32768 + 16 * k) &&& 0x7ff0) >>> 4 = k := by
    have h70 : (0x7ff0 : Nat) = (2 ^ 11 - 1) <<< 4 := by rw [Nat.shiftLeft_eq]; norm_num
    rw [h70, and_mask_shift]
    have hdv : (32768 + 16 * k) / 2 ^ 4 = 2048 + k := by omega
    rw [hdv]
    omega
  rw [hx]
  refine ⟨rfl, by omega, ?_, ?_, by omega⟩
  · have e15 : (15 : Nat) = 2 ^ 4 - 1 := by norm_num
    rw [e15, and_low_mask]
    omega
  · have e8 : (0x8000 : Nat) = 2 ^ 15 := by norm_num
    rw [e8, and_two_pow_ne_zero_iff]
    omega

theorem distFinalLoop_frame (dl : Nat → Nat) :
    ∀ (fuel i : Nat) (cb : CompressedBlock),
      (Decompressor.distFinalLoop dl fuel i cb).advance_table = cb.advance_table ∧
      (Decompressor.distFinalLoop dl fuel i cb).secondary_table = cb.secondary_table ∧
      (Decompressor.distFinalLoop dl fuel i cb).secondary_len = cb.secondary_len := by
  intro fuel
  induction fuel with
  | zero => intro i cb; exact ⟨rfl, rfl, rfl⟩
  | succ m ih =>
    intro i cb
    rw [Decompressor.distFinalLoop]
    simp only []
    split
    · split
      · exact ih (i + 1) _
      · exact ih (i + 1) _
    · exact ⟨rfl, rfl, rfl⟩

theorem populateLoop_ok_bound (lengths codes : Nat → Nat) (hlit : Nat) :
    ∀ (fuel i0 : Nat) (cb cb' : CompressedBlock),
      Decompressor.populateLoop lengths codes hlit fuel i0 cb = .ok cb' →
      hlit < i0 + fuel := by
  intro fuel
  induction fuel with
  | zero =>
    intro i0 cb cb' h
    rw [Decompressor.populateLoop] at h
    exact (RRes.noConfusion h)
  | succ m ih =>
    intro i0 cb cb' h
    rw [Decompressor.populateLoop] at h
    simp only [] at h
    by_cases hi : i0 < hlit
    · rw [if_pos hi] at h
      split at h
      · split at h
        · have := ih (i0 + 1) _ cb' h
          omega
        · exact (RRes.noConfusion h)
        · exact (RRes.noConfusion h)
      · have := ih (i0 + 1) _ cb' h
        omega
    · omega

theorem matcher_short_cases (lengths : Nat → Nat) (hlit q : Nat)
    (hb : ∀ j, j < 288 → lengths j ≤ 15)
    (htot : kraftTotal lengths 288 = 2 ^ 15)
    (hz : ∀ i, hlit ≤ i → i < 288 → lengths i = 0)
    (hq : q < 4096)
    (hnl : ¬ longPfxIn lengths (canonicalCode lengths 288) 0 hlit q) :
    litMatchedIn lengths (canonicalCode lengths 288) 0 q ∨
      lenMatchedIn lengths (canonicalCode lengths 288) 256 hlit q := by
  obtain ⟨i, hiS, hm, _⟩ := unique_decode lengths 288 q hb htot (by omega)
  obtain ⟨hir, hine⟩ := Finset.mem_filter.mp hiS
  have hin : i < 288 := Finset.mem_range.mp hir
  have hih : i < hlit := by
    by_contra hc
    exact hine (hz i (by omega) hin)
  by_cases hl12 : lengths i ≤ 12
  · by_cases hi256 : i < 256
    · exact Or.inl ⟨i, Nat.zero_le _, hi256, hine, hl12, hm⟩
    · exact Or.inr ⟨i, by omega, hih, hine, hl12, hm⟩
  · exfalso
    have hqeq : q % 2 ^ lengths i = q := Nat.mod_eq_of_lt (by
      calc q < 4096 := hq
      _ = 2 ^ 12 := by norm_num
      _ ≤ 2 ^ lengths i := Nat.pow_le_pow_right (by omega) (by omega))
    apply hnl
    refine ⟨i, Nat.zero_le _, hih, by omega, ?_⟩
    rw [← hm, hqeq]
    exact Nat.mod_eq_of_lt hq

theorem window_cover (lengths : Nat → Nat) (hlit q t : Nat)
    (hb : ∀ j, j < 288 → lengths j ≤ 15)
    (htot : kraftTotal lengths 288 = 2 ^ 15)
    (hz : ∀ i, hlit ≤ i → i < 288 → lengths i = 0)
    (hhl : hlit ≤ 288)
    (hq : q < 4096) (ht : t < 8)
    (i0 : Nat) (hi0h : i0 < hlit) (hi0l : 12 < lengths i0)
    (hi0c : canonicalCode lengths 288 i0 % 4096 = q) :
    ∃ j, j < hlit ∧ 12 < lengths j ∧ canonicalCode lengths 288 j % 4096 = q ∧
      t % 2 ^ (lengths j - 12) =
        (canonicalCode lengths 288 j >>> 12) % 2 ^ (lengths j - 12) := by
  obtain ⟨j, hjS, hm, _⟩ := unique_decode lengths 288 (q + t * 4096) hb htot (by omega)
  obtain ⟨hjr, hjne⟩ := Finset.mem_filter.mp hjS
  have hjn : j < 288 := Finset.mem_range.mp hjr
  have hjh : j < hlit := by
    by_contra hc
    exact hjne (hz j (by omega) hjn)
  have hi0n : i0 < 288 := by omega
  have h4 : (4096 : Nat) = 2 ^ 12 := by norm_num
  have hjl : 12 < lengths j := by
    by_contra hc
    push_neg at hc
    have hdvd : (2 : Nat) ^ lengths j ∣ 2 ^ 12 := pow_dvd_pow 2 hc
    have hqm : (q + t * 4096) % 2 ^ lengths j = q % 2 ^ lengths j := by
      obtain ⟨c, hcEq⟩ := hdvd
      calc (q + t * 4096) % 2 ^ lengths j
          = (q + t * (2 ^ lengths j * c)) % 2 ^ lengths j := by rw [h4, hcEq]
      _ = (q + t * c * 2 ^ lengths j) % 2 ^ lengths j := by ring_nf
      _ = q % 2 ^ lengths j := Nat.add_mul_mod_self_right _ _ _
    have hci0lt : canonicalCode lengths 288 i0 < 2 ^ lengths i0 :=
      canonicalCode_lt lengths 288 i0
    have hv2 : canonicalCode lengths 288 i0 < 2 ^ 15 :=
      lt_of_lt_of_le hci0lt (Nat.pow_le_pow_right (by omega) (hb i0 hi0n))
    obtain ⟨i1, hi1S, hm1, huniq1⟩ :=
      unique_decode lengths 288 (canonicalCode lengths 288 i0) hb htot hv2
    have hne0 : lengths i0 ≠ 0 := by omega
    have e1 : i0 = i1 := huniq1 i0
      (Finset.mem_filter.mpr ⟨Finset.mem_range.mpr hi0n, hne0⟩)
      (Nat.mod_eq_of_lt hci0lt)
    have e2 : j = i1 := by
      apply huniq1 j hjS
      have hstep : canonicalCode lengths 288 i0 % 2 ^ lengths j = q % 2 ^ lengths j := by
        calc canonicalCode lengths 288 i0 % 2 ^ lengths j
            = canonicalCode lengths 288 i0 % 4096 % 2 ^ lengths j := by
              rw [h4]
              exact (Nat.mod_mod_of_dvd _ hdvd).symm
        _ = q % 2 ^ lengths j := by rw [hi0c]
      rw [hstep, ← hqm, hm]
    rw [e2.trans e1.symm] at hc
    omega
  have hdvd12 : (2 : Nat) ^ 12 ∣ 2 ^ lengths j := pow_dvd_pow 2 (by omega)
  have hpfx : canonicalCode lengths 288 j % 4096 = q := by
    calc canonicalCode lengths 288 j % 4096
        = (q + t * 4096) % 2 ^ lengths j % 4096 := by rw [hm]
    _ = (q + t * 4096) % 4096 := by rw [h4]; exact Nat.mod_mod_of_dvd _ hdvd12
    _ = q % 4096 := Nat.add_mul_mod_self_right _ _ _
    _ = q := Nat.mod_eq_of_lt hq
  have hdivt : (q + t * 4096) / 4096 = t := by omega
  have hshift : canonicalCode lengths 288 j >>> 12 = t % 2 ^ (lengths j - 12) := by
    rw [Nat.shiftRight_eq_div_pow, ← hm]
    have hsplit : (2 : Nat) ^ lengths j = 2 ^ 12 * 2 ^ (lengths j - 12) := by
      rw [← pow_add]
      congr 1
      omega
    rw [hsplit, Nat.mod_mul_right_div_self, ← h4, hdivt]
  refine ⟨j, hjh, hjl, hpfx, ?_⟩
  rw [hshift, Nat.mod_mod_of_dvd t (dvd_refl _)]

theorem advanceOK_congr (cb cb' : CompressedBlock)
    (h1 : cb'.advance_table = cb.advance_table)
    (h2 : cb'.secondary_table = cb.secondary_table)
    (h3 : cb'.secondary_len = cb.secondary_len)
    (q : Nat) (h : advanceOK cb q) : advanceOK cb' q := by
  unfold advanceOK at *
  rw [h1, h2, h3]
  exact h

set_option maxHeartbeats 1000000 in
set_option maxRecDepth 4000 in
theorem build_core (lengths : Nat → Nat) (useEL : Bool) (l0 hlit : Nat)
    (cb0 : CompressedBlock)
    (hb : ∀ j, j < 288 → lengths j ≤ 15)
    (htot : kraftTotal lengths 288 = 2 ^ 15)
    (hz : ∀ i, hlit ≤ i → i < 288 → lengths i = 0)
    (hhl : hlit ≤ 288)
    (stl : Nat) (cb4 : CompressedBlock)
    (halloc : Decompressor.allocLoop lengths (canonicalCode lengths 288) hlit 289 0 0
      (Decompressor.stampLoop lengths (canonicalCode lengths 288) hlit 289 0
        (Decompressor.lensymLoop lengths (canonicalCode lengths 288) hlit 289 256
          (Decompressor.litLoop lengths (canonicalCode lengths 288) useEL l0 256 0 cb0))) =
      (cb4, stl))
    (hstl : stl ≤ 0x7ff)
    (cb5 : CompressedBlock)
    (hpop : Decompressor.populateLoop lengths (canonicalCode lengths 288) hlit 289 0
      { cb4 with secondary_table := fun _ => 0, secondary_len := stl } = .ok cb5) :
    ∀ q, q < 4096 → advanceOK cb5 q := by
  intro q hq
  set codes := canonicalCode lengths 288 with hcodesdef
  have hcds : ∀ j, j < 288 → lengths j ≠ 0 → codes j < 2 ^ lengths j :=
    fun j _ _ => canonicalCode_lt lengths 288 j
  set cb1 := Decompressor.litLoop lengths codes useEL l0 256 0 cb0 with hcb1
  set cb2 := Decompressor.lensymLoop lengths codes hlit 289 256 cb1 with hcb2
  set cb3 := Decompressor.stampLoop lengths codes hlit 289 0 cb2 with hcb3
  obtain ⟨⟨hstl_ge, hstl8, hstl_le⟩, hallocF, hallocC⟩ :=
    allocLoop_advance lengths codes hlit 289 0 0 cb3 (by omega) (by omega) (by omega)
  have e1 : (Decompressor.allocLoop lengths codes hlit 289 0 0 cb3).1 = cb4 := by
    rw [halloc]
  have e2 : (Decompressor.allocLoop lengths codes hlit 289 0 0 cb3).2 = stl := by
    rw [halloc]
  rw [e1] at hallocF
  rw [e1, e2] at hallocC
  set cbP : CompressedBlock :=
    { cb4 with secondary_table := fun _ => 0, secondary_len := stl } with hcbP
  have hpre : ∀ j, 0 ≤ j → j < hlit → 12 < lengths j →
      ((cbP.advance_table.get 12 (codes j % 4096) &&& 0x7ff0) >>> 4) + 8 ≤
        cbP.secondary_len := by
    intro j _ hj hjl
    have hqj : codes j % 4096 < 4096 := Nat.mod_lt _ (by norm_num)
    have hlong : longPfxIn lengths codes 0 hlit (codes j % 4096) :=
      ⟨j, Nat.zero_le _, hj, hjl, rfl⟩
    have hstamp := (stampLoop_advance lengths codes hlit 289 0 cb2
      (codes j % 4096) hqj (by omega)).1 hlong
    have hav : allocVal stl (cb4.advance_table.get 12 (codes j % 4096)) :=
      hallocC (codes j % 4096) hqj hlong (Or.inl hstamp)
    obtain ⟨_, hk8, _, _, _⟩ := allocVal_extract stl _ hstl hav
    exact hk8
  obtain ⟨cb5x, hok5, hadv5, hlen5, hgood5, hcov5⟩ :=
    populateLoop_spec lengths codes hlit (fun j hj => hb j (by omega))
      (fun j hj hne => hcds j (by omega) hne) 289 0 cbP (by omega) (by omega) hpre
  rw [hpop] at hok5
  obtain rfl : cb5 = cb5x := by
    injection hok5
  by_cases hA : longPfxIn lengths codes 0 hlit q
  · have hstamp := (stampLoop_advance lengths codes hlit 289 0 cb2 q hq (by omega)).1 hA
    have hav : allocVal stl (cb4.advance_table.get 12 q) := hallocC q hq hA (Or.inl hstamp)
    obtain ⟨haeq, hk8, hand15, hand8000, hneff⟩ := allocVal_extract stl _ hstl hav
    have hget5 : cb5.advance_table.get 12 q = cb4.advance_table.get 12 q := by
      rw [hadv5]
    refine ⟨by rw [hget5]; exact hneff, Or.inr (Or.inr
      ⟨by rw [hget5]; exact hand15, by rw [hget5]; exact hand8000, ?_⟩)⟩
    intro t ht
    rw [hget5]
    constructor
    · rw [hlen5]
      show (cb4.advance_table.get 12 q &&& 0x7ff0) >>> 4 + t < stl
      omega
    · obtain ⟨i0, _, hi0h, hi0l, hi0c⟩ := hA
      obtain ⟨j, hjh, hjl, hjpfx, hjt⟩ :=
        window_cover lengths hlit q t hb htot hz hhl hq ht i0 hi0h hi0l hi0c
      have hcv := hcov5 j t (Nat.zero_le _) hjh hjl ht hjt
      rw [hjpfx] at hcv
      exact hcv
  · have hget3 : cb4.advance_table.get 12 q = cb2.advance_table.get 12 q := by
      rw [hallocF q hq hA]
      exact (stampLoop_advance lengths codes hlit 289 0 cb2 q hq (by omega)).2 hA
    have hget5 : cb5.advance_table.get 12 q = cb2.advance_table.get 12 q := by
      rw [hadv5]
      exact hget3
    by_cases hB1 : lenMatchedIn lengths codes 256 hlit q
    · have hslow := (lensymLoop_advance lengths codes hlit hcds hhl 289 256 cb1
        q hq (by omega)).1 hB1
      obtain ⟨hs1, hs2, hs3⟩ := slowVal_spec _ hslow
      refine ⟨?_, Or.inr (Or.inl ⟨?_, ?_, ?_⟩)⟩
      · rw [hget5]
        intro hc
        rw [hc] at hs2
        exact absurd hs2 (by decide)
      · rw [hget5]; exact hs2
      · rw [hget5]; exact hs1
      · rw [hget5]; exact hs3
    · have hB2 : litMatchedIn lengths codes 0 q := by
        rcases matcher_short_cases lengths hlit q hb htot hz hq hA with h | h
        · exact h
        · exact absurd h hB1
      have hget2 : cb2.advance_table.get 12 q = cb1.advance_table.get 12 q :=
        (lensymLoop_advance lengths codes hlit hcds hhl 289 256 cb1 q hq (by omega)).2 hB1
      have hfast := (litLoop_advance lengths codes useEL l0 hcds 256 0 cb0
        q hq (by omega)).1 hB2
      obtain ⟨hf1, hf2⟩ := fastVal_spec _ hfast
      refine ⟨?_, Or.inl ?_⟩
      · rw [hget5, hget2]; exact hf2
      · rw [hget5, hget2]; exact hf1

theorem build_core2 (lengths : Nat → Nat) (useEL : Bool) (l0 hlit : Nat)
    (cb0 : CompressedBlock)
    (hb : ∀ j, j < 288 → lengths j ≤ 15)
    (htot : kraftTotal lengths 288 = 2 ^ 15)
    (hz : ∀ i, hlit ≤ i → i < 288 → lengths i = 0)
    (hhl : hlit ≤ 288)
    (pr : CompressedBlock × Nat)
    (hpr : Decompressor.allocLoop lengths (canonicalCode lengths 288) hlit 289 0 0
      (Decompressor.stampLoop lengths (canonicalCode lengths 288) hlit 289 0
        (Decompressor.lensymLoop lengths (canonicalCode lengths 288) hlit 289 256
          (Decompressor.litLoop lengths (canonicalCode lengths 288) useEL l0 256 0 cb0))) =
      pr)
    (hstl : pr.2 ≤ 0x7ff)
    (cb5 : CompressedBlock)
    (hpop : Decompressor.populateLoop lengths (canonicalCode lengths 288) hlit 289 0
      { pr.1 with secondary_table := fun _ => 0, secondary_len := pr.2 } = .ok cb5) :
    ∀ q, q < 4096 → advanceOK cb5 q := by
  obtain ⟨cb4, stl⟩ := pr
  exact build_core lengths useEL l0 hlit cb0 hb htot hz hhl stl cb4 hpr hstl cb5 hpop

set_option maxRecDepth 4000 in
/-- C5: after every successful return of `build_tables` — called on a header
state whose literal/length code lengths at and above `hlit` are zero, as
`read_code_lengths` always leaves them — every one of the 4096 entries of
`advance_table` is not the all-ones initial value 0xFFFF, and it either
encodes a literal/length resolution consuming a nonzero number of input bits
(low nibble nonzero), or encodes a length-symbol slow-path entry, or has its
top bit set and points to an 8-slot `secondary_table` window all of whose
slots are in bounds and populated with a code length greater than 12. -/
theorem C5_advance_table_fully_populated (s s2 : Decompressor)
    (hok : Decompressor.build_tables s = .ok s2)
    (hz0 : ∀ i, i < 288 → s.header.hlit ≤ i → s.header.code_lengths.get 12 i = 0) :
    ∀ q, q < 4096 → advanceOK s2.compression q := by
  have hz : ∀ i, s.header.hlit ≤ i → i < 288 → s.header.code_lengths.get 12 i = 0 :=
    fun i h1 h2 => hz0 i h2 h1
  intro q hq
  unfold Decompressor.build_tables at hok
  simp only [] at hok
  split at hok
  · exact (RRes.noConfusion hok)
  · rename_i codes hcc
    have hvc : computeCodesValid (fun i => s.header.code_lengths.get 12 i) 288 = true ∧
        codes = canonicalCode (fun i => s.header.code_lengths.get 12 i) 288 := by
      unfold compute_codes at hcc
      split at hcc
      · rename_i hv
        refine ⟨hv, ?_⟩
        injection hcc with h
        exact h.symm
      · exact (Option.noConfusion hcc)
    obtain ⟨hvc1, rfl⟩ := hvc
    unfold computeCodesValid at hvc1
    have hbv := of_decide_eq_true hvc1
    split at hok
    · exact (RRes.noConfusion hok)
    · rename_i hstl
      split at hok
      · rename_i e hpop
        exact (RRes.noConfusion hok)
      · exact (RRes.noConfusion hok)
      · rename_i cb5 hpop
        have hhl : s.header.hlit ≤ 288 := by
          have := populateLoop_ok_bound _ _ _ 289 0 _ _ hpop
          omega
        have hcore := build_core2 (fun i => s.header.code_lengths.get 12 i) _ _
          s.header.hlit s.compression (fun j hj => hbv.1 j hj) hbv.2 hz hhl
          _ rfl (Nat.le_of_not_lt hstl) cb5 hpop q hq
        split at hok
        · injection hok with h
          rw [← h]
          exact hcore
        · try simp only [] at hok
          split at hok
          · exact (RRes.noConfusion hok)
          · exact (RRes.noConfusion hok)
          · rename_i cbB codes32 hnext
            injection hok with h
            rw [← h]
            split at hnext
            · rename_i codes32x hcc32
              obtain ⟨rfl, rfl⟩ : cb5 = cbB ∧ codes32x = codes32 := by
                injection hnext with hp
                exact ⟨congrArg Prod.fst hp, congrArg Prod.snd hp⟩
              refine advanceOK_congr cb5 _ ?_ ?_ ?_ q hcore
              · exact (distFinalLoop_frame _ 31 0 _).1
              · exact (distFinalLoop_frame _ 31 0 _).2.1
              · exact (distFinalLoop_frame _ 31 0 _).2.2
            · split at hnext
              · exact (RRes.noConfusion hnext)
              · obtain ⟨rfl, rfl⟩ :
                    ({ cb5 with dist_table := fun _ => 0 } : CompressedBlock) = cbB ∧
                      (fun _ => 0 : Nat → Nat) = codes32 := by
                  injection hnext with hp
                  exact ⟨congrArg Prod.fst hp, congrArg Prod.snd hp⟩
                refine advanceOK_congr cb5 _ ?_ ?_ ?_ q hcore
                · exact (distFinalLoop_frame _ 31 0 _).1
                · exact (distFinalLoop_frame _ 31 0 _).2.1
                · exact (distFinalLoop_frame _ 31 0 _).2.2

set_option maxHeartbeats 16000000 in
set_option maxRecDepth 10000 in
/-- Witness for C5: `build_tables` on the concrete state `c5state` (two
literal/length symbols of length one, no distance code) succeeds with result
`c5out`, whose `advance_table` entry 0 satisfies the population property. -/
theorem C5_advance_table_fully_populated_witness : advanceOK c5out.compression 0 :=
  C5_advance_table_fully_populated c5state c5out (by rfl) (by decide) 0 (by decide)

end

end Fdeflate
